import Mathlib

/-!
Verification of the lru-cache library: a shallow embedding of
`src/LruMap.js` (the doubly linked list based LRU map) and of the cache
facade / change aggregator / listener registry module (`LruCache.js`),
together with proofs of the specified properties.

JavaScript `Map` objects are modelled as association lists whose keys are
kept without duplicates; node objects of the doubly linked list are
addressed by their (unique) entry key, so mutating a field of a node
becomes an update of the association list at that key.
-/

namespace LruCacheVerif

/-! ## Association list helpers (model of a JS `Map` with unique keys) -/

/-- Model of `Map.prototype.get`: value stored at a key, `none` when absent. -/
def alGet {κ α : Type} [DecidableEq κ] : List (κ × α) → κ → Option α
  | [], _ => none
  | (k1, v) :: rest, k => if k1 = k then some v else alGet rest k

/-- Model of `Map.prototype.set`: replace the value at the key when present
(keeping its position), append a fresh pair otherwise. -/
def alSet {κ α : Type} [DecidableEq κ] : List (κ × α) → κ → α → List (κ × α)
  | [], k, v => [(k, v)]
  | (k1, v1) :: rest, k, v =>
    if k1 = k then (k1, v) :: rest else (k1, v1) :: alSet rest k v

/-- Model of `Map.prototype.delete` (the removal part; with unique keys the
filter removes exactly the entry for the key). -/
def alErase {κ α : Type} [DecidableEq κ] (l : List (κ × α)) (k : κ) : List (κ × α) :=
  l.filter (fun p => p.1 ≠ k)

/-- Model of `Set.prototype.add`: append the element when absent. -/
def jsAdd {α : Type} [DecidableEq α] (l : List α) (a : α) : List α :=
  if a ∈ l then l else l ++ [a]

/-- Model of `Set.prototype.delete`. -/
def jsDel {α : Type} [DecidableEq α] (l : List α) (a : α) : List α :=
  l.filter (fun x => x ≠ a)

/-- Model of `new Set(list)`: deduplicate keeping first occurrences, in order. -/
def jsSetOf {α : Type} [DecidableEq α] (l : List α) : List α :=
  l.foldl jsAdd []

@[simp] theorem alGet_nil {κ α : Type} [DecidableEq κ] (k : κ) :
    alGet ([] : List (κ × α)) k = none := rfl

@[simp] theorem alGet_cons {κ α : Type} [DecidableEq κ] (k1 k : κ) (v : α) (rest : List (κ × α)) :
    alGet ((k1, v) :: rest) k = if k1 = k then some v else alGet rest k := rfl

@[simp] theorem alSet_nil {κ α : Type} [DecidableEq κ] (k : κ) (v : α) :
    alSet ([] : List (κ × α)) k v = [(k, v)] := rfl

@[simp] theorem alSet_cons {κ α : Type} [DecidableEq κ] (k1 k : κ) (v1 v : α) (rest : List (κ × α)) :
    alSet ((k1, v1) :: rest) k v =
      if k1 = k then (k1, v) :: rest else (k1, v1) :: alSet rest k v := rfl

/-! ## The LRU map (`src/LruMap.js`)

A node of the doubly linked list.  In the source a node is a JS object
`{key, value, next, prev}` held in `keyToEntry`; here a node is addressed
by its key, and `next` / `prev` store the key of the neighbouring node
(`none` for the JS `null`). -/

structure Node (V : Type) where
  value : V
  next : Option String
  prev : Option String
deriving DecidableEq, Repr

/-- The complete state of one `LruMap`: the key-to-node map, the two anchors
of the `entryList`, and the current `sizeLimit`. -/
structure LruState (V : Type) where
  nodes : List (String × Node V)
  newest : Option String
  oldest : Option String
  sizeLimit : Option Nat
deriving DecidableEq, Repr

/-- Update of the node stored at `k` inside a node list. -/
def nlModify {V : Type} (ns : List (String × Node V)) (k : String) (f : Node V → Node V) :
    List (String × Node V) :=
  ns.map (fun p => if p.1 = k then (p.1, f p.2) else p)

/-- Mutation of one field of the node stored at `k` (a JS field assignment
`entry.next = …` on the object found in `keyToEntry`). -/
def modifyNode {V : Type} (s : LruState V) (k : String) (f : Node V → Node V) : LruState V :=
  { s with nodes := nlModify s.nodes k f }

namespace LruMap

variable {V : Type}

/-- The `LruMap(maxSize)` constructor: `sizeLimit = maxSize`, normalizing
`0` to `null` (unbounded). -/
def init (maxSize : Option Nat) (_V : Type) : LruState _V :=
  { nodes := [], newest := none, oldest := none,
    sizeLimit := if maxSize = some 0 then none else maxSize }

/-- `makeNewest(entry, entryList)`: unlink the entry and relink it at the
newest end, translated statement by statement from the source. -/
def makeNewest (k : String) (s : LruState V) : LruState V :=
  if s.newest = some k then
    -- entry already is newest
    s
  else if s.newest = none then
    -- first entry
    { s with newest := some k, oldest := some k }
  else
    match alGet s.nodes k with
    | none => s   -- unreachable at call sites: the entry is always in the map
    | some e =>
      let eNext := e.next
      let ePrev := e.prev
      let oldNewest := s.newest
      -- entry.next = null; entry.prev = entryList.newest
      let s1 := modifyNode s k (fun n => { n with next := none, prev := oldNewest })
      -- entryList.newest = entry
      let s2 := { s1 with newest := some k }
      -- if (eNext !== null) { eNext.prev = ePrev; if (oldest === entry) oldest = eNext }
      let s3 :=
        match eNext with
        | some kn =>
          let t := modifyNode s2 kn (fun n => { n with prev := ePrev })
          if t.oldest = some k then { t with oldest := eNext } else t
        | none => s2
      -- if (oldNewest !== null) { oldNewest.next = entry; entry.prev = oldNewest }
      let s4 :=
        match oldNewest with
        | some ko =>
          let t := modifyNode s3 ko (fun n => { n with next := some k })
          modifyNode t k (fun n => { n with prev := some ko })
        | none => s3
      -- if (ePrev !== null) ePrev.next = eNext
      match ePrev with
      | some kp => modifyNode s4 kp (fun n => { n with next := eNext })
      | none => s4

/-- `removeEntry(entry, entryList, keyToEntry)`: unlink an arbitrary entry
and drop it from the key map. -/
def removeEntry (k : String) (s : LruState V) : LruState V :=
  match alGet s.nodes k with
  | none => s  -- unreachable at call sites: `delete` looks the entry up first
  | some e =>
    let s1 :=
      match e.next with
      | none => { s with newest := e.prev }
      | some kn => modifyNode s kn (fun n => { n with prev := e.prev })
    let s2 :=
      match e.prev with
      | none => { s1 with oldest := e.next }
      | some kp => modifyNode s1 kp (fun n => { n with next := e.next })
    { s2 with nodes := alErase s2.nodes k }

/-- `removeOldest(entryList, keyToEntry)`: drop the head of the list and
return the removed entry (its key and value).  The JS code would crash on an
empty list; at all call sites the list is nonempty. -/
def removeOldest (s : LruState V) : LruState V × Option (String × V) :=
  match s.oldest with
  | none => (s, none)
  | some ko =>
    match alGet s.nodes ko with
    | none => (s, none)  -- `keyToEntry.delete` returned false: unreachable
    | some e =>
      let s1 : LruState V := { s with nodes := alErase s.nodes ko }
      let s2 : LruState V := { s1 with oldest := e.next }
      let s3 :=
        match e.next with
        | some kn => modifyNode s2 kn (fun n => { n with prev := none })
        | none => s2
      (s3, some (ko, e.value))

/-- The `while (keyToEntry.size > maxSize)` loop of `shrinkToMaxSize`,
with the length of the node map as fuel (each iteration removes one node). -/
def shrinkLoop : Nat → Nat → LruState V → LruState V × List (String × V)
  | 0, _, s => (s, [])
  | fuel + 1, m, s =>
    if s.nodes.length > m then
      match removeOldest s with
      | (s1, some r) =>
        let (s2, rs) := shrinkLoop fuel m s1
        (s2, r :: rs)
      | (s1, none) => (s1, [])   -- unreachable: list nonempty when size > m
    else (s, [])

/-- `shrinkToMaxSize(maxSize, entryList, keyToEntry)`: no-op when unbounded,
else evict oldest entries until the size bound holds, returning the
removals oldest first. -/
def shrinkToMaxSize (s : LruState V) : LruState V × List (String × V) :=
  match s.sizeLimit with
  | none => (s, [])
  | some m => shrinkLoop s.nodes.length m s

/-- `self.set(key, value)`: insert a fresh node or update the value in
place, make it newest, shrink, and return the single removal if there was
exactly one. -/
def set (k : String) (v : V) (s : LruState V) : LruState V × Option (String × V) :=
  let s1 :=
    match alGet s.nodes k with
    | none => { s with nodes := alSet s.nodes k { value := v, next := none, prev := none } }
    | some _ => modifyNode s k (fun n => { n with value := v })
  let s2 := makeNewest k s1
  let (s3, removals) := shrinkToMaxSize s2
  (s3, if removals.length = 1 then removals.head? else none)

/-- `self.get(key)`: lookup; on a hit make the entry newest and return its
value. -/
def get (k : String) (s : LruState V) : LruState V × Option V :=
  match alGet s.nodes k with
  | none => (s, none)
  | some e => (makeNewest k s, some e.value)

/-- `self.getWithoutLruChange(key)`: lookup without touching the order. -/
def getWithoutLruChange (k : String) (s : LruState V) : Option V :=
  match alGet s.nodes k with
  | none => none
  | some e => some e.value

/-- `self.delete(key)`. -/
def delete (k : String) (s : LruState V) : LruState V × Bool :=
  match alGet s.nodes k with
  | none => (s, false)
  | some _ => (removeEntry k s, true)

/-- `self.setMaxSize(newMaxSize)`: store the new limit (normalizing `0` to
unbounded) and shrink, returning the removals. -/
def setMaxSize (n : Option Nat) (s : LruState V) : LruState V × List (String × V) :=
  shrinkToMaxSize { s with sizeLimit := if n = some 0 then none else n }

/-- The traversal loop shared by `forEach` and `map`: walk from `oldest`
along the `next` pointers, with fuel (the walk visits each node once on a
well formed list). -/
def traverseFrom (s : LruState V) : Nat → Option String → List (String × V)
  | 0, _ => []
  | _ + 1, none => []
  | fuel + 1, some k =>
    match alGet s.nodes k with
    | none => []
    | some e => (k, e.value) :: traverseFrom s fuel e.next

/-- The list of entries in traversal order (oldest to newest), as produced
by `forEach` / `map` (which pass `(value, key)` to the callback). -/
def toList (s : LruState V) : List (String × V) :=
  traverseFrom s s.nodes.length s.oldest

/-- `self.clear()`: return all entries oldest to newest (computed through
`self.map`) and reset the map and both anchors. -/
def clear (s : LruState V) : LruState V × List (String × V) :=
  ({ s with nodes := [], newest := none, oldest := none }, toList s)

/-- `self.getSize()`. -/
def getSize (s : LruState V) : Nat := s.nodes.length

/-- `self.getMaxSize()`. -/
def getMaxSize (s : LruState V) : Option Nat := s.sizeLimit

end LruMap

/-! ## Basic lemmas about the map model -/

section MapLemmas

variable {κ α : Type} [DecidableEq κ]

theorem alGet_eq_none_iff (l : List (κ × α)) (k : κ) :
    alGet l k = none ↔ k ∉ l.map Prod.fst := by
  induction l with
  | nil => simp
  | cons hd tl ih =>
    obtain ⟨k1, v⟩ := hd
    by_cases h : k1 = k
    · subst h; simp [alGet]
    · simp [alGet, h, ih, Ne.symm h]

theorem alGet_isSome_of_mem {l : List (κ × α)} {k : κ} (h : k ∈ l.map Prod.fst) :
    (alGet l k).isSome := by
  rcases hc : alGet l k with _ | v
  · exact absurd ((alGet_eq_none_iff l k).mp hc) (by simpa using h)
  · rfl

@[simp] theorem alGet_alSet_self (l : List (κ × α)) (k : κ) (v : α) :
    alGet (alSet l k v) k = some v := by
  induction l with
  | nil => simp [alSet, alGet]
  | cons hd tl ih =>
    obtain ⟨k1, v1⟩ := hd
    by_cases h : k1 = k <;> simp [alSet, alGet, h, ih]

theorem alGet_alSet_ne (l : List (κ × α)) {k k2 : κ} (v : α) (h : k2 ≠ k) :
    alGet (alSet l k v) k2 = alGet l k2 := by
  induction l with
  | nil => simp [alSet, alGet, Ne.symm h]
  | cons hd tl ih =>
    obtain ⟨k1, v1⟩ := hd
    by_cases h1 : k1 = k
    · subst h1
      simp [alSet, alGet, Ne.symm h]
    · simp only [alSet, if_neg h1]
      by_cases h2 : k1 = k2 <;> simp [alGet, h2, ih]

theorem alSet_of_not_mem {l : List (κ × α)} {k : κ} (h : k ∉ l.map Prod.fst) (v : α) :
    alSet l k v = l ++ [(k, v)] := by
  induction l with
  | nil => simp [alSet]
  | cons hd tl ih =>
    obtain ⟨k1, v1⟩ := hd
    simp only [List.map_cons, List.mem_cons] at h
    push_neg at h
    simp [alSet, Ne.symm h.1, ih h.2]

theorem map_fst_alSet_of_not_mem {l : List (κ × α)} {k : κ} (h : k ∉ l.map Prod.fst) (v : α) :
    (alSet l k v).map Prod.fst = l.map Prod.fst ++ [k] := by
  rw [alSet_of_not_mem h v]; simp

@[simp] theorem alErase_nil (k : κ) : alErase ([] : List (κ × α)) k = [] := rfl

theorem alErase_cons (k1 : κ) (v1 : α) (tl : List (κ × α)) (k : κ) :
    alErase ((k1, v1) :: tl) k =
      if k1 = k then alErase tl k else (k1, v1) :: alErase tl k := by
  by_cases h : k1 = k <;> simp [alErase, List.filter_cons, h]

@[simp] theorem alGet_alErase_self (l : List (κ × α)) (k : κ) :
    alGet (alErase l k) k = none := by
  induction l with
  | nil => simp
  | cons hd tl ih =>
    obtain ⟨k1, v1⟩ := hd
    by_cases h : k1 = k <;> simp [alErase_cons, alGet, h, ih]

theorem alGet_alErase_ne (l : List (κ × α)) {k k2 : κ} (h : k2 ≠ k) :
    alGet (alErase l k) k2 = alGet l k2 := by
  induction l with
  | nil => simp
  | cons hd tl ih =>
    obtain ⟨k1, v1⟩ := hd
    by_cases h1 : k1 = k
    · subst h1
      simp [alErase_cons, alGet, Ne.symm h, ih]
    · by_cases h2 : k1 = k2
      · subst h2
        simp [alErase_cons, alGet, h1, Ne.symm h, ih]
      · simp [alErase_cons, alGet, h1, h2, ih]

theorem map_fst_alErase (l : List (κ × α)) (k : κ) :
    (alErase l k).map Prod.fst = (l.map Prod.fst).filter (fun x => x ≠ k) := by
  induction l with
  | nil => simp
  | cons hd tl ih =>
    obtain ⟨k1, v1⟩ := hd
    by_cases h : k1 = k <;> simp [alErase_cons, List.filter_cons, h, ih]

end MapLemmas

section NodeListLemmas

variable {V : Type}

@[simp] theorem nlModify_nil (k : String) (f : Node V → Node V) :
    nlModify ([] : List (String × Node V)) k f = [] := rfl

theorem nlModify_cons_self (k : String) (v1 : Node V) (tl : List (String × Node V))
    (f : Node V → Node V) :
    nlModify ((k, v1) :: tl) k f = (k, f v1) :: nlModify tl k f := by
  simp [nlModify]

theorem nlModify_cons_ne {k1 k : String} (h : k1 ≠ k) (v1 : Node V)
    (tl : List (String × Node V)) (f : Node V → Node V) :
    nlModify ((k1, v1) :: tl) k f = (k1, v1) :: nlModify tl k f := by
  simp [nlModify, h]

@[simp] theorem alGet_nlModify_self (ns : List (String × Node V)) (k : String)
    (f : Node V → Node V) : alGet (nlModify ns k f) k = (alGet ns k).map f := by
  induction ns with
  | nil => simp
  | cons hd tl ih =>
    obtain ⟨k1, v1⟩ := hd
    by_cases h : k1 = k
    · subst h
      simp [nlModify_cons_self, ih]
    · simp [nlModify_cons_ne h, h, ih]

theorem alGet_nlModify_ne (ns : List (String × Node V)) {k k2 : String}
    (f : Node V → Node V) (h : k2 ≠ k) :
    alGet (nlModify ns k f) k2 = alGet ns k2 := by
  induction ns with
  | nil => simp
  | cons hd tl ih =>
    obtain ⟨k1, v1⟩ := hd
    by_cases h1 : k1 = k
    · subst h1
      simp [nlModify_cons_self, Ne.symm h, ih]
    · by_cases h2 : k1 = k2
      · subst h2
        simp [nlModify_cons_ne h1, ih]
      · simp [nlModify_cons_ne h1, h2, ih]

@[simp] theorem map_fst_nlModify (ns : List (String × Node V)) (k : String)
    (f : Node V → Node V) : (nlModify ns k f).map Prod.fst = ns.map Prod.fst := by
  induction ns with
  | nil => simp
  | cons hd tl ih =>
    obtain ⟨k1, v1⟩ := hd
    by_cases h : k1 = k
    · subst h
      simp [nlModify_cons_self, ih]
    · simp [nlModify_cons_ne h, ih]

end NodeListLemmas

/-! ## The doubly linked list representation predicate

`DSeg ns p f q n l` states that, inside the node list `ns`, the cursor `f`
starts a well linked segment holding exactly the entries of `l` in order:
the first node's `prev` is `p`, consecutive nodes point at each other, the
last node's `next` is `n`, and `q` is the key of the last node of the
segment (`p` when the segment is empty). -/

def DSeg {V : Type} (ns : List (String × Node V)) :
    Option String → Option String → Option String → Option String →
    List (String × V) → Prop
  | p, f, q, n, [] => f = n ∧ q = p
  | p, f, q, n, (k, v) :: rest =>
    f = some k ∧ ∃ nd, alGet ns k = some nd ∧ nd.value = v ∧ nd.prev = p ∧
      DSeg ns (some k) nd.next q n rest

theorem dseg_nil {V : Type} (ns : List (String × Node V)) (p f q n : Option String) :
    DSeg ns p f q n [] ↔ (f = n ∧ q = p) := Iff.rfl

theorem dseg_cons {V : Type} (ns : List (String × Node V)) (p f q n : Option String)
    (k : String) (v : V) (rest : List (String × V)) :
    DSeg ns p f q n ((k, v) :: rest) ↔
      (f = some k ∧ ∃ nd, alGet ns k = some nd ∧ nd.value = v ∧ nd.prev = p ∧
        DSeg ns (some k) nd.next q n rest) := Iff.rfl

/-- A segment only looks at the nodes stored at its own keys. -/
theorem dseg_congr {V : Type} {ns ns2 : List (String × Node V)} :
    ∀ {l : List (String × V)} {p f q n : Option String},
      (∀ kk ∈ l.map Prod.fst, alGet ns2 kk = alGet ns kk) →
      DSeg ns p f q n l → DSeg ns2 p f q n l := by
  intro l
  induction l with
  | nil => intro p f q n _ h; exact h
  | cons hd rest ih =>
    obtain ⟨k, v⟩ := hd
    intro p f q n hag h
    obtain ⟨hf, nd, hget, hval, hprev, hrest⟩ := h
    refine ⟨hf, nd, ?_, hval, hprev, ?_⟩
    · rw [hag k (by simp), hget]
    · exact ih (fun kk hkk => hag kk (by simp [hkk])) hrest

/-- Splitting / joining of segments at a list append. -/
theorem dseg_append {V : Type} (ns : List (String × Node V)) :
    ∀ (l1 l2 : List (String × V)) (p f q n : Option String),
      DSeg ns p f q n (l1 ++ l2) ↔
        ∃ f2 q1, DSeg ns p f q1 f2 l1 ∧ DSeg ns q1 f2 q n l2 := by
  intro l1
  induction l1 with
  | nil =>
    intro l2 p f q n
    constructor
    · intro h; exact ⟨f, p, ⟨rfl, rfl⟩, h⟩
    · rintro ⟨f2, q1, ⟨rfl, rfl⟩, h⟩; exact h
  | cons hd rest ih =>
    obtain ⟨k, v⟩ := hd
    intro l2 p f q n
    constructor
    · rintro ⟨hf, nd, hget, hval, hprev, hrest⟩
      obtain ⟨f2, q1, ha, hb⟩ := (ih l2 (some k) nd.next q n).mp hrest
      exact ⟨f2, q1, ⟨hf, nd, hget, hval, hprev, ha⟩, hb⟩
    · rintro ⟨f2, q1, ⟨hf, nd, hget, hval, hprev, ha⟩, hb⟩
      exact ⟨hf, nd, hget, hval, hprev, (ih l2 (some k) nd.next q n).mpr ⟨f2, q1, ha, hb⟩⟩

/-- The `q` parameter of a nonempty segment is the key of its last entry. -/
theorem dseg_last {V : Type} {ns : List (String × Node V)} :
    ∀ {l : List (String × V)} {p f q n : Option String},
      DSeg ns p f q n l → l ≠ [] → q = (l.map Prod.fst).getLast? := by
  intro l
  induction l with
  | nil => intro p f q n _ h; exact absurd rfl h
  | cons hd rest ih =>
    obtain ⟨k, v⟩ := hd
    rintro p f q n ⟨hf, nd, hget, hval, hprev, hrest⟩ _
    rcases rest with _ | ⟨hd2, rest2⟩
    · obtain ⟨h1, h2⟩ := hrest
      simp [h2]
    · rw [ih hrest (by simp)]
      obtain ⟨k2, v2⟩ := hd2
      simp [List.getLast?_cons_cons]

/-- Every key of a segment is present in the node list. -/
theorem dseg_keys_present {V : Type} {ns : List (String × Node V)} :
    ∀ {l : List (String × V)} {p f q n : Option String},
      DSeg ns p f q n l → ∀ kk ∈ l.map Prod.fst, (alGet ns kk).isSome := by
  intro l
  induction l with
  | nil => intro p f q n _ kk h; simp at h
  | cons hd rest ih =>
    obtain ⟨k, v⟩ := hd
    rintro p f q n ⟨hf, nd, hget, hval, hprev, hrest⟩ kk hkk
    rcases (by simpa using hkk : kk = k ∨ kk ∈ rest.map Prod.fst) with h | h
    · subst h; simp [hget]
    · exact ih hrest kk h

/-- Redirect the `next` pointer of the last node of a segment (all other
nodes of the segment unchanged). -/
theorem dseg_retarget_last {V : Type} {ns ns2 : List (String × Node V)} :
    ∀ {l : List (String × V)} {p f q n n2 : Option String} {kL : String},
      DSeg ns p f q n l →
      (l.map Prod.fst).Nodup →
      (l.map Prod.fst).getLast? = some kL →
      (∀ kk ∈ l.map Prod.fst, kk ≠ kL → alGet ns2 kk = alGet ns kk) →
      (∀ nd, alGet ns kL = some nd → alGet ns2 kL = some { nd with next := n2 }) →
      DSeg ns2 p f q n2 l := by
  intro l
  induction l with
  | nil => intro p f q n n2 kL _ _ hlast _ _; simp at hlast
  | cons hd rest ih =>
    obtain ⟨k, v⟩ := hd
    rintro p f q n n2 kL ⟨hf, nd, hget, hval, hprev, hrest⟩ hnd hlast hag hlk
    rcases rest with _ | ⟨⟨k2, v2⟩, rest2⟩
    · -- singleton: k is the last node
      obtain ⟨hn, hq⟩ := hrest
      have hkL : kL = k := by simpa using hlast.symm
      subst hkL
      refine ⟨hf, { nd with next := n2 }, hlk nd hget, hval, hprev, ?_, ?_⟩ <;> simp [hq]
    · -- the last node is further down
      have hlast2 : (((k2, v2) :: rest2).map Prod.fst).getLast? = some kL := by
        simpa [List.getLast?_cons_cons] using hlast
      simp only [List.map_cons] at hnd
      have hnd2 := List.nodup_cons.mp hnd
      have hkmem : kL ∈ ((k2, v2) :: rest2).map Prod.fst :=
        List.mem_of_mem_getLast? (by rw [Option.mem_def]; simpa using hlast2)
      have hkne : k ≠ kL := by
        intro h
        subst h
        exact hnd2.1 (by simpa using hkmem)
      refine ⟨hf, nd, ?_, hval, hprev, ?_⟩
      · rw [hag k (by simp) hkne, hget]
      · refine ih hrest (by simpa using hnd2.2) hlast2 (fun kk hkk h2 => hag kk ?_ h2) hlk
        simp only [List.map_cons, List.mem_cons] at hkk ⊢
        exact Or.inr hkk

/-! ## Representation of an `LruMap` state by its entry list

`Represents s l` says the pointer structure of `s` is a well formed doubly
linked list holding exactly the entries of `l`, oldest first. -/

structure Represents {V : Type} (s : LruState V) (l : List (String × V)) : Prop where
  chain : DSeg s.nodes none s.oldest s.newest none l
  nodup : (l.map Prod.fst).Nodup
  perm : (s.nodes.map Prod.fst).Perm (l.map Prod.fst)

theorem traverseFrom_eq {V : Type} (s : LruState V) :
    ∀ (l : List (String × V)) (p f q : Option String) (fuel : Nat),
      DSeg s.nodes p f q none l → l.length ≤ fuel →
      LruMap.traverseFrom s fuel f = l := by
  intro l
  induction l with
  | nil =>
    rintro p f q fuel ⟨hf, _⟩ _
    subst hf
    cases fuel <;> rfl
  | cons hd rest ih =>
    obtain ⟨k, v⟩ := hd
    rintro p f q fuel ⟨hf, nd, hget, hval, hprev, hrest⟩ hlen
    subst hf
    rcases fuel with _ | fu
    · simp at hlen
    · rw [LruMap.traverseFrom, hget]
      show (k, nd.value) :: LruMap.traverseFrom s fu nd.next = (k, v) :: rest
      rw [hval, ih (some k) nd.next q fu hrest (by simpa using hlen)]

/-- On a represented state the `forEach` / `map` traversal produces exactly
the represented entry list. -/
theorem toList_eq {V : Type} {s : LruState V} {l : List (String × V)}
    (hrep : Represents s l) : LruMap.toList s = l := by
  have hlen : s.nodes.length = l.length := by
    have := hrep.perm.length_eq
    simpa using this
  exact traverseFrom_eq s l none s.oldest s.newest s.nodes.length hrep.chain (le_of_eq hlen.symm)

/-- The first branch of `makeNewest`: the entry already is newest. -/
theorem makeNewest_of_newest {V : Type} {s : LruState V} {k : String}
    (h : s.newest = some k) : LruMap.makeNewest k s = s := by
  rw [LruMap.makeNewest, if_pos h]

/-- `makeNewest` after inserting a fresh unlinked node, as done by `set` for
a new key: the entry is appended at the newest end. -/
theorem makeNewest_spec_fresh {V : Type} {s : LruState V} {l : List (String × V)}
    (hrep : Represents s l) {k : String} (hk : k ∉ l.map Prod.fst) (v : V) :
    Represents
      (LruMap.makeNewest k { s with nodes := alSet s.nodes k ⟨v, none, none⟩ })
      (l ++ [(k, v)]) := by
  obtain ⟨hchain, hnodup, hperm⟩ := hrep
  have hknotnodes : k ∉ s.nodes.map Prod.fst := fun h => hk (hperm.mem_iff.mp h)
  rcases eq_or_ne l [] with hl | hlne
  · -- previously empty map
    subst hl
    obtain ⟨holdest, hnewest⟩ := hchain
    have hnil : s.nodes = [] := by
      have := hperm.length_eq
      simpa [List.length_eq_zero] using this
    have hres : LruMap.makeNewest k { s with nodes := alSet s.nodes k ⟨v, none, none⟩ } =
        { s with nodes := alSet s.nodes k ⟨v, none, none⟩,
                 newest := some k, oldest := some k } := by
      rw [LruMap.makeNewest]
      rw [if_neg (by simp [hnewest]), if_pos (by simp [hnewest])]
    rw [hres]
    refine ⟨⟨rfl, ⟨v, none, none⟩, by simp, rfl, rfl, rfl, rfl⟩, by simp, ?_⟩
    simp [hnil, alSet]
  · -- previously nonempty map: the old newest is relinked to the fresh node
    obtain ⟨klast, hklast⟩ : ∃ kl, (l.map Prod.fst).getLast? = some kl :=
      Option.isSome_iff_exists.mp (List.getLast?_isSome.mpr (by simpa using hlne))
    have hnewest : s.newest = some klast := by
      rw [dseg_last hchain hlne, hklast]
    have hklastmem : klast ∈ l.map Prod.fst :=
      List.mem_of_mem_getLast? (by rw [Option.mem_def]; exact hklast)
    have hklastne : klast ≠ k := fun h => hk (h ▸ hklastmem)
    have hget0 : alGet (alSet s.nodes k (⟨v, none, none⟩ : Node V)) k =
        some ⟨v, none, none⟩ := by simp
    have hres : LruMap.makeNewest k { s with nodes := alSet s.nodes k ⟨v, none, none⟩ } =
        { s with
            nodes := nlModify (nlModify (nlModify (alSet s.nodes k ⟨v, none, none⟩)
                k (fun n => { n with next := none, prev := some klast }))
                klast (fun n => { n with next := some k }))
                k (fun n => { n with prev := some klast }),
            newest := some k } := by
      rw [LruMap.makeNewest]
      rw [if_neg (by simp [hnewest, hklastne]), if_neg (by simp [hnewest])]
      rw [show alGet ({ s with nodes := alSet s.nodes k ⟨v, none, none⟩ } : LruState V).nodes k =
            some ⟨v, none, none⟩ from hget0]
      simp only [hnewest, modifyNode]
    rw [hres]
    set ns2 : List (String × Node V) :=
      nlModify (nlModify (nlModify (alSet s.nodes k ⟨v, none, none⟩)
        k (fun n => { n with next := none, prev := some klast }))
        klast (fun n => { n with next := some k }))
        k (fun n => { n with prev := some klast }) with hns2
    have hagree : ∀ kk ∈ l.map Prod.fst, kk ≠ klast → alGet ns2 kk = alGet s.nodes kk := by
      intro kk hkk hkkne
      have hkkk : kk ≠ k := fun h => hk (h ▸ hkk)
      rw [hns2, alGet_nlModify_ne _ _ hkkk, alGet_nlModify_ne _ _ hkkne,
        alGet_nlModify_ne _ _ hkkk, alGet_alSet_ne _ _ hkkk]
    have hklastfact : ∀ nd : Node V, alGet s.nodes klast = some nd →
        alGet ns2 klast = some { nd with next := some k } := by
      intro nd hnd
      rw [hns2, alGet_nlModify_ne _ _ hklastne, alGet_nlModify_self,
        alGet_nlModify_ne _ _ hklastne, alGet_alSet_ne _ _ hklastne, hnd]
      rfl
    have hkfact : alGet ns2 k = some ⟨v, none, some klast⟩ := by
      rw [hns2, alGet_nlModify_self, alGet_nlModify_ne _ _ (Ne.symm hklastne),
        alGet_nlModify_self, hget0]
      rfl
    have hchain2 : DSeg s.nodes none s.oldest (some klast) none l := hnewest ▸ hchain
    refine ⟨?_, ?_, ?_⟩
    · refine (dseg_append ns2 l [(k, v)] none s.oldest (some k) none).mpr
        ⟨some k, some klast, ?_, ?_⟩
      · exact dseg_retarget_last hchain2 hnodup hklast hagree hklastfact
      · exact ⟨rfl, ⟨v, none, some klast⟩, hkfact, rfl, rfl, rfl, rfl⟩
    · simp only [List.map_append, List.map_cons, List.map_nil]
      rw [List.nodup_append]
      exact ⟨hnodup, by simp, by intro a ha hb; simp at hb; exact hk (hb ▸ ha)⟩
    · have h1 : ns2.map Prod.fst = s.nodes.map Prod.fst ++ [k] := by
        rw [hns2]
        simp [map_fst_alSet_of_not_mem hknotnodes]
      rw [h1]
      simpa using hperm.append_right [k]

/-- Rebuild the tail segment that followed a moved entry: its head gets the
new `prev` link `p2` and its last node is redirected to point at `k`. -/
theorem dseg_move_tail {V : Type} {ns ns2 : List (String × Node V)} {kn klast k : String}
    {vn : V} {l2t : List (String × V)} {nd2 : Node V} {p2 : Option String}
    (hget2 : alGet ns kn = some nd2) (hnd2val : nd2.value = vn)
    (hrest2 : DSeg ns (some kn) nd2.next (some klast) none l2t)
    (hnd : (kn :: l2t.map Prod.fst).Nodup)
    (hlast : (kn :: l2t.map Prod.fst).getLast? = some klast)
    (hagree : ∀ kk ∈ l2t.map Prod.fst, kk ≠ klast → alGet ns2 kk = alGet ns kk)
    (hkn1 : l2t = [] → alGet ns2 kn = some { nd2 with next := some k, prev := p2 })
    (hkn2 : l2t ≠ [] → alGet ns2 kn = some { nd2 with prev := p2 })
    (hklastf : ∀ nd : Node V, alGet ns klast = some nd → klast ≠ kn →
      alGet ns2 klast = some { nd with next := some k }) :
    DSeg ns2 p2 (some kn) (some klast) (some k) ((kn, vn) :: l2t) := by
  rcases l2t with _ | ⟨⟨k2, v2⟩, l2tt⟩
  · obtain ⟨hnext2, hlk⟩ := hrest2
    have hklkn : klast = kn := by simpa using hlk
    exact ⟨rfl, { nd2 with next := some k, prev := p2 }, hkn1 rfl, hnd2val, rfl,
      rfl, by rw [hklkn]⟩
  · have hlast2 : ((k2 :: l2tt.map Prod.fst)).getLast? = some klast := by
      simpa [List.getLast?_cons_cons] using hlast
    have hklastmem : klast ∈ k2 :: l2tt.map Prod.fst :=
      List.mem_of_mem_getLast? (by rw [Option.mem_def]; exact hlast2)
    have hnd1 := List.nodup_cons.mp hnd
    have hknrest : kn ∉ k2 :: l2tt.map Prod.fst := by
      intro h
      exact hnd1.1 (by simpa using h)
    have hklkn : klast ≠ kn := fun h => hknrest (h ▸ hklastmem)
    refine ⟨rfl, { nd2 with prev := p2 }, hkn2 (by simp), hnd2val, rfl, ?_⟩
    exact dseg_retarget_last hrest2 hnd1.2
      (by simpa using hlast2) (fun kk hkk h2 => hagree kk hkk h2)
      (fun nd hnd0 => hklastf nd hnd0 hklkn)

/-- `makeNewest` on an entry already linked in the list: the entry moves to
the newest end, everything else keeps its order. -/
theorem makeNewest_spec_mem {V : Type} {s : LruState V} {l1 l2 : List (String × V)}
    {k : String} {v : V}
    (hrep : Represents s (l1 ++ (k, v) :: l2)) :
    Represents (LruMap.makeNewest k s) (l1 ++ l2 ++ [(k, v)]) := by
  obtain ⟨hchain, hnodupAll, hperm⟩ := hrep
  obtain ⟨f2, q1, D1, Dmid⟩ := (dseg_append _ _ _ _ _ _ _).mp hchain
  obtain ⟨hf2, nd, hget, hndval, hndprev, hrest⟩ := Dmid
  subst hf2
  rcases l2 with _ | ⟨⟨kn, vn⟩, l2t⟩
  · -- the entry already is newest: `makeNewest` is the identity
    obtain ⟨hndnext, hnewest⟩ := hrest
    rw [makeNewest_of_newest hnewest]
    exact ⟨by simpa using hchain, by simpa using hnodupAll, by simpa using hperm⟩
  · have hnewest : s.newest = (((kn, vn) :: l2t).map Prod.fst).getLast? :=
      dseg_last hrest (by simp)
    obtain ⟨klast, hklast⟩ : ∃ kl, (((kn, vn) :: l2t).map Prod.fst).getLast? = some kl :=
      Option.isSome_iff_exists.mp (List.getLast?_isSome.mpr (by simp))
    rw [hklast] at hnewest
    obtain ⟨hndnext, nd2, hget2, hnd2val, hnd2prev, hrest2⟩ := hrest
    rw [hnewest] at hrest2
    -- key distinctness facts
    have hnodup := hnodupAll
    simp only [List.map_append, List.map_cons] at hnodup
    rw [List.nodup_append] at hnodup
    obtain ⟨hndK1, hndR, hdisj⟩ := hnodup
    rw [List.nodup_cons] at hndR
    obtain ⟨hkR, hndR2⟩ := hndR
    rw [List.nodup_cons] at hndR2
    obtain ⟨hknK2, hndK2⟩ := hndR2
    have hkkn : k ≠ kn := fun h => hkR (by simp [h])
    have hkK2 : k ∉ l2t.map Prod.fst := fun h => hkR (by simp [h])
    have hklastmem : klast ∈ kn :: l2t.map Prod.fst := by
      have := List.mem_of_mem_getLast?
        (show klast ∈ ((((kn, vn) :: l2t).map Prod.fst)).getLast? by
          rw [Option.mem_def]; exact hklast)
      simpa using this
    have hklastk : klast ≠ k := by
      rcases (by simpa using hklastmem : klast = kn ∨ klast ∈ l2t.map Prod.fst) with h | h
      · rw [h]; exact Ne.symm hkkn
      · exact fun hh => hkK2 (hh ▸ h)
    have hndRall : (kn :: l2t.map Prod.fst).Nodup := List.nodup_cons.mpr ⟨hknK2, hndK2⟩
    have hlastR : (kn :: l2t.map Prod.fst).getLast? = some klast := by
      simpa using hklast
    rcases l1 with _ | ⟨⟨k0, v0⟩, l1t⟩
    · -- the moved entry was the oldest
      obtain ⟨holdest, hq1⟩ := D1
      rw [hq1] at hndprev
      have hres : LruMap.makeNewest k s = { s with
          nodes := nlModify (nlModify (nlModify (nlModify s.nodes
              k (fun n => { n with next := none, prev := some klast }))
              kn (fun n => { n with prev := none }))
              klast (fun n => { n with next := some k }))
              k (fun n => { n with prev := some klast }),
          newest := some k, oldest := some kn } := by
        rw [LruMap.makeNewest]
        rw [if_neg (by simp [hnewest, hklastk]), if_neg (by simp [hnewest]), hget]
        simp only [hndnext, hndprev, hnewest, holdest, modifyNode]
        rfl
      rw [hres]
      set ns2 : List (String × Node V) :=
        nlModify (nlModify (nlModify (nlModify s.nodes
          k (fun n => { n with next := none, prev := some klast }))
          kn (fun n => { n with prev := none }))
          klast (fun n => { n with next := some k }))
          k (fun n => { n with prev := some klast }) with hns2
      have hagree : ∀ kk ∈ l2t.map Prod.fst, kk ≠ klast → alGet ns2 kk = alGet s.nodes kk := by
        intro kk hkk hkkl
        have h1 : kk ≠ k := fun h => hkK2 (h ▸ hkk)
        have h2 : kk ≠ kn := fun h => hknK2 (h ▸ hkk)
        rw [hns2, alGet_nlModify_ne _ _ h1, alGet_nlModify_ne _ _ hkkl,
          alGet_nlModify_ne _ _ h2, alGet_nlModify_ne _ _ h1]
      have hkfact : alGet ns2 k = some ⟨v, none, some klast⟩ := by
        rw [hns2, alGet_nlModify_self, alGet_nlModify_ne _ _ (Ne.symm hklastk),
          alGet_nlModify_ne _ _ hkkn, alGet_nlModify_self, hget]
        simp [hndval]
      have hkn1 : l2t = [] → alGet ns2 kn =
          some { nd2 with next := some k, prev := none } := by
        intro hnil
        have hklkn : klast = kn := by
          rcases (by simpa using hklastmem : klast = kn ∨ klast ∈ l2t.map Prod.fst) with h | h
          · exact h
          · rw [hnil] at h; simp at h
        rw [hns2, alGet_nlModify_ne _ _ (Ne.symm hkkn), hklkn, alGet_nlModify_self,
          alGet_nlModify_self, alGet_nlModify_ne _ _ (Ne.symm hkkn), hget2]
        rfl
      have hklmem2 : l2t ≠ [] → klast ∈ l2t.map Prod.fst := by
        intro hne
        rcases l2t with _ | ⟨⟨k2, v2⟩, l2tt⟩
        · exact absurd rfl hne
        · have hx : ((k2 :: l2tt.map Prod.fst)).getLast? = some klast := by
            simpa [List.getLast?_cons_cons] using hlastR
          simp only [List.map_cons]
          exact List.mem_of_mem_getLast? (by rw [Option.mem_def]; exact hx)
      have hkn2 : l2t ≠ [] → alGet ns2 kn = some { nd2 with prev := none } := by
        intro hne
        have hklkn : klast ≠ kn := fun hh => hknK2 (hh ▸ hklmem2 hne)
        rw [hns2, alGet_nlModify_ne _ _ (Ne.symm hkkn), alGet_nlModify_ne _ _ (Ne.symm hklkn),
          alGet_nlModify_self, alGet_nlModify_ne _ _ (Ne.symm hkkn), hget2]
        rfl
      have hklastf : ∀ nd0 : Node V, alGet s.nodes klast = some nd0 → klast ≠ kn →
          alGet ns2 klast = some { nd0 with next := some k } := by
        intro nd0 h0 hkl
        rw [hns2, alGet_nlModify_ne _ _ hklastk, alGet_nlModify_self,
          alGet_nlModify_ne _ _ hkl, alGet_nlModify_ne _ _ hklastk, h0]
        rfl
      refine ⟨?_, ?_, ?_⟩
      · show DSeg ns2 none (some kn) (some k) none (([] ++ (kn, vn) :: l2t) ++ [(k, v)])
        rw [List.nil_append]
        refine (dseg_append ns2 ((kn, vn) :: l2t) [(k, v)] none (some kn) (some k) none).mpr
          ⟨some k, some klast, ?_, ?_⟩
        · exact dseg_move_tail hget2 hnd2val hrest2 hndRall hlastR hagree hkn1 hkn2 hklastf
        · exact ⟨rfl, ⟨v, none, some klast⟩, hkfact, rfl, rfl, rfl, rfl⟩
      · simp only [List.nil_append, List.map_append, List.map_cons, List.map_nil]
        exact (List.perm_append_singleton k (kn :: l2t.map Prod.fst)).symm.nodup
          (List.nodup_cons.mpr ⟨hkR, hndRall⟩)
      · have h1 : ns2.map Prod.fst = s.nodes.map Prod.fst := by rw [hns2]; simp
        show (ns2.map Prod.fst).Perm ((([] ++ (kn, vn) :: l2t) ++ [(k, v)]).map Prod.fst)
        rw [h1]
        refine (hperm.trans ?_)
        simpa using (List.perm_append_singleton k (kn :: l2t.map Prod.fst)).symm
    · -- the moved entry had a nonempty prefix
      have hD1ne : ((k0, v0) :: l1t) ≠ ([] : List (String × V)) := by simp
      have hq1 : q1 = (((k0, v0) :: l1t).map Prod.fst).getLast? := dseg_last D1 hD1ne
      obtain ⟨kp, hkp⟩ : ∃ kp, (((k0, v0) :: l1t).map Prod.fst).getLast? = some kp :=
        Option.isSome_iff_exists.mp (List.getLast?_isSome.mpr (by simp))
      rw [hkp] at hq1
      rw [hq1] at hndprev
      have hkpK1 : kp ∈ ((k0, v0) :: l1t).map Prod.fst :=
        List.mem_of_mem_getLast? (by rw [Option.mem_def]; exact hkp)
      have hkpR : kp ∉ k :: kn :: l2t.map Prod.fst := fun h => hdisj hkpK1 h
      have hkpk : kp ≠ k := fun h => hkpR (by simp [h])
      have hkpkn : kp ≠ kn := fun h => hkpR (by simp [h])
      have hkpK2 : kp ∉ l2t.map Prod.fst := fun h => hkpR (by simp [h])
      have hkpkl : kp ≠ klast := by
        rcases (by simpa using hklastmem : klast = kn ∨ klast ∈ l2t.map Prod.fst) with h | h
        · rw [h]; exact hkpkn
        · exact fun hh => hkpK2 (hh ▸ h)
      have holdest : s.oldest = some k0 := D1.1
      have hk0K1 : k0 ∈ ((k0, v0) :: l1t).map Prod.fst := by simp
      have hk0k : k0 ≠ k := fun h => hdisj hk0K1 (by simp [h])
      have hres : LruMap.makeNewest k s = { s with
          nodes := nlModify (nlModify (nlModify (nlModify (nlModify s.nodes
              k (fun n => { n with next := none, prev := some klast }))
              kn (fun n => { n with prev := some kp }))
              klast (fun n => { n with next := some k }))
              k (fun n => { n with prev := some klast }))
              kp (fun n => { n with next := some kn }),
          newest := some k } := by
        rw [LruMap.makeNewest]
        rw [if_neg (by simp [hnewest, hklastk]), if_neg (by simp [hnewest]), hget]
        simp only [hndnext, hndprev, hnewest, holdest, modifyNode]
        simp [hk0k]
      rw [hres]
      set ns2 : List (String × Node V) :=
        nlModify (nlModify (nlModify (nlModify (nlModify s.nodes
          k (fun n => { n with next := none, prev := some klast }))
          kn (fun n => { n with prev := some kp }))
          klast (fun n => { n with next := some k }))
          k (fun n => { n with prev := some klast }))
          kp (fun n => { n with next := some kn }) with hns2
      have hagree : ∀ kk ∈ l2t.map Prod.fst, kk ≠ klast → alGet ns2 kk = alGet s.nodes kk := by
        intro kk hkk hkkl
        have h1 : kk ≠ k := fun h => hkK2 (h ▸ hkk)
        have h2 : kk ≠ kn := fun h => hknK2 (h ▸ hkk)
        have h3 : kk ≠ kp := fun h => hkpK2 (h ▸ hkk)
        rw [hns2, alGet_nlModify_ne _ _ h3, alGet_nlModify_ne _ _ h1,
          alGet_nlModify_ne _ _ hkkl, alGet_nlModify_ne _ _ h2, alGet_nlModify_ne _ _ h1]
      have hkfact : alGet ns2 k = some ⟨v, none, some klast⟩ := by
        rw [hns2, alGet_nlModify_ne _ _ (Ne.symm hkpk), alGet_nlModify_self,
          alGet_nlModify_ne _ _ (Ne.symm hklastk), alGet_nlModify_ne _ _ hkkn,
          alGet_nlModify_self, hget]
        simp [hndval]
      have hkn1 : l2t = [] → alGet ns2 kn =
          some { nd2 with next := some k, prev := some kp } := by
        intro hnil
        have hklkn : klast = kn := by
          rcases (by simpa using hklastmem : klast = kn ∨ klast ∈ l2t.map Prod.fst) with h | h
          · exact h
          · rw [hnil] at h; simp at h
        rw [hns2, alGet_nlModify_ne _ _ (Ne.symm hkpkn), alGet_nlModify_ne _ _ (Ne.symm hkkn),
          hklkn, alGet_nlModify_self, alGet_nlModify_self,
          alGet_nlModify_ne _ _ (Ne.symm hkkn), hget2]
        rfl
      have hklmem2 : l2t ≠ [] → klast ∈ l2t.map Prod.fst := by
        intro hne
        rcases l2t with _ | ⟨⟨k2, v2⟩, l2tt⟩
        · exact absurd rfl hne
        · have hx : ((k2 :: l2tt.map Prod.fst)).getLast? = some klast := by
            simpa [List.getLast?_cons_cons] using hlastR
          simp only [List.map_cons]
          exact List.mem_of_mem_getLast? (by rw [Option.mem_def]; exact hx)
      have hkn2 : l2t ≠ [] → alGet ns2 kn = some { nd2 with prev := some kp } := by
        intro hne
        have hklkn : klast ≠ kn := fun hh => hknK2 (hh ▸ hklmem2 hne)
        rw [hns2, alGet_nlModify_ne _ _ (Ne.symm hkpkn), alGet_nlModify_ne _ _ (Ne.symm hkkn),
          alGet_nlModify_ne _ _ (Ne.symm hklkn), alGet_nlModify_self,
          alGet_nlModify_ne _ _ (Ne.symm hkkn), hget2]
        rfl
      have hklastf : ∀ nd0 : Node V, alGet s.nodes klast = some nd0 → klast ≠ kn →
          alGet ns2 klast = some { nd0 with next := some k } := by
        intro nd0 h0 hkl
        rw [hns2, alGet_nlModify_ne _ _ (Ne.symm hkpkl), alGet_nlModify_ne _ _ hklastk,
          alGet_nlModify_self, alGet_nlModify_ne _ _ hkl, alGet_nlModify_ne _ _ hklastk, h0]
        rfl
      have hkpfact : ∀ ndp : Node V, alGet s.nodes kp = some ndp →
          alGet ns2 kp = some { ndp with next := some kn } := by
        intro ndp hp
        rw [hns2, alGet_nlModify_self, alGet_nlModify_ne _ _ hkpk,
          alGet_nlModify_ne _ _ hkpkl, alGet_nlModify_ne _ _ hkpkn,
          alGet_nlModify_ne _ _ hkpk, hp]
        rfl
      have hagreeK1 : ∀ kk ∈ ((k0, v0) :: l1t).map Prod.fst, kk ≠ kp →
          alGet ns2 kk = alGet s.nodes kk := by
        intro kk hkk hkkp
        have hR : kk ∉ k :: kn :: l2t.map Prod.fst := fun h => hdisj hkk h
        have h1 : kk ≠ k := fun h => hR (by simp [h])
        have h2 : kk ≠ kn := fun h => hR (by simp [h])
        have h3 : kk ≠ klast := by
          rcases (by simpa using hklastmem : klast = kn ∨ klast ∈ l2t.map Prod.fst) with h | h
          · rw [h]; exact h2
          · exact fun hh => hR (by simp [hh ▸ h])
        rw [hns2, alGet_nlModify_ne _ _ hkkp, alGet_nlModify_ne _ _ h1,
          alGet_nlModify_ne _ _ h3, alGet_nlModify_ne _ _ h2, alGet_nlModify_ne _ _ h1]
      rw [hq1] at D1
      refine ⟨?_, ?_, ?_⟩
      · show DSeg ns2 none s.oldest (some k) none
          ((((k0, v0) :: l1t) ++ (kn, vn) :: l2t) ++ [(k, v)])
        rw [List.append_assoc]
        refine (dseg_append ns2 ((k0, v0) :: l1t) ((kn, vn) :: l2t ++ [(k, v)])
          none s.oldest (some k) none).mpr ⟨some kn, some kp, ?_, ?_⟩
        · exact dseg_retarget_last D1 hndK1 hkp hagreeK1 hkpfact
        · refine (dseg_append ns2 ((kn, vn) :: l2t) [(k, v)] (some kp) (some kn)
            (some k) none).mpr ⟨some k, some klast, ?_, ?_⟩
          · exact dseg_move_tail hget2 hnd2val hrest2 hndRall hlastR hagree hkn1 hkn2 hklastf
          · exact ⟨rfl, ⟨v, none, some klast⟩, hkfact, rfl, rfl, rfl, rfl⟩
      · simp only [List.map_append, List.map_cons, List.map_nil]
        rw [List.append_assoc]
        refine (List.Perm.append_left _ (List.perm_append_singleton k _).symm).nodup ?_
        simpa using hnodupAll
      · have h1 : ns2.map Prod.fst = s.nodes.map Prod.fst := by rw [hns2]; simp
        show (ns2.map Prod.fst).Perm
          (((((k0, v0) :: l1t) ++ (kn, vn) :: l2t) ++ [(k, v)]).map Prod.fst)
        rw [h1]
        simp only [List.map_append, List.map_cons, List.map_nil]
        rw [List.append_assoc]
        refine hperm.trans ?_
        simpa using List.Perm.append_left (((k0, v0) :: l1t).map Prod.fst)
          (List.perm_append_singleton k (((kn, vn) :: l2t).map Prod.fst)).symm

theorem makeNewest_sizeLimit {V : Type} (k : String) (s : LruState V) :
    (LruMap.makeNewest k s).sizeLimit = s.sizeLimit := by
  rw [LruMap.makeNewest]
  split
  · rfl
  split
  · rfl
  split
  · rfl
  dsimp only
  split <;> split <;> (try split) <;> (try split) <;> rfl

theorem removeOldest_sizeLimit {V : Type} (s : LruState V) :
    (LruMap.removeOldest s).1.sizeLimit = s.sizeLimit := by
  rw [LruMap.removeOldest]
  split
  · rfl
  split
  · rfl
  dsimp only
  split <;> rfl

theorem shrinkLoop_sizeLimit {V : Type} :
    ∀ (fuel m : Nat) (s : LruState V), (LruMap.shrinkLoop fuel m s).1.sizeLimit = s.sizeLimit := by
  intro fuel
  induction fuel with
  | zero => intro m s; rfl
  | succ fu ih =>
    intro m s
    rw [LruMap.shrinkLoop]
    split
    · rcases hro : LruMap.removeOldest s with ⟨s1, r⟩
      have h1 : s1.sizeLimit = s.sizeLimit := by
        have := removeOldest_sizeLimit s
        rw [hro] at this
        exact this
      rcases r with _ | e
      · simpa using h1
      · dsimp only
        rcases hsl : LruMap.shrinkLoop fu m s1 with ⟨s2, rs⟩
        have h2 := ih m s1
        rw [hsl] at h2
        simpa using h2.trans h1
    · rfl

/-- Removing the current oldest entry (the loop body of `shrinkToMaxSize`;
the list holds at least two entries at every call site). -/
theorem removeOldest_spec {V : Type} {s : LruState V} {k0 : String} {v0 : V}
    {lt : List (String × V)}
    (hrep : Represents s ((k0, v0) :: lt)) (hne : lt ≠ []) :
    ∃ s2, LruMap.removeOldest s = (s2, some (k0, v0)) ∧ Represents s2 lt := by
  obtain ⟨hchain, hnodupAll, hperm⟩ := hrep
  obtain ⟨holdest, nd0, hget0, hval0, hprev0, hrest⟩ := hchain
  rcases lt with _ | ⟨⟨k1, v1⟩, ltt⟩
  · exact absurd rfl hne
  obtain ⟨hnext0, nd1, hget1, hval1, hprev1, hrestt⟩ := hrest
  have hnodup := hnodupAll
  rw [List.map_cons, List.nodup_cons] at hnodup
  obtain ⟨hk0r, hnodt⟩ := hnodup
  have hk0k1 : k0 ≠ k1 := fun h => hk0r (by simp [h])
  have hk0tt : k0 ∉ ltt.map Prod.fst := fun h => hk0r (by simp [h])
  have hnodt2 := hnodt
  rw [List.map_cons, List.nodup_cons] at hnodt2
  obtain ⟨hk1tt, hnodtt⟩ := hnodt2
  have hk1tt2 : k1 ∉ ltt.map Prod.fst := by simpa using hk1tt
  let s2 : LruState V := { s with
    nodes := nlModify (alErase s.nodes k0) k1 (fun n => { n with prev := none }),
    oldest := some k1 }
  refine ⟨s2, ?_, ?_, hnodt, ?_⟩
  · rw [LruMap.removeOldest, holdest]
    dsimp only
    rw [hget0]
    dsimp only
    rw [hnext0]
    dsimp only [modifyNode]
    rw [hval0]
  · refine ⟨rfl, { nd1 with prev := none }, ?_, hval1, rfl, ?_⟩
    · show alGet (nlModify (alErase s.nodes k0) k1 (fun n => { n with prev := none })) k1 = _
      rw [alGet_nlModify_self, alGet_alErase_ne _ (Ne.symm hk0k1), hget1]
      rfl
    · refine dseg_congr ?_ hrestt
      intro kk hkk
      have h1 : kk ≠ k0 := fun h => hk0tt (h ▸ hkk)
      have h2 : kk ≠ k1 := fun h => hk1tt2 (h ▸ hkk)
      show alGet (nlModify (alErase s.nodes k0) k1
        (fun n => { n with prev := none })) kk = alGet s.nodes kk
      rw [alGet_nlModify_ne _ _ h2, alGet_alErase_ne _ h1]
  · show ((nlModify (alErase s.nodes k0) k1
      (fun n => { n with prev := none })).map Prod.fst).Perm
      (((k1, v1) :: ltt).map Prod.fst)
    rw [map_fst_nlModify, map_fst_alErase]
    have h1 := hperm.filter (fun x => x ≠ k0)
    refine h1.trans ?_
    rw [List.map_cons, List.filter_cons]
    simp only [decide_not, Bool.not_eq_eq_eq_not, Bool.not_true, decide_eq_false_iff_not,
      Decidable.not_not]
    rw [if_neg (by simp)]
    rw [List.filter_eq_self.mpr]
    intro a ha
    simp only [decide_not, Bool.not_eq_eq_eq_not, Bool.not_true, decide_eq_false_iff_not]
    exact fun h => hk0r (h ▸ ha)

/-- The shrink loop evicts exactly the `length - m` oldest entries, in
order, provided the bound `m` is at least one. -/
theorem shrinkLoop_spec {V : Type} :
    ∀ (fuel : Nat) {m : Nat} {s : LruState V} {l : List (String × V)},
      Represents s l → 1 ≤ m → l.length ≤ fuel →
      (LruMap.shrinkLoop fuel m s).2 = l.take (l.length - m) ∧
        Represents (LruMap.shrinkLoop fuel m s).1 (l.drop (l.length - m)) := by
  intro fuel
  induction fuel with
  | zero =>
    intro m s l hrep hm hlen
    have hl : l = [] := List.length_eq_zero.mp (Nat.le_zero.mp hlen)
    subst hl
    refine ⟨by simp [LruMap.shrinkLoop], ?_⟩
    simpa [LruMap.shrinkLoop] using hrep
  | succ fu ih =>
    intro m s l hrep hm hlen
    have hlens : s.nodes.length = l.length := by
      have := hrep.perm.length_eq
      simpa using this
    rw [LruMap.shrinkLoop]
    by_cases hgt : s.nodes.length > m
    · rw [if_pos hgt]
      have hlgt : l.length > m := hlens ▸ hgt
      have hllen2 : 2 ≤ l.length := le_trans (Nat.succ_le_succ hm) hlgt
      rcases l with _ | ⟨⟨k0, v0⟩, lt⟩
      · simp at hlgt
      have hlgt2 : lt.length + 1 > m := by simpa using hlgt
      have hltne : lt ≠ [] := by
        intro h
        rw [h] at hllen2
        simp at hllen2
      obtain ⟨s2, hro, hrep2⟩ := removeOldest_spec hrep hltne
      rw [hro]
      dsimp only
      have hlt : lt.length ≤ fu := by
        have : ((k0, v0) :: lt).length ≤ fu + 1 := hlen
        simpa using this
      obtain ⟨htake, hdrop⟩ := ih hrep2 hm hlt
      rcases hsl : LruMap.shrinkLoop fu m s2 with ⟨s3, rs⟩
      rw [hsl] at htake hdrop
      have harith : ((k0, v0) :: lt).length - m = (lt.length - m) + 1 := by
        simp only [List.length_cons]
        omega
      clear hlgt
      constructor
      · rw [harith, List.take_succ_cons, htake]
      · rw [harith, List.drop_succ_cons]
        exact hdrop
    · rw [if_neg hgt]
      have : l.length - m = 0 := by omega
      rw [this]
      exact ⟨rfl, hrep⟩

/-- `shrinkToMaxSize` with an unbounded limit does nothing. -/
theorem shrinkToMaxSize_spec_none {V : Type} {s : LruState V}
    (h : s.sizeLimit = none) : LruMap.shrinkToMaxSize s = (s, []) := by
  rw [LruMap.shrinkToMaxSize, h]

/-- `shrinkToMaxSize` with bound `m ≥ 1` evicts the `length - m` oldest
entries in order. -/
theorem shrinkToMaxSize_spec_some {V : Type} {s : LruState V} {l : List (String × V)} {m : Nat}
    (hrep : Represents s l) (h : s.sizeLimit = some m) (hm : 1 ≤ m) :
    (LruMap.shrinkToMaxSize s).2 = l.take (l.length - m) ∧
      Represents (LruMap.shrinkToMaxSize s).1 (l.drop (l.length - m)) := by
  rw [LruMap.shrinkToMaxSize, h]
  have hlens : s.nodes.length = l.length := by
    have := hrep.perm.length_eq
    simpa using this
  rw [hlens]
  exact shrinkLoop_spec l.length hrep hm (le_refl _)

theorem exists_split_of_mem_keys {V : Type} {l : List (String × V)} {k : String}
    (h : k ∈ l.map Prod.fst) : ∃ l1 v l2, l = l1 ++ (k, v) :: l2 := by
  induction l with
  | nil => simp at h
  | cons hd tl ih =>
    obtain ⟨k1, v1⟩ := hd
    rcases (by simpa using h : k = k1 ∨ k ∈ tl.map Prod.fst) with h1 | h1
    · exact ⟨[], v1, tl, by simp [h1]⟩
    · obtain ⟨l1, v, l2, heq⟩ := ih h1
      exact ⟨(k1, v1) :: l1, v, l2, by rw [heq]; rfl⟩

/-- In a represented split list the middle key is absent from both sides. -/
theorem split_not_mem {V : Type} {l1 l2 : List (String × V)} {k : String} {v : V}
    (hnodup : ((l1 ++ (k, v) :: l2).map Prod.fst).Nodup) :
    k ∉ l1.map Prod.fst ∧ k ∉ l2.map Prod.fst := by
  simp only [List.map_append, List.map_cons] at hnodup
  rw [List.nodup_append] at hnodup
  obtain ⟨h1, h2, hdisj⟩ := hnodup
  rw [List.nodup_cons] at h2
  exact ⟨fun h => hdisj h (by simp), h2.1⟩

/-- The node stored at a represented key. -/
theorem represents_alGet {V : Type} {s : LruState V} {l1 l2 : List (String × V)}
    {k : String} {v : V} (hrep : Represents s (l1 ++ (k, v) :: l2)) :
    ∃ nd : Node V, alGet s.nodes k = some nd ∧ nd.value = v := by
  obtain ⟨f2, q1, D1, hf2, nd, hget, hval, hprev, hrest⟩ :=
    (dseg_append _ _ _ _ _ _ _).mp hrep.chain
  exact ⟨nd, hget, hval⟩

/-- A key absent from the represented list is absent from the node map. -/
theorem represents_alGet_none {V : Type} {s : LruState V} {l : List (String × V)}
    {k : String} (hrep : Represents s l) (hk : k ∉ l.map Prod.fst) :
    alGet s.nodes k = none := by
  rw [alGet_eq_none_iff]
  exact fun h => hk (hrep.perm.mem_iff.mp h)

/-- Replacing the stored value at a represented key (`entry.value = value`
inside `set`). -/
theorem dseg_set_value {V : Type} {ns : List (String × Node V)} {l1 l2 : List (String × V)}
    {k : String} {vOld v : V} {p f q n : Option String}
    (h : DSeg ns p f q n (l1 ++ (k, vOld) :: l2))
    (hk1 : k ∉ l1.map Prod.fst) (hk2 : k ∉ l2.map Prod.fst) :
    DSeg (nlModify ns k (fun nd => { nd with value := v })) p f q n (l1 ++ (k, v) :: l2) := by
  obtain ⟨f2, q1, D1, hf2, nd, hget, hval, hprev, hrest⟩ := (dseg_append _ _ _ _ _ _ _).mp h
  refine (dseg_append _ _ _ _ _ _ _).mpr
    ⟨f2, q1, ?_, hf2, { nd with value := v }, ?_, rfl, hprev, ?_⟩
  · exact dseg_congr (fun kk hkk => alGet_nlModify_ne _ _ (fun hh => hk1 (hh ▸ hkk))) D1
  · rw [alGet_nlModify_self, hget]
    rfl
  · exact dseg_congr (fun kk hkk => alGet_nlModify_ne _ _ (fun hh => hk2 (hh ▸ hkk))) hrest

/-- Size limits of at least one (the constructor and `setMaxSize` normalize
`0` to unbounded, so every reachable bounded limit is positive). -/
def CapOK {V : Type} (s : LruState V) : Prop :=
  ∀ m, s.sizeLimit = some m → 1 ≤ m

/-- `set` on an existing key: the value is replaced, the entry moves to the
newest position, nothing is evicted and nothing is returned. -/
theorem set_spec_update {V : Type} {s : LruState V} {l1 l2 : List (String × V)}
    {k : String} {vOld v : V}
    (hrep : Represents s (l1 ++ (k, vOld) :: l2)) (hcap : CapOK s)
    (hsize : ∀ m, s.sizeLimit = some m → (l1 ++ (k, vOld) :: l2).length ≤ m) :
    (LruMap.set k v s).2 = none ∧
      Represents (LruMap.set k v s).1 (l1 ++ l2 ++ [(k, v)]) := by
  obtain ⟨nd, hget, hval⟩ := represents_alGet hrep
  obtain ⟨hk1, hk2⟩ := split_not_mem hrep.nodup
  have hrep1 : Represents (modifyNode s k (fun n => { n with value := v }))
      (l1 ++ (k, v) :: l2) := by
    refine ⟨?_, by simpa using hrep.nodup, by simpa [modifyNode] using hrep.perm⟩
    exact dseg_set_value hrep.chain hk1 hk2
  have hrep2 : Represents (LruMap.makeNewest k (modifyNode s k (fun n => { n with value := v })))
      (l1 ++ l2 ++ [(k, v)]) := makeNewest_spec_mem hrep1
  have hsl2 : (LruMap.makeNewest k (modifyNode s k (fun n => { n with value := v }))).sizeLimit
      = s.sizeLimit := makeNewest_sizeLimit _ _
  have hlen2 : (l1 ++ l2 ++ [(k, v)]).length = (l1 ++ (k, vOld) :: l2).length := by simp
  rw [LruMap.set, hget]
  dsimp only
  rcases hsh : LruMap.shrinkToMaxSize
      (LruMap.makeNewest k (modifyNode s k (fun n => { n with value := v }))) with ⟨s3, rems⟩
  rcases hcase : s.sizeLimit with _ | m
  · have hnone := shrinkToMaxSize_spec_none (hsl2.trans hcase)
    rw [hsh] at hnone
    obtain ⟨h1, h2⟩ := Prod.mk.injEq .. |>.mp hnone
    dsimp only
    rw [h2]
    exact ⟨rfl, h1 ▸ hrep2⟩
  · obtain ⟨htake, hdrop⟩ := shrinkToMaxSize_spec_some hrep2 (hsl2.trans hcase) (hcap m hcase)
    have hz : (l1 ++ l2 ++ [(k, v)]).length - m = 0 := by
      have := hsize m hcase
      omega
    rw [hz] at htake hdrop
    rw [hsh] at htake hdrop
    simp only [List.take_zero] at htake
    simp only [List.drop_zero] at hdrop
    dsimp only
    rw [htake]
    exact ⟨rfl, hdrop⟩

/-- `set` on a fresh key with room left (or no bound): the entry is appended
as newest and nothing is returned. -/
theorem set_spec_fresh_room {V : Type} {s : LruState V} {l : List (String × V)}
    {k : String} {v : V}
    (hrep : Represents s l) (hk : k ∉ l.map Prod.fst) (hcap : CapOK s)
    (hroom : ∀ m, s.sizeLimit = some m → l.length + 1 ≤ m) :
    (LruMap.set k v s).2 = none ∧
      Represents (LruMap.set k v s).1 (l ++ [(k, v)]) := by
  have hget : alGet s.nodes k = none := represents_alGet_none hrep hk
  have hrep2 : Represents
      (LruMap.makeNewest k { s with nodes := alSet s.nodes k ⟨v, none, none⟩ })
      (l ++ [(k, v)]) := makeNewest_spec_fresh hrep hk v
  have hsl2 : (LruMap.makeNewest k
      { s with nodes := alSet s.nodes k ⟨v, none, none⟩ }).sizeLimit = s.sizeLimit :=
    makeNewest_sizeLimit _ _
  rw [LruMap.set, hget]
  dsimp only
  rcases hsh : LruMap.shrinkToMaxSize
      (LruMap.makeNewest k { s with nodes := alSet s.nodes k ⟨v, none, none⟩ }) with ⟨s3, rems⟩
  rcases hcase : s.sizeLimit with _ | m
  · have hnone := shrinkToMaxSize_spec_none (hsl2.trans hcase)
    rw [hsh] at hnone
    obtain ⟨h1, h2⟩ := Prod.mk.injEq .. |>.mp hnone
    dsimp only
    rw [h2]
    exact ⟨rfl, h1 ▸ hrep2⟩
  · obtain ⟨htake, hdrop⟩ := shrinkToMaxSize_spec_some hrep2 (hsl2.trans hcase) (hcap m hcase)
    have hz : (l ++ [(k, v)]).length - m = 0 := by
      have := hroom m hcase
      simp only [List.length_append, List.length_cons, List.length_nil]
      omega
    rw [hz] at htake hdrop
    rw [hsh] at htake hdrop
    simp only [List.take_zero] at htake
    simp only [List.drop_zero] at hdrop
    dsimp only
    rw [htake]
    exact ⟨rfl, hdrop⟩

/-- `set` of a fresh key into a full bounded map: exactly the current oldest
entry is evicted and returned. -/
theorem set_spec_fresh_evict {V : Type} {s : LruState V} {k0 : String} {v0 : V}
    {lt : List (String × V)} {k : String} {v : V} {m : Nat}
    (hrep : Represents s ((k0, v0) :: lt)) (hk : k ∉ ((k0, v0) :: lt).map Prod.fst)
    (hfull : s.sizeLimit = some m) (hm : 1 ≤ m)
    (hlen : ((k0, v0) :: lt).length = m) :
    (LruMap.set k v s).2 = some (k0, v0) ∧
      Represents (LruMap.set k v s).1 (lt ++ [(k, v)]) := by
  have hget : alGet s.nodes k = none := represents_alGet_none hrep hk
  have hrep2 : Represents
      (LruMap.makeNewest k { s with nodes := alSet s.nodes k ⟨v, none, none⟩ })
      ((k0, v0) :: lt ++ [(k, v)]) := makeNewest_spec_fresh hrep hk v
  have hsl2 : (LruMap.makeNewest k
      { s with nodes := alSet s.nodes k ⟨v, none, none⟩ }).sizeLimit = s.sizeLimit :=
    makeNewest_sizeLimit _ _
  rw [LruMap.set, hget]
  dsimp only
  rcases hsh : LruMap.shrinkToMaxSize
      (LruMap.makeNewest k { s with nodes := alSet s.nodes k ⟨v, none, none⟩ }) with ⟨s3, rems⟩
  obtain ⟨htake, hdrop⟩ := shrinkToMaxSize_spec_some hrep2 (hsl2.trans hfull) hm
  have hone : ((k0, v0) :: lt ++ [(k, v)]).length - m = 1 := by
    have hx : ((k0, v0) :: lt).length = m := hlen
    simp only [List.length_cons, List.length_append, List.length_nil] at hx ⊢
    omega
  rw [hone] at htake hdrop
  rw [hsh] at htake hdrop
  dsimp only
  simp only [List.take_succ_cons, List.take_zero] at htake
  simp only [List.drop_succ_cons, List.drop_zero] at hdrop
  rw [htake]
  exact ⟨rfl, hdrop⟩

/-- `get` on a present key returns the stored value and touches the entry
to the newest position. -/
theorem get_spec_mem {V : Type} {s : LruState V} {l1 l2 : List (String × V)}
    {k : String} {v : V} (hrep : Represents s (l1 ++ (k, v) :: l2)) :
    (LruMap.get k s).2 = some v ∧
      Represents (LruMap.get k s).1 (l1 ++ l2 ++ [(k, v)]) := by
  obtain ⟨nd, hget, hval⟩ := represents_alGet hrep
  rw [LruMap.get, hget]
  exact ⟨by simp [hval], makeNewest_spec_mem hrep⟩

/-- `get` on an absent key returns `undefined` and leaves the state alone. -/
theorem get_spec_miss {V : Type} {s : LruState V} {k : String}
    (hget : alGet s.nodes k = none) : LruMap.get k s = (s, none) := by
  rw [LruMap.get, hget]

/-- `getWithoutLruChange` returns the stored value without any state
change (it is a pure function of the state). -/
theorem getWithoutLruChange_spec_mem {V : Type} {s : LruState V} {l1 l2 : List (String × V)}
    {k : String} {v : V} (hrep : Represents s (l1 ++ (k, v) :: l2)) :
    LruMap.getWithoutLruChange k s = some v := by
  obtain ⟨nd, hget, hval⟩ := represents_alGet hrep
  rw [LruMap.getWithoutLruChange, hget]
  show some nd.value = some v
  rw [hval]

theorem getWithoutLruChange_spec_miss {V : Type} {s : LruState V} {k : String}
    (hget : alGet s.nodes k = none) : LruMap.getWithoutLruChange k s = none := by
  rw [LruMap.getWithoutLruChange, hget]

/-- `removeEntry` unlinks exactly the entry for the key and leaves the order
of all other entries untouched. -/
theorem removeEntry_spec {V : Type} {s : LruState V} {l1 l2 : List (String × V)}
    {k : String} {v : V} (hrep : Represents s (l1 ++ (k, v) :: l2)) :
    Represents (LruMap.removeEntry k s) (l1 ++ l2) := by
  obtain ⟨hchain, hnodupAll, hperm⟩ := hrep
  obtain ⟨f2, q1, D1, hf2, nd, hget, hndval, hndprev, hrest⟩ :=
    (dseg_append _ _ _ _ _ _ _).mp hchain
  subst hf2
  have hnd := hnodupAll
  simp only [List.map_append, List.map_cons] at hnd
  rw [List.nodup_append] at hnd
  obtain ⟨hndK1, hndR, hdisj⟩ := hnd
  rw [List.nodup_cons] at hndR
  obtain ⟨hkK2, hndK2⟩ := hndR
  have hkK1 : k ∉ l1.map Prod.fst := fun h => hdisj h (by simp)
  have hpermNew : ∀ ns2 : List (String × Node V), ns2.map Prod.fst = s.nodes.map Prod.fst →
      (((alErase ns2 k).map Prod.fst)).Perm ((l1 ++ l2).map Prod.fst) := by
    intro ns2 hns2
    rw [map_fst_alErase, hns2]
    refine (hperm.filter (fun x => x ≠ k)).trans ?_
    simp only [List.map_append, List.map_cons]
    rw [List.filter_append, List.filter_cons]
    rw [if_neg (by simp)]
    rw [List.filter_eq_self.mpr, List.filter_eq_self.mpr]
    · intro a ha
      have hane : a ≠ k := fun h => hkK2 (h ▸ ha)
      simp [hane]
    · intro a ha
      have hane : a ≠ k := fun h => hkK1 (h ▸ ha)
      simp [hane]
  rcases l2 with _ | ⟨⟨kn, vn⟩, l2t⟩
  · obtain ⟨hnn, hnw⟩ := hrest
    rcases l1 with _ | ⟨⟨k0, v0⟩, l1t⟩
    · -- sole entry: both anchors reset
      obtain ⟨holdK, hq1⟩ := D1
      rw [hq1] at hndprev
      have hres : LruMap.removeEntry k s =
          { s with nodes := alErase s.nodes k, newest := none, oldest := none } := by
        rw [LruMap.removeEntry, hget]
        dsimp only
        rw [hnn, hndprev]
      rw [hres]
      exact ⟨⟨rfl, rfl⟩, by simp, by simpa using hpermNew s.nodes rfl⟩
    · -- last entry of a longer list: the previous node becomes newest
      have hq1 : q1 = (((k0, v0) :: l1t).map Prod.fst).getLast? := dseg_last D1 (by simp)
      obtain ⟨kp, hkp⟩ : ∃ kp, (((k0, v0) :: l1t).map Prod.fst).getLast? = some kp :=
        Option.isSome_iff_exists.mp (List.getLast?_isSome.mpr (by simp))
      rw [hkp] at hq1
      rw [hq1] at hndprev D1
      have hkpK1 : kp ∈ ((k0, v0) :: l1t).map Prod.fst :=
        List.mem_of_mem_getLast? (by rw [Option.mem_def]; exact hkp)
      have hkpk : kp ≠ k := fun h => hdisj (h ▸ hkpK1) (by simp)
      have hres : LruMap.removeEntry k s =
          { s with
            nodes := (alErase (nlModify s.nodes kp (fun n => { n with next := none })) k),
            newest := some kp } := by
        rw [LruMap.removeEntry, hget]
        dsimp only
        rw [hnn, hndprev]
        dsimp only [modifyNode]
      rw [hres]
      refine ⟨?_, by simpa using hndK1, ?_⟩
      · show DSeg _ none s.oldest (some kp) none (((k0, v0) :: l1t) ++ [])
        rw [List.append_nil]
        refine dseg_retarget_last D1 hndK1 hkp ?_ ?_
        · intro kk hkk hkkp
          have h1 : kk ≠ k := fun h => hdisj (h ▸ hkk) (by simp)
          rw [alGet_alErase_ne _ h1, alGet_nlModify_ne _ _ hkkp]
        · intro nd0 h0
          rw [alGet_alErase_ne _ hkpk, alGet_nlModify_self, h0]
          rfl
      · exact hpermNew _ (by simp)
  · obtain ⟨hnnext, nd2, hget2, hnd2val, hnd2prev, hrest2⟩ := hrest
    have hknK2 : kn ∉ l2t.map Prod.fst := (List.nodup_cons.mp (by simpa using hndK2)).1
    have hkkn : k ≠ kn := fun h => hkK2 (by simp [h])
    rcases l1 with _ | ⟨⟨k0, v0⟩, l1t⟩
    · -- first entry removed: the next node becomes oldest
      obtain ⟨holdK, hq1⟩ := D1
      rw [hq1] at hndprev
      have hres : LruMap.removeEntry k s =
          { s with
            nodes := (alErase (nlModify s.nodes kn (fun n => { n with prev := none })) k),
            oldest := some kn } := by
        rw [LruMap.removeEntry, hget]
        dsimp only
        rw [hnnext, hndprev]
        dsimp only [modifyNode]
      rw [hres]
      refine ⟨?_, by simpa using hndK2, ?_⟩
      · show DSeg _ none (some kn) s.newest none ([] ++ (kn, vn) :: l2t)
        rw [List.nil_append]
        refine ⟨rfl, { nd2 with prev := none }, ?_, hnd2val, rfl, ?_⟩
        · rw [alGet_alErase_ne _ (Ne.symm hkkn), alGet_nlModify_self, hget2]
          rfl
        · refine dseg_congr ?_ hrest2
          intro kk hkk
          have h1 : kk ≠ k := fun h => hkK2 (by simp [h ▸ hkk])
          have h2 : kk ≠ kn := fun h => hknK2 (h ▸ hkk)
          rw [alGet_alErase_ne _ h1, alGet_nlModify_ne _ _ h2]
      · exact hpermNew _ (by simp)
    · -- interior entry removed: neighbours are relinked
      have hq1 : q1 = (((k0, v0) :: l1t).map Prod.fst).getLast? := dseg_last D1 (by simp)
      obtain ⟨kp, hkp⟩ : ∃ kp, (((k0, v0) :: l1t).map Prod.fst).getLast? = some kp :=
        Option.isSome_iff_exists.mp (List.getLast?_isSome.mpr (by simp))
      rw [hkp] at hq1
      rw [hq1] at hndprev D1
      have hkpK1 : kp ∈ ((k0, v0) :: l1t).map Prod.fst :=
        List.mem_of_mem_getLast? (by rw [Option.mem_def]; exact hkp)
      have hkpk : kp ≠ k := fun h => hdisj (h ▸ hkpK1) (by simp)
      have hkpkn : kp ≠ kn := fun h => hdisj hkpK1 (by simp [h])
      have hkpK2 : kp ∉ l2t.map Prod.fst := fun h => hdisj hkpK1 (by simp [h])
      have hres : LruMap.removeEntry k s =
          { s with
            nodes := (alErase (nlModify (nlModify s.nodes
              kn (fun n => { n with prev := some kp }))
              kp (fun n => { n with next := some kn })) k) } := by
        rw [LruMap.removeEntry, hget]
        dsimp only
        rw [hnnext, hndprev]
        dsimp only [modifyNode]
      rw [hres]
      refine ⟨?_, ?_, ?_⟩
      · show DSeg _ none s.oldest s.newest none (((k0, v0) :: l1t) ++ (kn, vn) :: l2t)
        refine (dseg_append _ _ _ _ _ _ _).mpr ⟨some kn, some kp, ?_, ?_⟩
        · refine dseg_retarget_last D1 hndK1 hkp ?_ ?_
          · intro kk hkk hkkp
            have h1 : kk ≠ k := fun h => hdisj (h ▸ hkk) (by simp)
            have h2 : kk ≠ kn := fun h => hdisj hkk (by simp [h])
            rw [alGet_alErase_ne _ h1, alGet_nlModify_ne _ _ hkkp, alGet_nlModify_ne _ _ h2]
          · intro nd0 h0
            rw [alGet_alErase_ne _ hkpk, alGet_nlModify_self,
              alGet_nlModify_ne _ _ hkpkn, h0]
            rfl
        · refine ⟨rfl, { nd2 with prev := some kp }, ?_, hnd2val, rfl, ?_⟩
          · rw [alGet_alErase_ne _ (Ne.symm hkkn), alGet_nlModify_ne _ _ (Ne.symm hkpkn),
              alGet_nlModify_self, hget2]
            rfl
          · refine dseg_congr ?_ hrest2
            intro kk hkk
            have h1 : kk ≠ k := fun h => hkK2 (by simp [h ▸ hkk])
            have h2 : kk ≠ kn := fun h => hknK2 (h ▸ hkk)
            have h3 : kk ≠ kp := fun h => hkpK2 (h ▸ hkk)
            rw [alGet_alErase_ne _ h1, alGet_nlModify_ne _ _ h3, alGet_nlModify_ne _ _ h2]
      · have := hnodupAll
        simp only [List.map_append, List.map_cons] at this ⊢
        rw [List.nodup_append] at this ⊢
        obtain ⟨ha, hb, hc⟩ := this
        rw [List.nodup_cons] at hb
        exact ⟨ha, hb.2, fun a haa hab => hc haa (by simp [hab])⟩
      · exact hpermNew _ (by simp)

/-- `delete` on a present key removes the entry and returns `true`. -/
theorem delete_spec_mem {V : Type} {s : LruState V} {l1 l2 : List (String × V)}
    {k : String} {v : V} (hrep : Represents s (l1 ++ (k, v) :: l2)) :
    LruMap.delete k s = (LruMap.removeEntry k s, true) ∧
      Represents (LruMap.delete k s).1 (l1 ++ l2) := by
  obtain ⟨nd, hget, hval⟩ := represents_alGet hrep
  rw [LruMap.delete, hget]
  exact ⟨rfl, removeEntry_spec hrep⟩

/-- `delete` on an absent key returns `false` and changes nothing. -/
theorem delete_spec_miss {V : Type} {s : LruState V} {k : String}
    (hget : alGet s.nodes k = none) : LruMap.delete k s = (s, false) := by
  rw [LruMap.delete, hget]

/-- `setMaxSize` stores the normalized limit and evicts the oldest entries
down to it. -/
theorem shrinkToMaxSize_sizeLimit {V : Type} (s : LruState V) :
    (LruMap.shrinkToMaxSize s).1.sizeLimit = s.sizeLimit := by
  rw [LruMap.shrinkToMaxSize]
  rcases h : s.sizeLimit with _ | m
  · exact h
  · rw [shrinkLoop_sizeLimit]
    exact h

theorem setMaxSize_spec_some {V : Type} {s : LruState V} {l : List (String × V)} {m : Nat}
    (hrep : Represents s l) (hm : 1 ≤ m) :
    (LruMap.setMaxSize (some m) s).2 = l.take (l.length - m) ∧
      Represents (LruMap.setMaxSize (some m) s).1 (l.drop (l.length - m)) ∧
      (LruMap.setMaxSize (some m) s).1.sizeLimit = some m := by
  have hrep2 : Represents ({ s with sizeLimit := if some m = some 0 then none else some m }) l :=
    ⟨hrep.chain, hrep.nodup, hrep.perm⟩
  have hif : (if (some m : Option Nat) = some 0 then none else some m) = some m := by
    rw [if_neg]
    intro h
    rw [Option.some_inj] at h
    omega
  rw [LruMap.setMaxSize]
  obtain ⟨h1, h2⟩ := shrinkToMaxSize_spec_some hrep2 (by simpa using hif) hm
  refine ⟨h1, h2, ?_⟩
  rw [shrinkToMaxSize_sizeLimit]
  simpa using hif

/-- `setMaxSize` with `0` or `null` makes the map unbounded and evicts
nothing. -/
theorem setMaxSize_spec_unbounded {V : Type} {s : LruState V} {n : Option Nat}
    (hn : n = none ∨ n = some 0) :
    LruMap.setMaxSize n s = ({ s with sizeLimit := none }, []) := by
  have hif : (if n = some 0 then none else n) = none := by
    rcases hn with h | h <;> simp [h]
  rw [LruMap.setMaxSize, hif]
  exact shrinkToMaxSize_spec_none rfl

/-- `clear` returns the traversal snapshot and resets the map. -/
theorem clear_spec {V : Type} {s : LruState V} {l : List (String × V)}
    (hrep : Represents s l) :
    (LruMap.clear s).2 = l ∧ Represents (LruMap.clear s).1 [] ∧
      (LruMap.clear s).1.sizeLimit = s.sizeLimit := by
  refine ⟨toList_eq hrep, ⟨⟨rfl, rfl⟩, by simp, by simp [LruMap.clear]⟩, rfl⟩

/-! ## Remaining field preservation lemmas -/

theorem get_sizeLimit {V : Type} (k : String) (s : LruState V) :
    (LruMap.get k s).1.sizeLimit = s.sizeLimit := by
  rw [LruMap.get]
  rcases h : alGet s.nodes k with _ | nd
  · rfl
  · exact makeNewest_sizeLimit k s

theorem removeEntry_sizeLimit {V : Type} (k : String) (s : LruState V) :
    (LruMap.removeEntry k s).sizeLimit = s.sizeLimit := by
  rw [LruMap.removeEntry]
  split
  · rfl
  dsimp only
  split <;> split <;> rfl

theorem delete_sizeLimit {V : Type} (k : String) (s : LruState V) :
    (LruMap.delete k s).1.sizeLimit = s.sizeLimit := by
  rw [LruMap.delete]
  split
  · rfl
  · exact removeEntry_sizeLimit k s

theorem set_sizeLimit {V : Type} (k : String) (v : V) (s : LruState V) :
    (LruMap.set k v s).1.sizeLimit = s.sizeLimit := by
  rw [LruMap.set]
  rcases h2 : alGet s.nodes k with _ | nd <;>
    dsimp only <;>
    rw [shrinkToMaxSize_sizeLimit, makeNewest_sizeLimit] <;>
    rfl

/-! ## Helpers relating concrete splits to the abstract list operations -/

theorem filter_ne_split {V : Type} {l1 l2 : List (String × V)} {k : String} {v : V}
    (hk1 : k ∉ l1.map Prod.fst) (hk2 : k ∉ l2.map Prod.fst) :
    (l1 ++ (k, v) :: l2).filter (fun p => p.1 ≠ k) = l1 ++ l2 := by
  rw [List.filter_append, List.filter_cons]
  rw [if_neg (by simp)]
  rw [List.filter_eq_self.mpr, List.filter_eq_self.mpr]
  · intro a ha
    have : a.1 ≠ k := fun h => hk2 (h ▸ (by simp [List.mem_map]; exact ⟨a.2, by simpa using ha⟩))
    simp [this]
  · intro a ha
    have : a.1 ≠ k := fun h => hk1 (h ▸ (by simp [List.mem_map]; exact ⟨a.2, by simpa using ha⟩))
    simp [this]

theorem filter_ne_of_not_mem {V : Type} {l : List (String × V)} {k : String}
    (hk : k ∉ l.map Prod.fst) :
    l.filter (fun p => p.1 ≠ k) = l := by
  rw [List.filter_eq_self.mpr]
  intro a ha
  have : a.1 ≠ k := fun h => hk (h ▸ (by simp [List.mem_map]; exact ⟨a.2, by simpa using ha⟩))
  simp [this]

theorem find_eq_split {V : Type} {l1 l2 : List (String × V)} {k : String} {v : V}
    (hk1 : k ∉ l1.map Prod.fst) :
    (l1 ++ (k, v) :: l2).find? (fun p => p.1 = k) = some (k, v) := by
  induction l1 with
  | nil => simp [List.find?]
  | cons hd tl ih =>
    obtain ⟨k1, v1⟩ := hd
    simp only [List.map_cons, List.mem_cons] at hk1
    push_neg at hk1
    rw [List.cons_append, List.find?]
    have hne : decide ((k1, v1).1 = k) = false := by
      simp only [decide_eq_false_iff_not]
      exact Ne.symm hk1.1
    rw [hne]
    exact ih hk1.2

theorem find_eq_none_of_not_mem {V : Type} {l : List (String × V)} {k : String}
    (hk : k ∉ l.map Prod.fst) :
    l.find? (fun p => p.1 = k) = none := by
  induction l with
  | nil => rfl
  | cons hd tl ih =>
    obtain ⟨k1, v1⟩ := hd
    simp only [List.map_cons, List.mem_cons] at hk
    push_neg at hk
    rw [List.find?]
    have hne : decide ((k1, v1).1 = k) = false := by
      simp only [decide_eq_false_iff_not]
      exact Ne.symm hk.1
    rw [hne]
    exact ih hk.2

/-! ## The operation language of one `LruMap` and the abstract recency model

`MOp` lists the public operations of the map; `runMOp` runs the embedded
implementation.  `specStep` is the second definition of a refinement claim:
it is modelled from the spec's words ("touch = insert, update, or get",
"traversal order is strictly oldest → newest by last-touch time", "if
inserting exceeds maxSize, evict the current oldest"), keeping the entry
list explicitly in last-touch order. -/

inductive MOp (V : Type) where
  | set (k : String) (v : V)
  | get (k : String)
  | getWithoutLruChange (k : String)
  | delete (k : String)
  | setMaxSize (n : Option Nat)
  | clear

def runMOp {V : Type} : MOp V → LruState V → LruState V
  | .set k v, s => (LruMap.set k v s).1
  | .get k, s => (LruMap.get k s).1
  | .getWithoutLruChange _, s => s
  | .delete k, s => (LruMap.delete k s).1
  | .setMaxSize n, s => (LruMap.setMaxSize n s).1
  | .clear, s => (LruMap.clear s).1

def runMOps {V : Type} (ops : List (MOp V)) (s : LruState V) : LruState V :=
  ops.foldl (fun st op => runMOp op st) s

/-- Modelled from the spec: normalization of the size cap (`0` or `null`
mean unbounded). -/
def absCap (n : Option Nat) : Option Nat :=
  if n = some 0 then none else n

/-- Modelled from the spec: touching a key moves (or inserts) its entry at
the newest end. -/
def absTouch {V : Type} (l : List (String × V)) (k : String) (v : V) : List (String × V) :=
  l.filter (fun p => p.1 ≠ k) ++ [(k, v)]

/-- Modelled from the spec: evict oldest entries until the bound holds. -/
def absShrink {V : Type} (cap : Option Nat) (l : List (String × V)) : List (String × V) :=
  match cap with
  | none => l
  | some m => l.drop (l.length - m)

/-- Modelled from the spec: the effect of each operation on the
last-touch-ordered entry list and the cap. -/
def specStep {V : Type} : MOp V → List (String × V) × Option Nat → List (String × V) × Option Nat
  | .set k v, (l, cap) => (absShrink cap (absTouch l k v), cap)
  | .get k, (l, cap) =>
    match l.find? (fun p => p.1 = k) with
    | some e => (absTouch l k e.2, cap)
    | none => (l, cap)
  | .getWithoutLruChange _, st => st
  | .delete k, (l, cap) => (l.filter (fun p => p.1 ≠ k), cap)
  | .setMaxSize n, (l, cap) => (absShrink (absCap n) l, absCap n)
  | .clear, (_, cap) => ([], cap)

def specRun {V : Type} (ops : List (MOp V)) (st : List (String × V) × Option Nat) :
    List (String × V) × Option Nat :=
  ops.foldl (fun st op => specStep op st) st

/-- The refinement invariant tying an implementation state to the abstract
model state. -/
def Inv {V : Type} (s : LruState V) (st : List (String × V) × Option Nat) : Prop :=
  Represents s st.1 ∧ s.sizeLimit = st.2 ∧ CapOK s ∧
    (∀ m, st.2 = some m → st.1.length ≤ m)

theorem absShrink_length_le {V : Type} (m : Nat) (l : List (String × V)) :
    (absShrink (some m) l).length ≤ m := by
  simp only [absShrink, List.length_drop]
  omega

theorem absCap_pos {n : Option Nat} {m : Nat} (h : absCap n = some m) : 1 ≤ m := by
  rw [absCap] at h
  split at h
  · cases h
  · rename_i hne
    subst h
    rcases Nat.eq_zero_or_pos m with h0 | h0
    · exact absurd (by rw [h0]) hne
    · exact h0

/-- Each operation preserves the refinement invariant, tying the
implementation step to the abstract model step. -/
theorem inv_step {V : Type} {s : LruState V} {st : List (String × V) × Option Nat}
    (hinv : Inv s st) (op : MOp V) : Inv (runMOp op s) (specStep op st) := by
  obtain ⟨hrep, hsl, hcap, hbound⟩ := hinv
  obtain ⟨l, cap⟩ := st
  dsimp only at hrep hsl hbound
  cases op with
  | set k v =>
    have hsl2 : (LruMap.set k v s).1.sizeLimit = cap := by rw [set_sizeLimit]; exact hsl
    have hcap2 : CapOK (LruMap.set k v s).1 := by
      intro m hm
      rw [set_sizeLimit] at hm
      exact hcap m hm
    by_cases hmem : k ∈ l.map Prod.fst
    · obtain ⟨l1, vOld, l2, hsplit⟩ := exists_split_of_mem_keys hmem
      subst hsplit
      obtain ⟨hk1, hk2⟩ := split_not_mem hrep.nodup
      obtain ⟨hret, hrep2⟩ := set_spec_update (v := v) hrep hcap
        (fun m hm => hbound m (by rw [← hsl]; exact hm))
      refine ⟨?_, ?_, hcap2, ?_⟩
      · show Represents (LruMap.set k v s).1
          (absShrink cap (absTouch (l1 ++ (k, vOld) :: l2) k v))
        rw [absTouch, filter_ne_split hk1 hk2]
        rcases hc : cap with _ | m
        · simpa [absShrink] using hrep2
        · have hz : ((l1 ++ l2) ++ [(k, v)]).length - m = 0 := by
            have := hbound m hc
            simp only [List.length_append, List.length_cons, List.length_nil] at this ⊢
            omega
          simp only [absShrink, hz, List.drop_zero]
          exact hrep2
      · show (LruMap.set k v s).1.sizeLimit = _
        rw [set_sizeLimit, hsl]
        simp only [specStep]
      · intro m hm
        simp only [specStep] at hm ⊢
        rcases hcase2 : cap with _ | mc
        · rw [hcase2] at hm
          cases hm
        · rw [hcase2] at hm
          rw [Option.some_inj] at hm
          subst hm
          exact absShrink_length_le _ _
    · have hget : alGet s.nodes k = none := represents_alGet_none hrep hmem
      have htouch : absTouch l k v = l ++ [(k, v)] := by
        rw [absTouch, filter_ne_of_not_mem hmem]
      rcases hc : cap with _ | m
      · obtain ⟨hret, hrep2⟩ := set_spec_fresh_room (v := v) hrep hmem hcap
          (fun m hm => by rw [hsl, hc] at hm; cases hm)
        refine ⟨?_, ?_, hcap2, ?_⟩
        · show Represents (LruMap.set k v s).1 (absShrink none (absTouch l k v))
          rw [htouch]
          simpa [absShrink] using hrep2
        · show (LruMap.set k v s).1.sizeLimit = _
          rw [set_sizeLimit, hsl, hc]
          simp only [specStep]
        · intro m hm
          simp [specStep] at hm
      · have hm1 : 1 ≤ m := hcap m (by rw [hsl, hc])
        by_cases hlt : l.length + 1 ≤ m
        · obtain ⟨hret, hrep2⟩ := set_spec_fresh_room (v := v) hrep hmem hcap
            (fun m2 hm2 => by rw [hsl, hc] at hm2; cases hm2; exact hlt)
          refine ⟨?_, ?_, hcap2, ?_⟩
          · show Represents (LruMap.set k v s).1 (absShrink (some m) (absTouch l k v))
            rw [htouch]
            have hz : (l ++ [(k, v)]).length - m = 0 := by
              simp only [List.length_append, List.length_cons, List.length_nil]
              omega
            simp only [absShrink, hz, List.drop_zero]
            exact hrep2
          · show (LruMap.set k v s).1.sizeLimit = _
            rw [set_sizeLimit, hsl, hc]
            simp only [specStep]
          · intro m2 hm2
            simp only [specStep, Option.some_inj] at hm2 ⊢
            subst hm2
            exact absShrink_length_le _ _
        · have hfull : l.length = m := by
            have := hbound m hc
            omega
          obtain ⟨k0, v0, lt, hl⟩ : ∃ k0 v0 tl, l = (k0, v0) :: tl := by
            rcases l with _ | ⟨⟨k0, v0⟩, tl⟩
            · rw [List.length_nil] at hfull
              omega
            · exact ⟨k0, v0, tl, rfl⟩
          have hrep0 : Represents s ((k0, v0) :: lt) := hl ▸ hrep
          have hmem0 : k ∉ ((k0, v0) :: lt).map Prod.fst := fun h => hmem (by rw [hl]; exact h)
          obtain ⟨hret, hrep2⟩ := set_spec_fresh_evict (v := v) hrep0 hmem0
            (by rw [hsl, hc]) hm1 (by rw [← hl]; exact hfull)
          refine ⟨?_, ?_, hcap2, ?_⟩
          · show Represents (LruMap.set k v s).1 (absShrink (some m) (absTouch l k v))
            rw [htouch, hl]
            have hone : ((k0, v0) :: (lt ++ [(k, v)])).length - m = 1 := by
              rw [hl] at hfull
              simp only [List.length_cons] at hfull
              simp only [List.length_cons, List.length_append, List.length_nil]
              omega
            simp only [absShrink, List.cons_append]
            rw [hone]
            simp only [List.drop_succ_cons, List.drop_zero]
            exact hrep2
          · show (LruMap.set k v s).1.sizeLimit = _
            rw [set_sizeLimit, hsl, hc]
            simp only [specStep]
          · intro m2 hm2
            simp only [specStep, Option.some_inj] at hm2 ⊢
            subst hm2
            exact absShrink_length_le _ _
  | get k =>
    have hsl2 : (LruMap.get k s).1.sizeLimit = cap := by rw [get_sizeLimit]; exact hsl
    have hcap2 : CapOK (LruMap.get k s).1 := by
      intro m hm
      rw [get_sizeLimit] at hm
      exact hcap m hm
    by_cases hmem : k ∈ l.map Prod.fst
    · obtain ⟨l1, v, l2, hsplit⟩ := exists_split_of_mem_keys hmem
      subst hsplit
      obtain ⟨hk1, hk2⟩ := split_not_mem hrep.nodup
      obtain ⟨hret, hrep2⟩ := get_spec_mem hrep
      have hfind : (l1 ++ (k, v) :: l2).find? (fun p => p.1 = k) = some (k, v) :=
        find_eq_split hk1
      refine ⟨?_, ?_, hcap2, ?_⟩
      · show Represents (LruMap.get k s).1 ((specStep (MOp.get k) (l1 ++ (k, v) :: l2, cap)).1)
        simp only [specStep, hfind]
        rw [absTouch, filter_ne_split hk1 hk2]
        exact hrep2
      · show (LruMap.get k s).1.sizeLimit = ((specStep (MOp.get k) (l1 ++ (k, v) :: l2, cap)).2)
        simp only [specStep, hfind]
        exact hsl2
      · intro m hm
        simp only [specStep, hfind] at hm ⊢
        rcases hm
        have := hbound m rfl
        rw [absTouch, filter_ne_split hk1 hk2]
        simp only [List.length_append, List.length_cons, List.length_nil] at this ⊢
        omega
    · have hget : alGet s.nodes k = none := represents_alGet_none hrep hmem
      have hfind : l.find? (fun p => p.1 = k) = none := find_eq_none_of_not_mem hmem
      have hres : LruMap.get k s = (s, none) := get_spec_miss hget
      have hstate : runMOp (MOp.get k) s = s := by rw [runMOp, hres]
      rw [hstate]
      refine ⟨?_, ?_, hcap, ?_⟩
      · show Represents s ((specStep (MOp.get k) (l, cap)).1)
        simp only [specStep, hfind]
        exact hrep
      · show s.sizeLimit = ((specStep (MOp.get k) (l, cap)).2)
        simp only [specStep, hfind]
        exact hsl
      · intro m hm
        simp only [specStep, hfind] at hm ⊢
        rcases hm
        exact hbound m rfl
  | getWithoutLruChange k =>
    exact ⟨hrep, hsl, hcap, hbound⟩
  | delete k =>
    by_cases hmem : k ∈ l.map Prod.fst
    · obtain ⟨l1, v, l2, hsplit⟩ := exists_split_of_mem_keys hmem
      subst hsplit
      obtain ⟨hk1, hk2⟩ := split_not_mem hrep.nodup
      obtain ⟨hres, hrep2⟩ := delete_spec_mem hrep
      refine ⟨?_, ?_, ?_, ?_⟩
      · show Represents (LruMap.delete k s).1 _
        simp only [specStep]
        rw [filter_ne_split hk1 hk2]
        exact hrep2
      · show (LruMap.delete k s).1.sizeLimit = _
        simp only [specStep]
        rw [delete_sizeLimit]
        exact hsl
      · intro m hm
        rw [runMOp, delete_sizeLimit] at hm
        exact hcap m hm
      · intro m hm
        simp only [specStep] at hm ⊢
        rcases hm
        have := hbound m rfl
        rw [filter_ne_split hk1 hk2]
        simp only [List.length_append, List.length_cons, List.length_nil] at this ⊢
        omega
    · have hget : alGet s.nodes k = none := represents_alGet_none hrep hmem
      have hres : LruMap.delete k s = (s, false) := delete_spec_miss hget
      have hstate : runMOp (MOp.delete k) s = s := by rw [runMOp, hres]
      rw [hstate]
      refine ⟨?_, ?_, hcap, ?_⟩
      · show Represents s ((specStep (MOp.delete k) (l, cap)).1)
        simp only [specStep]
        rw [filter_ne_of_not_mem hmem]
        exact hrep
      · show s.sizeLimit = ((specStep (MOp.delete k) (l, cap)).2)
        simp only [specStep]
        exact hsl
      · intro m hm
        simp only [specStep] at hm ⊢
        rcases hm
        rw [filter_ne_of_not_mem hmem]
        exact hbound m rfl
  | setMaxSize n =>
    rcases hn : absCap n with _ | m
    · have hn2 : n = none ∨ n = some 0 := by
        rw [absCap] at hn
        split at hn
        · right; assumption
        · left; exact hn
      have hres := setMaxSize_spec_unbounded (s := s) hn2
      have hstate : runMOp (MOp.setMaxSize n) s = { s with sizeLimit := none } := by
        rw [runMOp, hres]
      rw [hstate]
      refine ⟨?_, ?_, ?_, ?_⟩
      · show Represents { s with sizeLimit := none } ((specStep (MOp.setMaxSize n) (l, cap)).1)
        simp only [specStep, hn, absShrink]
        exact ⟨hrep.chain, hrep.nodup, hrep.perm⟩
      · show ({ s with sizeLimit := none } : LruState V).sizeLimit =
          ((specStep (MOp.setMaxSize n) (l, cap)).2)
        simp only [specStep, hn]
      · intro m hm
        cases hm
      · intro m hm
        simp only [specStep, hn] at hm
        cases hm
    · have hm1 : 1 ≤ m := absCap_pos hn
      have hnm : n = some m := by
        rw [absCap] at hn
        split at hn
        · cases hn
        · exact hn
      subst hnm
      obtain ⟨htake, hdrop, hlim⟩ := setMaxSize_spec_some hrep hm1
      refine ⟨?_, ?_, ?_, ?_⟩
      · show Represents (LruMap.setMaxSize (some m) s).1
          ((specStep (MOp.setMaxSize (some m)) (l, cap)).1)
        simp only [specStep, hn, absShrink]
        exact hdrop
      · show (LruMap.setMaxSize (some m) s).1.sizeLimit =
          ((specStep (MOp.setMaxSize (some m)) (l, cap)).2)
        simp only [specStep, hn]
        exact hlim
      · intro m2 hm2
        rw [runMOp, hlim] at hm2
        rcases hm2
        exact hm1
      · intro m2 hm2
        simp only [specStep, hn, Option.some_inj] at hm2 ⊢
        subst hm2
        exact absShrink_length_le _ l
  | clear =>
    obtain ⟨hsnap, hrep2, hlim⟩ := clear_spec hrep
    refine ⟨?_, ?_, ?_, ?_⟩
    · exact hrep2
    · show (LruMap.clear s).1.sizeLimit = _
      rw [hlim]
      exact hsl
    · intro m hm
      rw [runMOp, hlim] at hm
      exact hcap m hm
    · intro m hm
      simp [specStep]

theorem inv_runMOps {V : Type} :
    ∀ (ops : List (MOp V)) {s : LruState V} {st : List (String × V) × Option Nat},
      Inv s st → Inv (runMOps ops s) (specRun ops st) := by
  intro ops
  induction ops with
  | nil =>
    intro s st h
    exact h
  | cons op rest ih =>
    intro s st h
    exact ih (inv_step h op)

theorem inv_init {V : Type} (maxSize0 : Option Nat) :
    Inv (LruMap.init maxSize0 V) ([], absCap maxSize0) := by
  refine ⟨⟨⟨rfl, rfl⟩, by simp, by simp [LruMap.init]⟩, rfl, ?_, ?_⟩
  · intro m hm
    exact absCap_pos (show absCap maxSize0 = some m from hm)
  · intro m hm
    simp

/-- Claim C4: at every reachable `LruMap` state the traversal shared by
`forEach`, `map` and `getEntries` lists the entries oldest to newest by
last touch (equal to the abstract recency model, a spec-modelled second
definition); right after a successful `get(k)` the entry for `k` is the
newest; and `getWithoutLruChange` leaves the state, and hence the order,
unchanged. -/
theorem claim_C4_traversal_recency {V : Type} (ops : List (MOp V)) (maxSize0 : Option Nat) :
    (LruMap.toList (runMOps ops (LruMap.init maxSize0 V)) =
        (specRun ops ([], absCap maxSize0)).1) ∧
      (∀ (k : String) (v : V),
        (LruMap.get k (runMOps ops (LruMap.init maxSize0 V))).2 = some v →
        (LruMap.toList (LruMap.get k (runMOps ops (LruMap.init maxSize0 V))).1).getLast? =
          some (k, v)) ∧
      (∀ k : String, runMOps (ops ++ [MOp.getWithoutLruChange k]) (LruMap.init maxSize0 V) =
          runMOps ops (LruMap.init maxSize0 V)) := by
  have hinv := inv_runMOps ops (inv_init maxSize0)
  obtain ⟨hrep, hsl, hcap, hbound⟩ := hinv
  refine ⟨toList_eq hrep, ?_, ?_⟩
  · intro k v hv
    by_cases hmem : k ∈ (specRun ops ([], absCap maxSize0)).1.map Prod.fst
    · obtain ⟨l1, v2, l2, hsplit⟩ := exists_split_of_mem_keys hmem
      rw [hsplit] at hrep
      obtain ⟨hret, hrep2⟩ := get_spec_mem hrep
      rw [hret] at hv
      rw [Option.some_inj] at hv
      subst hv
      rw [toList_eq hrep2]
      simp
    · have hget : alGet (runMOps ops (LruMap.init maxSize0 V)).nodes k = none :=
        represents_alGet_none hrep hmem
      rw [get_spec_miss hget] at hv
      cases hv
  · intro k
    rw [runMOps, List.foldl_append]
    rfl

/-- Claim C3: after any sequence of `set`/`get`/`delete`/`setMaxSize`/`clear`
operations, the number of stored entries never exceeds a bounded `maxSize`;
a `set` of a new key into a full bounded map evicts and returns exactly the
current oldest entry, while every other `set` returns nothing. -/
theorem claim_C3_size_bound_and_eviction {V : Type} (ops : List (MOp V)) (maxSize0 : Option Nat) :
    (∀ m, (runMOps ops (LruMap.init maxSize0 V)).sizeLimit = some m →
      LruMap.getSize (runMOps ops (LruMap.init maxSize0 V)) ≤ m) ∧
    (∀ (k : String) (v : V) (m : Nat),
      (runMOps ops (LruMap.init maxSize0 V)).sizeLimit = some m →
      ((alGet (runMOps ops (LruMap.init maxSize0 V)).nodes k = none →
        LruMap.getSize (runMOps ops (LruMap.init maxSize0 V)) = m →
        (LruMap.set k v (runMOps ops (LruMap.init maxSize0 V))).2 =
          (LruMap.toList (runMOps ops (LruMap.init maxSize0 V))).head?) ∧
       (alGet (runMOps ops (LruMap.init maxSize0 V)).nodes k ≠ none →
        (LruMap.set k v (runMOps ops (LruMap.init maxSize0 V))).2 = none) ∧
       (LruMap.getSize (runMOps ops (LruMap.init maxSize0 V)) < m →
        (LruMap.set k v (runMOps ops (LruMap.init maxSize0 V))).2 = none))) := by
  have hinv := inv_runMOps ops (inv_init maxSize0)
  obtain ⟨hrep, hsl, hcap, hbound⟩ := hinv
  have hlensize : LruMap.getSize (runMOps ops (LruMap.init maxSize0 V)) =
      (specRun ops ([], absCap maxSize0)).1.length := by
    rw [LruMap.getSize]
    have := hrep.perm.length_eq
    simpa using this
  constructor
  · intro m hm
    rw [hlensize]
    exact hbound m (by rw [← hsl]; exact hm)
  · intro k v m hm
    have hc : (specRun ops ([], absCap maxSize0)).2 = some m := by rw [← hsl]; exact hm
    have hm1 : 1 ≤ m := hcap m hm
    refine ⟨?_, ?_, ?_⟩
    · intro hfresh hfullsz
      have hmem : k ∉ (specRun ops ([], absCap maxSize0)).1.map Prod.fst := by
        intro h
        have := alGet_isSome_of_mem (hrep.perm.mem_iff.mpr h)
        rw [hfresh] at this
        cases this
      have hfull : (specRun ops ([], absCap maxSize0)).1.length = m := by
        rw [← hlensize]
        exact hfullsz
      obtain ⟨k0, v0, lt, hl⟩ : ∃ k0 v0 tl,
          (specRun ops ([], absCap maxSize0)).1 = (k0, v0) :: tl := by
        rcases hx : (specRun ops ([], absCap maxSize0)).1 with _ | ⟨⟨k0, v0⟩, tl⟩
        · rw [hx] at hfull
          rw [List.length_nil] at hfull
          omega
        · exact ⟨k0, v0, tl, rfl⟩
      have hrep0 := hl ▸ hrep
      have hmem0 : k ∉ ((k0, v0) :: lt).map Prod.fst := fun h => hmem (by rw [hl]; exact h)
      obtain ⟨hret, hrep2⟩ := set_spec_fresh_evict (v := v) hrep0 hmem0 hm hm1
        (by rw [← hl]; exact hfull)
      rw [hret, toList_eq hrep, hl]
      rfl
    · intro hpres
      have hmem : k ∈ (specRun ops ([], absCap maxSize0)).1.map Prod.fst := by
        by_contra h
        exact hpres (represents_alGet_none hrep h)
      obtain ⟨l1, v2, l2, hsplit⟩ := exists_split_of_mem_keys hmem
      rw [hsplit] at hrep
      obtain ⟨hret, hrep2⟩ := set_spec_update (v := v) hrep hcap
        (fun m2 hm2 => by
          rw [hsl, hc] at hm2
          rw [Option.some_inj] at hm2
          subst hm2
          rw [← hsplit]
          exact hbound m hc)
      exact hret
    · intro hlt
      by_cases hmem : k ∈ (specRun ops ([], absCap maxSize0)).1.map Prod.fst
      · obtain ⟨l1, v2, l2, hsplit⟩ := exists_split_of_mem_keys hmem
        rw [hsplit] at hrep
        obtain ⟨hret, hrep2⟩ := set_spec_update (v := v) hrep hcap
          (fun m2 hm2 => by
            rw [hsl, hc] at hm2
            rw [Option.some_inj] at hm2
            subst hm2
            rw [← hsplit]
            exact hbound m hc)
        exact hret
      · obtain ⟨hret, hrep2⟩ := set_spec_fresh_room (v := v) hrep hmem hcap
          (fun m2 hm2 => by
            rw [hsl, hc] at hm2
            rw [Option.some_inj] at hm2
            subst hm2
            rw [hlensize] at hlt
            omega)
        exact hret

/-- Instantiation of the C4 theorem: after `set a 1; set b 2`, a `get a`
returns `1` and moves the entry for `a` to the newest position. -/
theorem claim_C4_traversal_recency_witness :
    ((LruMap.get "a" (runMOps [MOp.set "a" 1, MOp.set "b" 2]
        (LruMap.init (some 3) Nat))).2 = some 1) ∧
    (LruMap.toList (LruMap.get "a" (runMOps [MOp.set "a" 1, MOp.set "b" 2]
        (LruMap.init (some 3) Nat))).1).getLast? = some ("a", 1) :=
  ⟨by rfl,
    (claim_C4_traversal_recency [MOp.set "a" 1, MOp.set "b" 2] (some 3)).2.1 "a" 1 (by rfl)⟩

/-- Instantiation of the C3 theorem: with `maxSize = 2` and the map holding
`a` and `b`, setting the fresh key `c` evicts and returns the oldest entry
`(a, 1)`. -/
theorem claim_C3_size_bound_and_eviction_witness :
    (alGet (runMOps [MOp.set "a" 1, MOp.set "b" 2] (LruMap.init (some 2) Nat)).nodes "c"
        = none) ∧
    (LruMap.getSize (runMOps [MOp.set "a" 1, MOp.set "b" 2] (LruMap.init (some 2) Nat)) = 2) ∧
    (LruMap.set "c" 3 (runMOps [MOp.set "a" 1, MOp.set "b" 2] (LruMap.init (some 2) Nat))).2 =
      (LruMap.toList (runMOps [MOp.set "a" 1, MOp.set "b" 2] (LruMap.init (some 2) Nat))).head? :=
  ⟨by rfl, by rfl,
    ((claim_C3_size_bound_and_eviction [MOp.set "a" 1, MOp.set "b" 2] (some 2)).2
      "c" 3 2 rfl).1 (by rfl) (by rfl)⟩

/-! ## The listener registry (`LruCache.js`)

Handler callbacks themselves cannot live inside the state, so the
registry stores each handler's metadata under its numeric key and the
behaviour of the callbacks is a parameter `hb` of the interpreter: `hb key
changeObject` is `none` when the callback returns normally and `some msg`
when it throws an error with message `msg`. -/

/-- The `valueTypes` argument of `registerCacheChangedHandler`: `null`, a
single string, or an array of strings. -/
inductive VTArg where
  | nullArg
  | strArg (s : String)
  | arrArg (l : List String)
deriving DecidableEq, Repr

structure HandlerInfo where
  valueTypes : VTArg
  isActive : Bool
deriving DecidableEq, Repr

structure RegistryState where
  nextHandlerKey : Nat
  keyToChangedHandler : List (Nat × HandlerInfo)
  valueTypeToActiveChangeHandlerKeys : List (String × List Nat)
  allTypesActiveChangeHandlerKeys : List Nat
deriving DecidableEq, Repr

def emptyRegistry : RegistryState := ⟨0, [], [], []⟩

/-- The `types.forEach` loop of `addToActiveHandlerKeys`: get or create the
per-type key set and add the key. -/
def addTypes (r : RegistryState) (key : Nat) (ts : List String) : RegistryState :=
  ts.foldl (fun r t =>
    let old := (alGet r.valueTypeToActiveChangeHandlerKeys t).getD []
    let m := alSet r.valueTypeToActiveChangeHandlerKeys t (jsAdd old key)
    { r with valueTypeToActiveChangeHandlerKeys := m }) r

/-- `addToActiveHandlerKeys(key, valueTypes)`: `null` and the empty array go
to the all-types set, otherwise each named type gets the key. -/
def addToActiveHandlerKeys (r : RegistryState) (key : Nat) (valueTypes : VTArg) : RegistryState :=
  match valueTypes with
  | .nullArg =>
    { r with allTypesActiveChangeHandlerKeys := jsAdd r.allTypesActiveChangeHandlerKeys key }
  | .arrArg [] =>
    { r with allTypesActiveChangeHandlerKeys := jsAdd r.allTypesActiveChangeHandlerKeys key }
  | .strArg t => addTypes r key [t]
  | .arrArg ts => addTypes r key ts

/-- The `types.forEach` loop of `removeFromActiveHandlerKeys`.  When a type
has no key set the JS code would throw on `undefined.delete`; that path is
unreachable because removal is only invoked for previously added keys. -/
def removeTypes (r : RegistryState) (key : Nat) (ts : List String) : RegistryState :=
  ts.foldl (fun r t =>
    match alGet r.valueTypeToActiveChangeHandlerKeys t with
    | none => r
    | some ks =>
      let m := alSet r.valueTypeToActiveChangeHandlerKeys t (jsDel ks key)
      { r with valueTypeToActiveChangeHandlerKeys := m }) r

def removeFromActiveHandlerKeys (r : RegistryState) (key : Nat) (valueTypes : VTArg) :
    RegistryState :=
  match valueTypes with
  | .nullArg =>
    { r with allTypesActiveChangeHandlerKeys := jsDel r.allTypesActiveChangeHandlerKeys key }
  | .arrArg [] =>
    { r with allTypesActiveChangeHandlerKeys := jsDel r.allTypesActiveChangeHandlerKeys key }
  | .strArg t => removeTypes r key [t]
  | .arrArg ts => removeTypes r key ts

/-- `getActiveHandlerKeys(valueTypes)`: the union (as an insertion ordered
set) of the per-type active keys of all touched types with the all-types
keys. -/
def getActiveHandlerKeys (r : RegistryState) (valueTypes : List String) : List Nat :=
  let result := valueTypes.foldl (fun acc t =>
    match alGet r.valueTypeToActiveChangeHandlerKeys t with
    | none => acc
    | some ks => ks.foldl jsAdd acc) []
  r.allTypesActiveChangeHandlerKeys.foldl jsAdd result

/-- `hasActiveHandler(valueType)`. -/
def hasActiveHandler (r : RegistryState) (valueType : String) : Bool :=
  if r.allTypesActiveChangeHandlerKeys.length > 0 then true
  else
    match alGet r.valueTypeToActiveChangeHandlerKeys valueType with
    | none => false
    | some ks => ks.length > 0

/-- `registerCacheChangedHandler(changedHandler, valueTypes)`: allocate a
fresh key, store the handler (initially active) and index it. -/
def registerCacheChangedHandler (r : RegistryState) (valueTypes : VTArg) :
    RegistryState × Nat :=
  let key := r.nextHandlerKey
  let r1 := { r with nextHandlerKey := key + 1 }
  let r2 := { r1 with keyToChangedHandler := alSet r1.keyToChangedHandler key ⟨valueTypes, true⟩ }
  (addToActiveHandlerKeys r2 key valueTypes, key)

/-- Generic association list update in place. -/
def alModify {κ α : Type} [DecidableEq κ] (l : List (κ × α)) (k : κ) (f : α → α) :
    List (κ × α) :=
  l.map (fun p => if p.1 = k then (p.1, f p.2) else p)

/-- `handler.unregister()`. -/
def handlerUnregister (r : RegistryState) (key : Nat) (valueTypes : VTArg) : RegistryState :=
  removeFromActiveHandlerKeys
    { r with keyToChangedHandler := alErase r.keyToChangedHandler key } key valueTypes

/-- `handler.activate()`. -/
def handlerActivate (r : RegistryState) (key : Nat) (valueTypes : VTArg) : RegistryState :=
  addToActiveHandlerKeys
    { r with keyToChangedHandler :=
        alModify r.keyToChangedHandler key (fun h => { h with isActive := true }) }
    key valueTypes

/-- `handler.deactivate()`. -/
def handlerDeactivate (r : RegistryState) (key : Nat) (valueTypes : VTArg) : RegistryState :=
  removeFromActiveHandlerKeys
    { r with keyToChangedHandler :=
        alModify r.keyToChangedHandler key (fun h => { h with isActive := false }) }
    key valueTypes

/-! ## Change records and the aggregator -/

/-- One recorded event: a copy of `{key, value, alternateKeys}` of the entry
at the moment of change, plus the assigned `order`. -/
structure ChangeItem (V : Type) where
  key : String
  value : V
  alternateKeys : List String
  order : Nat
deriving DecidableEq, Repr

inductive FieldKind where
  | inserts
  | clearRemoves
  | lruRemoves
  | deleteRemoves
deriving DecidableEq, Repr

structure TypeRecord (V : Type) where
  inserts : List (ChangeItem V)
  clearRemoves : List (ChangeItem V)
  lruRemoves : List (ChangeItem V)
  deleteRemoves : List (ChangeItem V)
deriving DecidableEq, Repr

def TypeRecord.push {V : Type} (tr : TypeRecord V) (kind : FieldKind) (item : ChangeItem V) :
    TypeRecord V :=
  match kind with
  | .inserts => { tr with inserts := tr.inserts ++ [item] }
  | .clearRemoves => { tr with clearRemoves := tr.clearRemoves ++ [item] }
  | .lruRemoves => { tr with lruRemoves := tr.lruRemoves ++ [item] }
  | .deleteRemoves => { tr with deleteRemoves := tr.deleteRemoves ++ [item] }

def TypeRecord.field {V : Type} (tr : TypeRecord V) (kind : FieldKind) : List (ChangeItem V) :=
  match kind with
  | .inserts => tr.inserts
  | .clearRemoves => tr.clearRemoves
  | .lruRemoves => tr.lruRemoves
  | .deleteRemoves => tr.deleteRemoves

def emptyTypeRecord {V : Type} : TypeRecord V := ⟨[], [], [], []⟩

/-- `changeObject[valueType] = {[fieldNameAdd]: [item]}` followed by filling
the three unchanged field names with empty lists. -/
def singletonRecord {V : Type} (kind : FieldKind) (item : ChangeItem V) : TypeRecord V :=
  TypeRecord.push emptyTypeRecord kind item

/-- The change record accumulated during a transaction: the touched value
types (a Set, in insertion order) and the per-type sub-records. -/
structure ChangeObject (V : Type) where
  valueTypes : List String
  records : List (String × TypeRecord V)
deriving DecidableEq, Repr

def emptyChangeObject {V : Type} : ChangeObject V := ⟨[], []⟩

/-- The body of `handleChange` that mutates the change object. -/
def pushToChangeObject {V : Type} (co : ChangeObject V) (t : String) (kind : FieldKind)
    (item : ChangeItem V) : ChangeObject V :=
  if t ∈ co.valueTypes then
    { co with records := alModify co.records t (fun tr => TypeRecord.push tr kind item) }
  else
    { valueTypes := co.valueTypes ++ [t],
      records := alSet co.records t (singletonRecord kind item) }

/-! ## The cache facade state -/

/-- A cache entry `{key, value, alternateKeys}` as stored in the `LruMap`.
The `alternateKeys` Set is modelled as a duplicate-free list in insertion
order. -/
structure CacheEntry (V : Type) where
  key : String
  value : V
  alternateKeys : List String
deriving DecidableEq, Repr

/-- The per-`valueType` closure state of one `LruCache` instance. -/
structure CacheState (V : Type) where
  lru : LruState (CacheEntry V)
  alternateKeyToKey : List (String × String)
  dispatchLruRemoves : Bool
  dispatchClearRemoves : Bool
deriving DecidableEq

/-- One handler invocation, for bookkeeping: the handler key and the change
object it was called with. -/
structure DispatchEv (V : Type) where
  handlerKey : Nat
  changeObject : ChangeObject V
deriving DecidableEq

/-- One recorded change event, for bookkeeping: the value type, the field it
was pushed to and the pushed item. -/
structure RecordEv (V : Type) where
  valueType : String
  kind : FieldKind
  item : ChangeItem V
deriving DecidableEq

/-- The module-level state of `LruCache.js`: the registry, the transaction
globals, the `handleChanges` flag and the `valueTypeToCache` map.
`dispatchLog` and `recordLog` are ghost histories that the code only
appends to; they let theorems count handler invocations and recorded
events without changing any observable behaviour. -/
structure GState (V : Type) where
  registry : RegistryState
  transactionChangeObject : Option (ChangeObject V)
  changeOrder : Nat
  runningTransactions : Nat
  handleChanges : Bool
  valueTypeToCache : List (String × CacheState V)
  dispatchLog : List (DispatchEv V)
  recordLog : List (RecordEv V)
deriving DecidableEq

def initGState {V : Type} : GState V :=
  { registry := emptyRegistry, transactionChangeObject := none, changeOrder := 0,
    runningTransactions := 0, handleChanges := true, valueTypeToCache := [],
    dispatchLog := [], recordLog := [] }

/-- A JS `Error`: the `message` field, and the `errors` list attached by
`handleTransactionChangeObject` (empty for ordinary errors). -/
structure JsErr where
  message : String
  errors : List String
deriving DecidableEq, Repr

/-- Behaviour of the registered handler callbacks, a parameter of the
interpreter: `hb key co = none` means the callback for `key` returns
normally on `co`, `some msg` means it throws an error with message
`msg`. -/
def HB (V : Type) : Type := Nat → ChangeObject V → Option String

/-- Stand-in message for the `TypeError` the engine raises when
`keyToChangedHandler.get(key)` is `undefined`; unreachable from the public
interface, where every indexed key has a registered handler. -/
def missingHandlerMessage : String := "TypeError: handler is undefined"

/-- The `activeHandlerKeys.forEach` loop of `handleTransactionChangeObject`:
invoke each handler, collecting thrown messages in order and counting every
iteration in `handled` (the JS `finally`). -/
def runHandlersLoop {V : Type} (hb : HB V) (co : ChangeObject V) :
    List Nat → GState V → List String → Nat → GState V × List String × Nat
  | [], g, errs, handled => (g, errs, handled)
  | key :: rest, g, errs, handled =>
    match alGet g.registry.keyToChangedHandler key with
    | none => runHandlersLoop hb co rest g (errs ++ [missingHandlerMessage]) (handled + 1)
    | some _ =>
      let g2 := { g with dispatchLog := g.dispatchLog ++ [⟨key, co⟩] }
      match hb key co with
      | some msg => runHandlersLoop hb co rest g2 (errs ++ [msg]) (handled + 1)
      | none => runHandlersLoop hb co rest g2 errs (handled + 1)

/-- The aggregate message built when at least one handler threw. -/
def aggregateMessage (numErrors handled : Nat) (msgs : List String) : String :=
  "handleTransactionChangeObject: " ++ toString numErrors ++ " of " ++ toString handled
    ++ " handlers threw an error: " ++ String.join (msgs.map (fun m => m ++ ", "))

/-- `handleTransactionChangeObject(changeObject)`. -/
def handleTransactionChangeObject {V : Type} (hb : HB V) (g : GState V)
    (co : ChangeObject V) : GState V × Option JsErr :=
  let keys := getActiveHandlerKeys g.registry co.valueTypes
  match runHandlersLoop hb co keys g [] 0 with
  | (g2, errs, handled) =>
    if errs.length > 0 then
      (g2, some ⟨aggregateMessage errs.length handled errs, errs⟩)
    else (g2, none)

/-- The transaction closing sequence shared by both branches of
`cacheTransaction`: dispatch the accumulated change object, then in a
`finally` clear the accumulator and reset `changeOrder`.  The `none` case
would be JS dereferencing `null.valueTypes` and is unreachable, since the
accumulator is created before any transaction body runs. -/
def closeDispatch {V : Type} (hb : HB V) (g : GState V) : GState V × Option JsErr :=
  match g.transactionChangeObject with
  | some co =>
    match handleTransactionChangeObject hb g co with
    | (g2, e) => ({ g2 with transactionChangeObject := none, changeOrder := 0 }, e)
  | none =>
    ({ g with transactionChangeObject := none, changeOrder := 0 },
      some ⟨"TypeError: transactionChangeObject is null", []⟩)

/-- `cacheTransaction(callback)` on the synchronous-callback branch, over an
explicit body function.  A `some` error from the body propagates, but the
`finally` runs regardless, and an error thrown while dispatching replaces
the body error (JS `finally` semantics). -/
def cacheTransactionRun {V : Type} (hb : HB V) (body : GState V → GState V × Option JsErr)
    (g : GState V) : GState V × Option JsErr :=
  let g1 := if g.transactionChangeObject.isSome then g
    else { g with transactionChangeObject := some emptyChangeObject }
  let g2 := { g1 with runningTransactions := g1.runningTransactions + 1 }
  match body g2 with
  | (g3, eBody) =>
    let g4 := { g3 with runningTransactions := g3.runningTransactions - 1 }
    if g4.runningTransactions = 0 then
      match closeDispatch hb g4 with
      | (g5, some e) => (g5, some e)
      | (g5, none) => (g5, eBody)
    else (g4, eBody)

/-- `handleChange(valueType, keyValueAlternateKeys, fieldNameAdd, ...)`: copy
the entry with the next `order`, push it into the (possibly fresh) change
object, and dispatch immediately when no transaction is open. -/
def handleChange {V : Type} (hb : HB V) (t : String) (entry : CacheEntry V)
    (kind : FieldKind) (g : GState V) : GState V × Option JsErr :=
  let batchChanges := g.transactionChangeObject.isSome
  let co0 := g.transactionChangeObject.getD emptyChangeObject
  let item : ChangeItem V := ⟨entry.key, entry.value, entry.alternateKeys, g.changeOrder⟩
  let co1 := pushToChangeObject co0 t kind item
  let g1 := { g with
    changeOrder := g.changeOrder + 1,
    recordLog := g.recordLog ++ [⟨t, kind, item⟩] }
  if batchChanges then
    ({ g1 with transactionChangeObject := some co1 }, none)
  else
    handleTransactionChangeObject hb g1 co1

/-- `handleInsert(valueType, keyValueAlternateKeys)`. -/
def handleInsert {V : Type} (hb : HB V) (t : String) (entry : CacheEntry V) (g : GState V) :
    GState V × Option JsErr :=
  if g.handleChanges then handleChange hb t entry .inserts g else (g, none)

/-- `handleClearRemove(valueType, keyValueAlternateKeys)`. -/
def handleClearRemove {V : Type} (hb : HB V) (t : String) (entry : CacheEntry V)
    (g : GState V) : GState V × Option JsErr :=
  if g.handleChanges then handleChange hb t entry .clearRemoves g else (g, none)

/-- `handleLruRemove(valueType, keyValueAlternateKeys)`. -/
def handleLruRemove {V : Type} (hb : HB V) (t : String) (entry : CacheEntry V)
    (g : GState V) : GState V × Option JsErr :=
  if g.handleChanges then handleChange hb t entry .lruRemoves g else (g, none)

/-- `handleDeleteRemove(valueType, keyValueAlternateKeys)`. -/
def handleDeleteRemove {V : Type} (hb : HB V) (t : String) (entry : CacheEntry V)
    (g : GState V) : GState V × Option JsErr :=
  if g.handleChanges then handleChange hb t entry .deleteRemoves g else (g, none)

/-- `wrapInTransaction(valueType, transactionCallback)`: with an active
handler for the type, open a transaction; otherwise run the body with
`handleChanges` off and restore it to `true` in the `finally` (the JS code
restores the constant `true`, not the previous value). -/
def wrapInTransaction {V : Type} (hb : HB V) (t : String)
    (body : GState V → GState V × Option JsErr) (g : GState V) : GState V × Option JsErr :=
  if hasActiveHandler g.registry t then
    cacheTransactionRun hb body g
  else
    match body { g with handleChanges := false } with
    | (g2, e) => ({ g2 with handleChanges := true }, e)

/-! ## The cache methods -/

def DEFAULT_MAX_SIZE : Nat := 500

/-- The closure state built by `LruCache(valueType, maxSize)`. -/
def LruCacheNew (V : Type) (maxSize : Option Nat) : CacheState V :=
  { lru := LruMap.init maxSize (CacheEntry V), alternateKeyToKey := [],
    dispatchLruRemoves := false, dispatchClearRemoves := false }

/-- `getCache(valueType)`: return the existing singleton for the type or
create one with the default max size. -/
def getCache {V : Type} (g : GState V) (t : String) : GState V × CacheState V :=
  match alGet g.valueTypeToCache t with
  | some c => (g, c)
  | none =>
    let c := LruCacheNew V (some DEFAULT_MAX_SIZE)
    ({ g with valueTypeToCache := alSet g.valueTypeToCache t c }, c)

/-- Store back the (mutated-in-JS) cache instance of a value type. -/
def putCache {V : Type} (g : GState V) (t : String) (c : CacheState V) : GState V :=
  { g with valueTypeToCache := alSet g.valueTypeToCache t c }

/-- The string of the single quote character. -/
def sq : String := String.singleton (Char.ofNat 39)

/-- The message of the alternate-key conflict error thrown by `setAll`. -/
def conflictMessage (altKey key valueType existing : String) : String :=
  "LruCache::setAll: alternate key " ++ sq ++ altKey ++ sq ++ " is given for key " ++ sq
    ++ key ++ sq ++ " and value type " ++ sq ++ valueType ++ sq
    ++ " but is already used for key " ++ sq ++ existing ++ sq

/-- The `alternateKeys` field of one `setAll` argument object: absent, a
single string, or an array. -/
inductive AltArg where
  | noneArg
  | strArg (s : String)
  | arrArg (l : List String)
deriving DecidableEq, Repr

/-- One element of the `keyValueAlternateKeysArray` argument. -/
structure SetArg (V : Type) where
  key : String
  value : V
  alternateKeys : AltArg
deriving DecidableEq, Repr

/-- The normalisation at the top of the `setAll` loop body: non-arrays
become `[]`, except that a string (when the array check yielded `[]`)
becomes a one-element array. -/
def altKeysOf (a : AltArg) : List String :=
  match a with
  | .arrArg l => l
  | .strArg s => [s]
  | .noneArg => []

/-- One iteration of the `keyValueAlternateKeysArray.forEach` loop in
`setAll`.  The entry lookup `lruMap.get(key)` touches the LRU order before
the conflict check, so that touch survives even when the iteration throws.
The `none` cache case is unreachable: the caller obtained the cache from
`getCache`. -/
def setAllEntry {V : Type} (hb : HB V) (t : String) (dispatchLru : Bool) (arg : SetArg V)
    (g : GState V) : GState V × Option JsErr :=
  match alGet g.valueTypeToCache t with
  | none => (g, some ⟨"TypeError: cache is undefined", []⟩)
  | some c =>
    match LruMap.get arg.key c.lru with
    | (lru1, entryOpt) =>
      let altKeys := altKeysOf arg.alternateKeys
      match altKeys.find? (fun a =>
          match alGet c.alternateKeyToKey a with
          | some k2 => k2 != arg.key
          | none => false) with
      | some a =>
        let g1 := putCache g t { c with lru := lru1 }
        (g1, some ⟨conflictMessage a arg.key t ((alGet c.alternateKeyToKey a).getD ""), []⟩)
      | none =>
        let altSet := jsSetOf altKeys
        let entry : CacheEntry V :=
          match entryOpt with
          | none => ⟨arg.key, arg.value, altSet⟩
          | some e => ⟨e.key, arg.value, jsSetOf (e.alternateKeys ++ altSet)⟩
        match LruMap.set arg.key entry lru1 with
        | (lru2, removed) =>
          let akk1 := altSet.foldl (fun akk a => alSet akk a arg.key) c.alternateKeyToKey
          let g1 := putCache g t { c with lru := lru2, alternateKeyToKey := akk1 }
          match handleInsert hb t entry g1 with
          | (g2, some err) => (g2, some err)
          | (g2, none) =>
            match removed with
            | none => (g2, none)
            | some rem =>
              match alGet g2.valueTypeToCache t with
              | none => (g2, some ⟨"TypeError: cache is undefined", []⟩)
              | some c2 =>
                let removedEntry := rem.2
                let akk2 := removedEntry.alternateKeys.foldl
                  (fun akk a => alErase akk a) c2.alternateKeyToKey
                let g3 := putCache g2 t { c2 with alternateKeyToKey := akk2 }
                if dispatchLru then handleLruRemove hb t removedEntry g3
                else (g3, none)

/-- The whole `forEach` of `setAll`: entries in order, stopping at the
first thrown error. -/
def runEntries {V : Type} (hb : HB V) (t : String) (dispatchLru : Bool) :
    List (SetArg V) → GState V → GState V × Option JsErr
  | [], g => (g, none)
  | e :: rest, g =>
    match setAllEntry hb t dispatchLru e g with
    | (g1, some err) => (g1, some err)
    | (g1, none) => runEntries hb t dispatchLru rest g1

/-- `cache.setAll(keyValueAlternateKeysArray)`: obtain the cache for the
type and run the entry loop inside `wrapInTransaction`.  The argument is a
list by construction, so the non-array check of the JS code cannot fire. -/
def setAll {V : Type} (hb : HB V) (t : String) (es : List (SetArg V)) (g : GState V) :
    GState V × Option JsErr :=
  match getCache g t with
  | (g0, c) => wrapInTransaction hb t (runEntries hb t c.dispatchLruRemoves es) g0

/-- `entryGetter(key, alternateKeyToKey, lruMap.get)`: the stateful variant
used by `cache.get`, threading the LRU reordering done by the getter. -/
def entryGetterTouch {V : Type} (k : String) (akk : List (String × String))
    (lru : LruState (CacheEntry V)) : LruState (CacheEntry V) × Option (CacheEntry V) :=
  match LruMap.get k lru with
  | (lru1, some e) => (lru1, some e)
  | (lru1, none) =>
    match alGet akk k with
    | some k2 => LruMap.get k2 lru1
    | none => (lru1, none)

/-- `entryGetter(key, alternateKeyToKey, getter)` for a side-effect-free
getter. -/
def entryGetterPure {V : Type} (k : String) (akk : List (String × String))
    (getter : String → Option (CacheEntry V)) : Option (CacheEntry V) :=
  match getter k with
  | some e => some e
  | none =>
    match alGet akk k with
    | some k2 => getter k2
    | none => none

/-- `cache.get(keyOrAlternateKey)`. -/
def cacheGet {V : Type} (t : String) (k : String) (g : GState V) : GState V × Option V :=
  match getCache g t with
  | (g0, c) =>
    match entryGetterTouch k c.alternateKeyToKey c.lru with
    | (lru1, eOpt) => (putCache g0 t { c with lru := lru1 }, eOpt.map (fun e => e.value))

/-- `cache.getWithoutLruChange(keyOrAlternateKey)`. -/
def cacheGetWithoutLruChange {V : Type} (t : String) (k : String) (g : GState V) :
    GState V × Option V :=
  match getCache g t with
  | (g0, c) =>
    let eOpt := entryGetterPure k c.alternateKeyToKey
      (fun kk => LruMap.getWithoutLruChange kk c.lru)
    (g0, eOpt.map (fun e => e.value))

/-- `cache.delete(keyOrAlternateKey)`: resolve through alternate keys
without touching the LRU order, remove the entry and its alternate key
bindings, then dispatch a `deleteRemoves` event inside a transaction.
`Except.ok` carries the JS return value; `Except.error` a thrown error. -/
def cacheDelete {V : Type} (hb : HB V) (t : String) (k : String) (g : GState V) :
    GState V × Except JsErr Bool :=
  match getCache g t with
  | (g0, c) =>
    match entryGetterPure k c.alternateKeyToKey
        (fun kk => LruMap.getWithoutLruChange kk c.lru) with
    | none => (g0, .ok false)
    | some entry =>
      let lru1 := (LruMap.delete entry.key c.lru).1
      let akk1 := entry.alternateKeys.foldl (fun akk a => alErase akk a) c.alternateKeyToKey
      let g1 := putCache g0 t { c with lru := lru1, alternateKeyToKey := akk1 }
      match wrapInTransaction hb t (fun gg => handleDeleteRemove hb t entry gg) g1 with
      | (g2, some err) => (g2, .error err)
      | (g2, none) => (g2, .ok true)

/-- The `keyValueArray.forEach` loop of `cache.clear`, dispatching a
`clearRemoves` event per removed entry. -/
def runClearRemoves {V : Type} (hb : HB V) (t : String) :
    List (String × CacheEntry V) → GState V → GState V × Option JsErr
  | [], g => (g, none)
  | (_, entry) :: rest, g =>
    match handleClearRemove hb t entry g with
    | (g1, some err) => (g1, some err)
    | (g1, none) => runClearRemoves hb t rest g1

/-- `cache.clear()`. -/
def cacheClear {V : Type} (hb : HB V) (t : String) (g : GState V) : GState V × Option JsErr :=
  match getCache g t with
  | (g0, c) =>
    match LruMap.clear c.lru with
    | (lru1, keyValueArray) =>
      let g1 := putCache g0 t { c with lru := lru1, alternateKeyToKey := [] }
      if c.dispatchClearRemoves then
        wrapInTransaction hb t (runClearRemoves hb t keyValueArray) g1
      else (g1, none)

/-- The `keyValueArray.forEach` loop of `cache.setMaxSize`: unbind each
removed entry from the alternate key map, optionally dispatching an
`lruRemoves` event. -/
def runMaxSizeRemoves {V : Type} (hb : HB V) (t : String) (dispatchLru : Bool) :
    List (String × CacheEntry V) → GState V → GState V × Option JsErr
  | [], g => (g, none)
  | (_, entry) :: rest, g =>
    match alGet g.valueTypeToCache t with
    | none => (g, some ⟨"TypeError: cache is undefined", []⟩)
    | some c =>
      let akk1 := entry.alternateKeys.foldl (fun akk a => alErase akk a) c.alternateKeyToKey
      let g1 := putCache g t { c with alternateKeyToKey := akk1 }
      if dispatchLru then
        match handleLruRemove hb t entry g1 with
        | (g2, some err) => (g2, some err)
        | (g2, none) => runMaxSizeRemoves hb t dispatchLru rest g2
      else runMaxSizeRemoves hb t dispatchLru rest g1

/-- `cache.setMaxSize(newMaxSize)`. -/
def cacheSetMaxSize {V : Type} (hb : HB V) (t : String) (n : Option Nat) (g : GState V) :
    GState V × Option JsErr :=
  match getCache g t with
  | (g0, c) =>
    match LruMap.setMaxSize n c.lru with
    | (lru1, keyValueArray) =>
      let g1 := putCache g0 t { c with lru := lru1 }
      wrapInTransaction hb t (runMaxSizeRemoves hb t c.dispatchLruRemoves keyValueArray) g1

/-- `cache.dispatchLruRemoves(newValue)`. -/
def cacheDispatchLruRemoves {V : Type} (t : String) (b : Bool) (g : GState V) : GState V :=
  match getCache g t with
  | (g0, c) => putCache g0 t { c with dispatchLruRemoves := b }

/-- `cache.dispatchClearRemoves(newValue)`. -/
def cacheDispatchClearRemoves {V : Type} (t : String) (b : Bool) (g : GState V) : GState V :=
  match getCache g t with
  | (g0, c) => putCache g0 t { c with dispatchClearRemoves := b }

/-- `registerCacheChangedHandler` at the module level: allocate and index a
handler; the returned key identifies it to the behaviour parameter `hb`. -/
def registerHandler {V : Type} (g : GState V) (valueTypes : VTArg) : GState V × Nat :=
  match registerCacheChangedHandler g.registry valueTypes with
  | (r1, key) => ({ g with registry := r1 }, key)

/-! ## Client operations and the interpreter -/

/-- One public operation of the library, as invoked on `getCache(t)` or at
the module level.  `transaction ops` is `cacheTransaction` with a callback
performing `ops`. -/
inductive COp (V : Type) where
  | setAll (t : String) (es : List (SetArg V))
  | set (t : String) (e : SetArg V)
  | get (t k : String)
  | getWithoutLruChange (t k : String)
  | delete (t k : String)
  | clear (t : String)
  | setMaxSize (t : String) (n : Option Nat)
  | dispatchLruRemoves (t : String) (b : Bool)
  | dispatchClearRemoves (t : String) (b : Bool)
  | register (valueTypes : VTArg)
  | transaction (ops : List (COp V))

mutual

/-- Run one operation; a `some` error is a thrown JS exception. -/
def runCOp {V : Type} (hb : HB V) : COp V → GState V → GState V × Option JsErr
  | .setAll t es, g => setAll hb t es g
  | .set t e, g => setAll hb t [e] g
  | .get t k, g =>
    match cacheGet t k g with
    | (g1, _) => (g1, none)
  | .getWithoutLruChange t k, g =>
    match cacheGetWithoutLruChange t k g with
    | (g1, _) => (g1, none)
  | .delete t k, g =>
    match cacheDelete hb t k g with
    | (g1, .ok _) => (g1, none)
    | (g1, .error e) => (g1, some e)
  | .clear t, g => cacheClear hb t g
  | .setMaxSize t n, g => cacheSetMaxSize hb t n g
  | .dispatchLruRemoves t b, g => (cacheDispatchLruRemoves t b g, none)
  | .dispatchClearRemoves t b, g => (cacheDispatchClearRemoves t b g, none)
  | .register vts, g => ((registerHandler g vts).1, none)
  | .transaction ops, g =>
    let g1 := if g.transactionChangeObject.isSome then g
      else { g with transactionChangeObject := some emptyChangeObject }
    let g2 := { g1 with runningTransactions := g1.runningTransactions + 1 }
    match runSeq hb ops g2 with
    | (g3, eBody) =>
      let g4 := { g3 with runningTransactions := g3.runningTransactions - 1 }
      if g4.runningTransactions = 0 then
        match closeDispatch hb g4 with
        | (g5, some e) => (g5, some e)
        | (g5, none) => (g5, eBody)
      else (g4, eBody)

/-- Run a sequence of operations, stopping at the first thrown error. -/
def runSeq {V : Type} (hb : HB V) : List (COp V) → GState V → GState V × Option JsErr
  | [], g => (g, none)
  | op :: rest, g =>
    match runCOp hb op g with
    | (g1, some e) => (g1, some e)
    | (g1, none) => runSeq hb rest g1

end

/-- The `transaction` case of `runCOp` is exactly `cacheTransaction` run on
the sequenced body. -/
theorem runCOp_transaction {V : Type} (hb : HB V) (ops : List (COp V)) (g : GState V) :
    runCOp hb (COp.transaction ops) g = cacheTransactionRun hb (runSeq hb ops) g := by
  rw [runCOp, cacheTransactionRun]

/-! ## Lemmas about the JS `Set`/`Map` helpers used by the registry -/

theorem mem_jsAdd {α : Type} [DecidableEq α] (l : List α) (a b : α) :
    b ∈ jsAdd l a ↔ b ∈ l ∨ b = a := by
  rw [jsAdd]
  split
  · constructor
    · exact fun h => Or.inl h
    · rintro (h | rfl)
      · exact h
      · assumption
  · simp

theorem nodup_jsAdd {α : Type} [DecidableEq α] {l : List α} (h : l.Nodup) (a : α) :
    (jsAdd l a).Nodup := by
  rw [jsAdd]
  split
  · exact h
  · simp [List.nodup_append, h]
    intro hmem
    exact absurd hmem (by assumption)

theorem mem_foldl_jsAdd {α : Type} [DecidableEq α] (l : List α) :
    ∀ (acc : List α) (b : α), b ∈ l.foldl jsAdd acc ↔ b ∈ acc ∨ b ∈ l := by
  induction l with
  | nil => simp
  | cons a rest ih =>
    intro acc b
    rw [List.foldl_cons, ih, mem_jsAdd]
    simp [or_assoc]

theorem nodup_foldl_jsAdd {α : Type} [DecidableEq α] (l : List α) :
    ∀ {acc : List α}, acc.Nodup → (l.foldl jsAdd acc).Nodup := by
  induction l with
  | nil => intro acc h; exact h
  | cons a rest ih =>
    intro acc h
    rw [List.foldl_cons]
    exact ih (nodup_jsAdd h a)

theorem mem_jsSetOf {α : Type} [DecidableEq α] (l : List α) (b : α) :
    b ∈ jsSetOf l ↔ b ∈ l := by
  rw [jsSetOf, mem_foldl_jsAdd]
  simp

theorem nodup_jsSetOf {α : Type} [DecidableEq α] (l : List α) : (jsSetOf l).Nodup :=
  nodup_foldl_jsAdd l List.nodup_nil

theorem jsAdd_length_pos {α : Type} [DecidableEq α] (l : List α) (a : α) :
    0 < (jsAdd l a).length := by
  rw [jsAdd]
  split
  · rename_i h
    cases l with
    | nil => cases h
    | cons x xs => simp
  · simp

/-- A successful association-list lookup returns a pair of the list. -/
theorem alGet_mem {κ α : Type} [DecidableEq κ] {l : List (κ × α)} {k : κ} {v : α}
    (h : alGet l k = some v) : (k, v) ∈ l := by
  induction l with
  | nil => cases h
  | cons p rest ih =>
    obtain ⟨k1, v1⟩ := p
    rw [alGet_cons] at h
    by_cases hk : k1 = k
    · subst hk
      rw [if_pos rfl] at h
      cases h
      exact List.mem_cons_self _ _
    · rw [if_neg hk] at h
      exact List.mem_cons_of_mem _ (ih h)

/-- Erasing a batch of keys: a key of the batch is gone, any other key is
untouched. -/
theorem alGet_foldl_alErase {κ α : Type} [DecidableEq κ] (keys : List κ) :
    ∀ (m : List (κ × α)) (x : κ),
      alGet (keys.foldl (fun acc a => alErase acc a) m) x =
        if x ∈ keys then none else alGet m x := by
  induction keys with
  | nil => intro m x; simp
  | cons a rest ih =>
    intro m x
    rw [List.foldl_cons, ih]
    by_cases hx : x ∈ rest
    · simp [hx]
    · rw [if_neg hx]
      by_cases hxa : x = a
      · subst hxa
        simp [alGet_alErase_self]
      · rw [alGet_alErase_ne _ hxa]
        simp [hxa, hx]

/-- Binding a batch of alternate keys to `pk`: a key of the batch maps to
`pk`, any other key keeps its binding. -/
theorem alGet_foldl_alSet_const {κ α : Type} [DecidableEq κ] (keys : List κ) (pk : α) :
    ∀ (m : List (κ × α)) (x : κ),
      alGet (keys.foldl (fun acc a => alSet acc a pk) m) x =
        if x ∈ keys then some pk else alGet m x := by
  induction keys with
  | nil => intro m x; simp
  | cons a rest ih =>
    intro m x
    rw [List.foldl_cons, ih]
    by_cases hx : x ∈ rest
    · simp [hx]
    · rw [if_neg hx]
      by_cases hxa : x = a
      · subst hxa
        simp [alGet_alSet_self]
      · rw [alGet_alSet_ne _ _ hxa]
        simp [hxa, hx]

/-! ## Registry lemmas -/

/-- Membership in the per-type accumulation loop of `getActiveHandlerKeys`. -/
theorem mem_typeFold (r : RegistryState) (ts : List String) :
    ∀ (acc : List Nat) (b : Nat),
      b ∈ ts.foldl (fun acc t =>
          match alGet r.valueTypeToActiveChangeHandlerKeys t with
          | none => acc
          | some ks => ks.foldl jsAdd acc) acc ↔
        b ∈ acc ∨ ∃ t ∈ ts, ∃ ks, alGet r.valueTypeToActiveChangeHandlerKeys t = some ks ∧
          b ∈ ks := by
  induction ts with
  | nil => simp
  | cons t rest ih =>
    intro acc b
    rw [List.foldl_cons, ih]
    cases hks : alGet r.valueTypeToActiveChangeHandlerKeys t with
    | none =>
      constructor
      · rintro (h | ⟨t2, ht2, ks2, hks2, hb2⟩)
        · exact Or.inl h
        · exact Or.inr ⟨t2, List.mem_cons_of_mem _ ht2, ks2, hks2, hb2⟩
      · rintro (h | ⟨t2, ht2, ks2, hks2, hb2⟩)
        · exact Or.inl h
        · rcases List.mem_cons.mp ht2 with rfl | ht2
          · rw [hks] at hks2; cases hks2
          · exact Or.inr ⟨t2, ht2, ks2, hks2, hb2⟩
    | some ks =>
      rw [mem_foldl_jsAdd]
      constructor
      · rintro ((h | h) | ⟨t2, ht2, ks2, hks2, hb2⟩)
        · exact Or.inl h
        · exact Or.inr ⟨t, List.mem_cons_self _ _, ks, hks, h⟩
        · exact Or.inr ⟨t2, List.mem_cons_of_mem _ ht2, ks2, hks2, hb2⟩
      · rintro (h | ⟨t2, ht2, ks2, hks2, hb2⟩)
        · exact Or.inl (Or.inl h)
        · rcases List.mem_cons.mp ht2 with rfl | ht2
          · rw [hks] at hks2
            cases hks2
            exact Or.inl (Or.inr hb2)
          · exact Or.inr ⟨t2, ht2, ks2, hks2, hb2⟩

/-- Membership in the key set `handleTransactionChangeObject` dispatches
to. -/
theorem mem_getActiveHandlerKeys (r : RegistryState) (ts : List String) (b : Nat) :
    b ∈ getActiveHandlerKeys r ts ↔
      b ∈ r.allTypesActiveChangeHandlerKeys ∨
        ∃ t ∈ ts, ∃ ks, alGet r.valueTypeToActiveChangeHandlerKeys t = some ks ∧ b ∈ ks := by
  rw [getActiveHandlerKeys]
  rw [mem_foldl_jsAdd, mem_typeFold]
  simp [or_comm]

/-- The dispatch key set never repeats a key (it is built as a JS `Set`). -/
theorem nodup_getActiveHandlerKeys (r : RegistryState) (ts : List String) :
    (getActiveHandlerKeys r ts).Nodup := by
  rw [getActiveHandlerKeys]
  apply nodup_foldl_jsAdd
  have : ∀ (ts2 : List String) (acc : List Nat), acc.Nodup →
      (ts2.foldl (fun acc t =>
        match alGet r.valueTypeToActiveChangeHandlerKeys t with
        | none => acc
        | some ks => ks.foldl jsAdd acc) acc).Nodup := by
    intro ts2
    induction ts2 with
    | nil => intro acc h; exact h
    | cons t rest ih =>
      intro acc h
      rw [List.foldl_cons]
      cases alGet r.valueTypeToActiveChangeHandlerKeys t with
      | none => exact ih acc h
      | some ks => exact ih _ (nodup_foldl_jsAdd ks h)
  exact this ts [] List.nodup_nil

/-- Registry well-formedness: every key indexed as active has a registered
handler.  The public interface preserves it; `handleTransactionChangeObject`
relies on it to find each handler. -/
def RegistryWF (r : RegistryState) : Prop :=
  (∀ k ∈ r.allTypesActiveChangeHandlerKeys, (alGet r.keyToChangedHandler k).isSome = true) ∧
  (∀ p ∈ r.valueTypeToActiveChangeHandlerKeys, ∀ k ∈ p.2,
      (alGet r.keyToChangedHandler k).isSome = true)

theorem registered_of_mem_active {r : RegistryState} (hwf : RegistryWF r) {ts : List String}
    {k : Nat} (h : k ∈ getActiveHandlerKeys r ts) :
    (alGet r.keyToChangedHandler k).isSome = true := by
  rcases (mem_getActiveHandlerKeys r ts k).mp h with h | ⟨t, _, ks, hks, hk⟩
  · exact hwf.1 k h
  · exact hwf.2 _ (alGet_mem hks) k hk

/-! ## Characterizing one dispatch -/

/-- The handler invocations one dispatch of `co` performs: one per dispatch
key whose handler is registered, in key-set order. -/
def dispatchDelta {V : Type} (reg : RegistryState) (co : ChangeObject V) (keys : List Nat) :
    List (DispatchEv V) :=
  (keys.filter (fun k => (alGet reg.keyToChangedHandler k).isSome)).map (fun k => ⟨k, co⟩)

/-- The error messages one dispatch of `co` collects, in key-set order: a
throwing handler contributes its message, an unregistered key the engine
`TypeError`. -/
def thrownMsgs {V : Type} (hb : HB V) (reg : RegistryState) (co : ChangeObject V)
    (keys : List Nat) : List String :=
  keys.filterMap (fun k =>
    match alGet reg.keyToChangedHandler k with
    | none => some missingHandlerMessage
    | some _ => hb k co)

theorem runHandlersLoop_spec {V : Type} (hb : HB V) (co : ChangeObject V) :
    ∀ (keys : List Nat) (g : GState V) (errs : List String) (handled : Nat),
      runHandlersLoop hb co keys g errs handled =
        ({ g with dispatchLog := g.dispatchLog ++ dispatchDelta g.registry co keys },
          errs ++ thrownMsgs hb g.registry co keys, handled + keys.length) := by
  intro keys
  induction keys with
  | nil =>
    intro g errs handled
    simp [runHandlersLoop, dispatchDelta, thrownMsgs]
  | cons key rest ih =>
    intro g errs handled
    rw [runHandlersLoop]
    cases hk : alGet g.registry.keyToChangedHandler key with
    | none =>
      rw [ih]
      refine Prod.ext ?_ (Prod.ext ?_ ?_)
      · show ({ g with dispatchLog := g.dispatchLog ++ dispatchDelta g.registry co rest }
            : GState V) = _
        have hd : dispatchDelta g.registry co rest = dispatchDelta g.registry co (key :: rest) := by
          simp [dispatchDelta, hk]
        rw [hd]
      · show (errs ++ [missingHandlerMessage]) ++ thrownMsgs hb g.registry co rest = _
        simp [thrownMsgs, hk]
      · show handled + 1 + rest.length = handled + (key :: rest).length
        simp
        omega
    | some info =>
      dsimp only
      cases hhb : hb key co with
      | some msg =>
        dsimp only
        rw [ih]
        refine Prod.ext ?_ (Prod.ext ?_ ?_)
        · show ({ g with dispatchLog :=
              (g.dispatchLog ++ [⟨key, co⟩]) ++ dispatchDelta g.registry co rest } : GState V) = _
          have hd : (g.dispatchLog ++ [(⟨key, co⟩ : DispatchEv V)]) ++
              dispatchDelta g.registry co rest =
              g.dispatchLog ++ dispatchDelta g.registry co (key :: rest) := by
            simp [dispatchDelta, hk]
          rw [hd]
        · show (errs ++ [msg]) ++ thrownMsgs hb g.registry co rest = _
          simp [thrownMsgs, hk, hhb]
        · show handled + 1 + rest.length = handled + (key :: rest).length
          simp
          omega
      | none =>
        dsimp only
        rw [ih]
        refine Prod.ext ?_ (Prod.ext ?_ ?_)
        · show ({ g with dispatchLog :=
              (g.dispatchLog ++ [⟨key, co⟩]) ++ dispatchDelta g.registry co rest } : GState V) = _
          have hd : (g.dispatchLog ++ [(⟨key, co⟩ : DispatchEv V)]) ++
              dispatchDelta g.registry co rest =
              g.dispatchLog ++ dispatchDelta g.registry co (key :: rest) := by
            simp [dispatchDelta, hk]
          rw [hd]
        · show errs ++ thrownMsgs hb g.registry co rest = _
          simp [thrownMsgs, hk, hhb]
        · show handled + 1 + rest.length = handled + (key :: rest).length
          simp
          omega

/-- `handleTransactionChangeObject` appends one dispatch per registered
dispatch key, and throws the aggregate error exactly when some handler
threw. -/
theorem handleTransactionChangeObject_spec {V : Type} (hb : HB V) (g : GState V)
    (co : ChangeObject V) :
    handleTransactionChangeObject hb g co =
      ({ g with dispatchLog := g.dispatchLog ++
          dispatchDelta g.registry co (getActiveHandlerKeys g.registry co.valueTypes) },
        if thrownMsgs hb g.registry co (getActiveHandlerKeys g.registry co.valueTypes) = []
        then none
        else some
          ⟨aggregateMessage
              (thrownMsgs hb g.registry co (getActiveHandlerKeys g.registry co.valueTypes)).length
              (getActiveHandlerKeys g.registry co.valueTypes).length
              (thrownMsgs hb g.registry co (getActiveHandlerKeys g.registry co.valueTypes)),
            thrownMsgs hb g.registry co (getActiveHandlerKeys g.registry co.valueTypes)⟩) := by
  rw [handleTransactionChangeObject]
  rw [runHandlersLoop_spec]
  cases hmsgs : thrownMsgs hb g.registry co (getActiveHandlerKeys g.registry co.valueTypes) with
  | nil => simp
  | cons m rest => simp

/-- With handlers that never throw and a well-formed registry no dispatch
collects any error. -/
theorem thrownMsgs_nil_of_benign {V : Type} {hb : HB V} {r : RegistryState}
    (hbGood : ∀ k co, hb k co = none) (hwf : RegistryWF r) (co : ChangeObject V)
    (ts : List String) : thrownMsgs hb r co (getActiveHandlerKeys r ts) = [] := by
  rw [thrownMsgs, List.filterMap_eq_nil_iff]
  intro k hk
  have hreg := registered_of_mem_active hwf hk
  cases hget : alGet r.keyToChangedHandler k with
  | none => rw [hget] at hreg; cases hreg
  | some info => exact hbGood k co

/-- The transaction closing sequence: one full dispatch of the accumulated
object, then the accumulator cleared and the order counter reset, whatever
the handlers did. -/
theorem closeDispatch_spec {V : Type} (hb : HB V) (g : GState V) (co : ChangeObject V)
    (h : g.transactionChangeObject = some co) :
    closeDispatch hb g =
      ({ g with
          dispatchLog := g.dispatchLog ++
            dispatchDelta g.registry co (getActiveHandlerKeys g.registry co.valueTypes),
          transactionChangeObject := none, changeOrder := 0 },
        if thrownMsgs hb g.registry co (getActiveHandlerKeys g.registry co.valueTypes) = []
        then none
        else some
          ⟨aggregateMessage
              (thrownMsgs hb g.registry co (getActiveHandlerKeys g.registry co.valueTypes)).length
              (getActiveHandlerKeys g.registry co.valueTypes).length
              (thrownMsgs hb g.registry co (getActiveHandlerKeys g.registry co.valueTypes)),
            thrownMsgs hb g.registry co (getActiveHandlerKeys g.registry co.valueTypes)⟩) := by
  rw [closeDispatch, h]
  dsimp only
  rw [handleTransactionChangeObject_spec]

/-- Whatever happened, after the close the accumulator is `none` and the
order counter `0`. -/
theorem closeDispatch_clears {V : Type} (hb : HB V) (g : GState V) :
    (closeDispatch hb g).1.transactionChangeObject = none ∧
      (closeDispatch hb g).1.changeOrder = 0 := by
  rw [closeDispatch]
  cases h : g.transactionChangeObject with
  | none => exact ⟨rfl, rfl⟩
  | some co =>
    cases hd : handleTransactionChangeObject hb g co with
    | mk g2 e => exact ⟨rfl, rfl⟩

/-- The close only touches the dispatch log, the accumulator and the order
counter. -/
theorem closeDispatch_frame {V : Type} (hb : HB V) (g : GState V) :
    (closeDispatch hb g).1.recordLog = g.recordLog ∧
      (closeDispatch hb g).1.registry = g.registry ∧
      (closeDispatch hb g).1.valueTypeToCache = g.valueTypeToCache ∧
      (closeDispatch hb g).1.runningTransactions = g.runningTransactions ∧
      (closeDispatch hb g).1.handleChanges = g.handleChanges ∧
      ∃ d, (closeDispatch hb g).1.dispatchLog = g.dispatchLog ++ d := by
  rw [closeDispatch]
  cases h : g.transactionChangeObject with
  | none => exact ⟨rfl, rfl, rfl, rfl, rfl, [], by simp⟩
  | some co =>
    dsimp only
    rw [handleTransactionChangeObject_spec]
    exact ⟨rfl, rfl, rfl, rfl, rfl, _, rfl⟩

/-! ## Transition facts shared by every library call

`OpenDelta` is what a call does to the transaction bookkeeping while a
transaction is open (nesting counter positive, accumulator present): no
dispatch, the counter untouched, the accumulator still present, and any
recorded events numbered consecutively from the entry `changeOrder`.
`GoodStep` holds of every call unconditionally: both ghost logs only grow,
and `OpenDelta` holds whenever the start state has an open transaction. -/

def OpenDelta {V : Type} (g g2 : GState V) : Prop :=
  g2.dispatchLog = g.dispatchLog ∧
  g2.runningTransactions = g.runningTransactions ∧
  g2.transactionChangeObject.isSome = true ∧
  ∃ delta, g2.recordLog = g.recordLog ++ delta ∧
    g2.changeOrder = g.changeOrder + delta.length ∧
    delta.map (fun ev => ev.item.order) = List.range' g.changeOrder delta.length

def GoodStep {V : Type} (g g2 : GState V) : Prop :=
  ((∃ d, g2.recordLog = g.recordLog ++ d) ∧ (∃ d, g2.dispatchLog = g.dispatchLog ++ d)) ∧
  (1 ≤ g.runningTransactions → g.transactionChangeObject.isSome = true → OpenDelta g g2)

theorem goodStep_refl {V : Type} (g : GState V) : GoodStep g g :=
  ⟨⟨⟨[], by simp⟩, ⟨[], by simp⟩⟩,
    fun _ h => ⟨rfl, rfl, h, [], by simp, rfl, by simp⟩⟩

/-- A call that can only change the cache map or the registry is a
`GoodStep`. -/
theorem goodStep_same {V : Type} {g g2 : GState V}
    (hrec : g2.recordLog = g.recordLog) (hdisp : g2.dispatchLog = g.dispatchLog)
    (hrt : g2.runningTransactions = g.runningTransactions)
    (htx : g2.transactionChangeObject = g.transactionChangeObject)
    (hco : g2.changeOrder = g.changeOrder) : GoodStep g g2 :=
  ⟨⟨⟨[], by simp [hrec]⟩, ⟨[], by simp [hdisp]⟩⟩,
    fun _ h => ⟨hdisp, hrt, by rw [htx]; exact h, [], by simp [hrec], by simp [hco], by simp⟩⟩

theorem goodStep_trans {V : Type} {g1 g2 g3 : GState V}
    (h12 : GoodStep g1 g2) (h23 : GoodStep g2 g3) : GoodStep g1 g3 := by
  obtain ⟨⟨⟨r12, hr12⟩, ⟨d12, hd12⟩⟩, hopen12⟩ := h12
  obtain ⟨⟨⟨r23, hr23⟩, ⟨d23, hd23⟩⟩, hopen23⟩ := h23
  refine ⟨⟨⟨r12 ++ r23, by rw [hr23, hr12, List.append_assoc]⟩,
    ⟨d12 ++ d23, by rw [hd23, hd12, List.append_assoc]⟩⟩, ?_⟩
  intro hrt htx
  obtain ⟨ha1, ha2, ha3, delta1, ha4, ha5, ha6⟩ := hopen12 hrt htx
  obtain ⟨hb1, hb2, hb3, delta2, hb4, hb5, hb6⟩ := hopen23 (by rw [ha2]; exact hrt) ha3
  refine ⟨by rw [hb1, ha1], by rw [hb2, ha2], hb3, delta1 ++ delta2, ?_, ?_, ?_⟩
  · rw [hb4, ha4, List.append_assoc]
  · rw [hb5, ha5]
    simp [Nat.add_assoc]
  · rw [List.map_append, ha6, hb6, ha5, List.length_append]
    rw [List.range'_append_1]
    rw [Nat.add_comm delta2.length delta1.length]

/-- `handleChange` is a `GoodStep`: in a transaction it only extends the
accumulator and the record log; outside one it additionally dispatches. -/
theorem goodStep_handleChange {V : Type} (hb : HB V) (t : String) (entry : CacheEntry V)
    (kind : FieldKind) (g : GState V) : GoodStep g (handleChange hb t entry kind g).1 := by
  rw [handleChange]
  cases htx : g.transactionChangeObject with
  | some co =>
    dsimp only [Option.isSome_some]
    rw [if_pos rfl]
    refine ⟨⟨⟨_, rfl⟩, ⟨[], by simp⟩⟩, ?_⟩
    intro hrt _
    exact ⟨rfl, rfl, rfl, [⟨t, kind, ⟨entry.key, entry.value, entry.alternateKeys,
      g.changeOrder⟩⟩], rfl, by simp, by simp⟩
  | none =>
    dsimp only [Option.isSome_none]
    rw [if_neg (by simp)]
    rw [handleTransactionChangeObject_spec]
    refine ⟨⟨⟨_, rfl⟩, ⟨_, rfl⟩⟩, ?_⟩
    intro _ htx2
    rw [htx] at htx2
    cases htx2

theorem goodStep_handleInsert {V : Type} (hb : HB V) (t : String) (entry : CacheEntry V)
    (g : GState V) : GoodStep g (handleInsert hb t entry g).1 := by
  rw [handleInsert]
  split
  · exact goodStep_handleChange hb t entry .inserts g
  · exact goodStep_refl g

theorem goodStep_handleClearRemove {V : Type} (hb : HB V) (t : String) (entry : CacheEntry V)
    (g : GState V) : GoodStep g (handleClearRemove hb t entry g).1 := by
  rw [handleClearRemove]
  split
  · exact goodStep_handleChange hb t entry .clearRemoves g
  · exact goodStep_refl g

theorem goodStep_handleLruRemove {V : Type} (hb : HB V) (t : String) (entry : CacheEntry V)
    (g : GState V) : GoodStep g (handleLruRemove hb t entry g).1 := by
  rw [handleLruRemove]
  split
  · exact goodStep_handleChange hb t entry .lruRemoves g
  · exact goodStep_refl g

theorem goodStep_handleDeleteRemove {V : Type} (hb : HB V) (t : String) (entry : CacheEntry V)
    (g : GState V) : GoodStep g (handleDeleteRemove hb t entry g).1 := by
  rw [handleDeleteRemove]
  split
  · exact goodStep_handleChange hb t entry .deleteRemoves g
  · exact goodStep_refl g

theorem goodStep_putCache {V : Type} (g : GState V) (t : String) (c : CacheState V) :
    GoodStep g (putCache g t c) :=
  goodStep_same rfl rfl rfl rfl rfl

theorem goodStep_getCache {V : Type} (g : GState V) (t : String) :
    GoodStep g (getCache g t).1 := by
  rw [getCache]
  cases alGet g.valueTypeToCache t with
  | some c => exact goodStep_refl g
  | none => exact goodStep_same rfl rfl rfl rfl rfl

theorem goodStep_cast {V : Type} {α : Type} {g gR : GState V} {x : α} {p : GState V × α}
    (he : p = (gR, x)) (h : GoodStep g p.1) : GoodStep g gR := by
  rw [he] at h
  exact h

theorem goodStep_setAllEntry {V : Type} (hb : HB V) (t : String) (dl : Bool) (arg : SetArg V)
    (g : GState V) : GoodStep g (setAllEntry hb t dl arg g).1 := by
  rw [setAllEntry]
  split
  · exact goodStep_refl g
  next c hc =>
    cases hg : LruMap.get arg.key c.lru with
    | mk lru1 entryOpt =>
      dsimp only
      split
      · exact goodStep_putCache g t _
      · cases hs : LruMap.set arg.key (match entryOpt with
            | none => ⟨arg.key, arg.value, jsSetOf (altKeysOf arg.alternateKeys)⟩
            | some e => ⟨e.key, arg.value,
                jsSetOf (e.alternateKeys ++ jsSetOf (altKeysOf arg.alternateKeys))⟩) lru1 with
        | mk lru2 removed =>
          split
          next g2 err hi =>
            exact goodStep_trans (goodStep_putCache g t _)
              (goodStep_cast hi (goodStep_handleInsert hb t _ _))
          next g2 hi =>
            refine goodStep_trans (goodStep_trans (goodStep_putCache g t _)
              (goodStep_cast hi (goodStep_handleInsert hb t _ _))) ?_
            split
            · exact goodStep_refl g2
            · split
              · exact goodStep_refl g2
              · split
                · exact goodStep_trans (goodStep_putCache g2 t _)
                    (goodStep_handleLruRemove hb t _ _)
                · exact goodStep_putCache g2 t _

theorem goodStep_runEntries {V : Type} (hb : HB V) (t : String) (dl : Bool)
    (es : List (SetArg V)) : ∀ g : GState V, GoodStep g (runEntries hb t dl es g).1 := by
  induction es with
  | nil => intro g; exact goodStep_refl g
  | cons e rest ih =>
    intro g
    rw [runEntries]
    cases he : setAllEntry hb t dl e g with
    | mk g1 err =>
      have h1 : GoodStep g g1 := by
        have := goodStep_setAllEntry hb t dl e g
        rw [he] at this
        exact this
      cases err with
      | some e2 => exact h1
      | none => exact goodStep_trans h1 (ih g1)

/-- Opening a transaction as `cacheTransaction` does: ensure the
accumulator, then bump the nesting counter. -/
def openTx {V : Type} (g : GState V) : GState V :=
  let g1 := if g.transactionChangeObject.isSome then g
    else { g with transactionChangeObject := some emptyChangeObject }
  { g1 with runningTransactions := g1.runningTransactions + 1 }

/-- `cacheTransaction` with a synchronous body, written through `openTx`. -/
theorem cacheTransactionRun_eq {V : Type} (hb : HB V)
    (body : GState V → GState V × Option JsErr) (g : GState V) :
    cacheTransactionRun hb body g =
      (match body (openTx g) with
       | (g3, eBody) =>
         let g4 := { g3 with runningTransactions := g3.runningTransactions - 1 }
         if g4.runningTransactions = 0 then
           match closeDispatch hb g4 with
           | (g5, some e) => (g5, some e)
           | (g5, none) => (g5, eBody)
         else (g4, eBody)) := by
  rw [cacheTransactionRun, openTx]

theorem openTx_fields {V : Type} (g : GState V) :
    (openTx g).recordLog = g.recordLog ∧ (openTx g).dispatchLog = g.dispatchLog ∧
    (openTx g).changeOrder = g.changeOrder ∧ (openTx g).registry = g.registry ∧
    (openTx g).valueTypeToCache = g.valueTypeToCache ∧
    (openTx g).handleChanges = g.handleChanges ∧
    (openTx g).runningTransactions = g.runningTransactions + 1 ∧
    (openTx g).transactionChangeObject.isSome = true := by
  rw [openTx]
  by_cases hx : g.transactionChangeObject.isSome = true
  · rw [if_pos hx]
    exact ⟨rfl, rfl, rfl, rfl, rfl, rfl, rfl, hx⟩
  · rw [if_neg hx]
    exact ⟨rfl, rfl, rfl, rfl, rfl, rfl, rfl, rfl⟩

theorem goodStep_cacheTransactionRun {V : Type} (hb : HB V)
    (body : GState V → GState V × Option JsErr) (g : GState V)
    (hbody : GoodStep (openTx g) (body (openTx g)).1) :
    GoodStep g (cacheTransactionRun hb body g).1 := by
  obtain ⟨hfrec, hfdisp, hfco, hfreg, hfvtc, hfhc, hfrt, hftx⟩ := openTx_fields g
  rw [cacheTransactionRun_eq]
  cases hB : body (openTx g) with
  | mk g3 eBody =>
    rw [hB] at hbody
    dsimp only at hbody ⊢
    by_cases hz : g3.runningTransactions - 1 = 0
    · rw [if_pos hz]
      obtain ⟨hrec3, hreg3, hvtc3, hrt3, hhc3, d3, hd3⟩ :=
        closeDispatch_frame hb { g3 with runningTransactions := g3.runningTransactions - 1 }
      cases hcd : closeDispatch hb
          { g3 with runningTransactions := g3.runningTransactions - 1 } with
      | mk g5 e5 =>
        rw [hcd] at hrec3 hd3
        have hfin : GoodStep g g5 := by
          refine ⟨⟨?_, ?_⟩, ?_⟩
          · obtain ⟨r1, hr1⟩ := hbody.1.1
            rw [hfrec] at hr1
            exact ⟨r1, by rw [hrec3]; exact hr1⟩
          · obtain ⟨d1, hd1⟩ := hbody.1.2
            rw [hfdisp] at hd1
            refine ⟨d1 ++ d3, ?_⟩
            rw [hd3]
            show g3.dispatchLog ++ d3 = g.dispatchLog ++ (d1 ++ d3)
            rw [hd1, List.append_assoc]
          · intro hrt _
            -- with the counter positive at entry it stays positive inside, so
            -- the close cannot have run
            exfalso
            have hopen : OpenDelta (openTx g) g3 :=
              hbody.2 (by omega) hftx
            have hrt3eq : g3.runningTransactions = (openTx g).runningTransactions :=
              hopen.2.1
            omega
        cases e5 with
        | some e => exact hfin
        | none => exact hfin
    · rw [if_neg hz]
      dsimp only
      refine ⟨⟨?_, ?_⟩, ?_⟩
      · obtain ⟨r1, hr1⟩ := hbody.1.1
        rw [hfrec] at hr1
        exact ⟨r1, hr1⟩
      · obtain ⟨d1, hd1⟩ := hbody.1.2
        rw [hfdisp] at hd1
        exact ⟨d1, hd1⟩
      · intro hrt htx
        obtain ⟨h1, h2, h3, delta, h4, h5, h6⟩ := hbody.2 (by omega) hftx
        refine ⟨?_, ?_, h3, delta, ?_, ?_, ?_⟩
        · show g3.dispatchLog = g.dispatchLog
          rw [h1, hfdisp]
        · show g3.runningTransactions - 1 = g.runningTransactions
          omega
        · show g3.recordLog = g.recordLog ++ delta
          rw [h4, hfrec]
        · show g3.changeOrder = g.changeOrder + delta.length
          rw [h5, hfco]
        · rw [h6, hfco]

theorem goodStep_wrapInTransaction {V : Type} (hb : HB V) (t : String)
    (body : GState V → GState V × Option JsErr) (g : GState V)
    (hbody : ∀ g2 : GState V, GoodStep g2 (body g2).1) :
    GoodStep g (wrapInTransaction hb t body g).1 := by
  rw [wrapInTransaction]
  split
  · exact goodStep_cacheTransactionRun hb body g (hbody (openTx g))
  · cases hB : body { g with handleChanges := false } with
    | mk g2 e =>
      have h1 : GoodStep { g with handleChanges := false } g2 := by
        have := hbody { g with handleChanges := false }
        rw [hB] at this
        exact this
      dsimp only
      have h0 : GoodStep g ({ g with handleChanges := false } : GState V) :=
        goodStep_same rfl rfl rfl rfl rfl
      exact goodStep_trans h0 (goodStep_trans h1 (goodStep_same rfl rfl rfl rfl rfl))

theorem goodStep_cacheGet {V : Type} (t k : String) (g : GState V) :
    GoodStep g (cacheGet t k g).1 := by
  rw [cacheGet]
  cases hc : getCache g t with
  | mk g0 c =>
    have h0 : GoodStep g g0 := by
      have h := goodStep_getCache g t
      rw [hc] at h
      exact h
    cases he : entryGetterTouch k c.alternateKeyToKey c.lru with
    | mk lru1 eOpt => exact goodStep_trans h0 (goodStep_putCache g0 t _)

theorem goodStep_cacheGetWithoutLruChange {V : Type} (t k : String) (g : GState V) :
    GoodStep g (cacheGetWithoutLruChange t k g).1 := by
  rw [cacheGetWithoutLruChange]
  cases hc : getCache g t with
  | mk g0 c =>
    have h := goodStep_getCache g t
    rw [hc] at h
    exact h

theorem goodStep_cacheDelete {V : Type} (hb : HB V) (t k : String) (g : GState V) :
    GoodStep g (cacheDelete hb t k g).1 := by
  rw [cacheDelete]
  cases hc : getCache g t with
  | mk g0 c =>
    have h0 : GoodStep g g0 := by
      have h := goodStep_getCache g t
      rw [hc] at h
      exact h
    dsimp only
    split
    · exact h0
    next entry he =>
      split
      next g2 err hw =>
        exact goodStep_trans h0 (goodStep_trans (goodStep_putCache g0 t _)
          (goodStep_cast hw (goodStep_wrapInTransaction hb t _ _
            (fun gg => goodStep_handleDeleteRemove hb t entry gg))))
      next g2 hw =>
        exact goodStep_trans h0 (goodStep_trans (goodStep_putCache g0 t _)
          (goodStep_cast hw (goodStep_wrapInTransaction hb t _ _
            (fun gg => goodStep_handleDeleteRemove hb t entry gg))))

theorem goodStep_runClearRemoves {V : Type} (hb : HB V) (t : String)
    (l : List (String × CacheEntry V)) : ∀ g : GState V,
    GoodStep g (runClearRemoves hb t l g).1 := by
  induction l with
  | nil => intro g; exact goodStep_refl g
  | cons p rest ih =>
    intro g
    obtain ⟨k1, entry⟩ := p
    rw [runClearRemoves]
    cases he : handleClearRemove hb t entry g with
    | mk g1 err =>
      have h1 : GoodStep g g1 := by
        have h := goodStep_handleClearRemove hb t entry g
        rw [he] at h
        exact h
      cases err with
      | some e2 => exact h1
      | none => exact goodStep_trans h1 (ih g1)

theorem goodStep_cacheClear {V : Type} (hb : HB V) (t : String) (g : GState V) :
    GoodStep g (cacheClear hb t g).1 := by
  rw [cacheClear]
  cases hc : getCache g t with
  | mk g0 c =>
    have h0 : GoodStep g g0 := by
      have h := goodStep_getCache g t
      rw [hc] at h
      exact h
    dsimp only
    refine goodStep_trans h0 ?_
    split
    · exact goodStep_trans (goodStep_putCache g0 t _)
        (goodStep_wrapInTransaction hb t _ _ (goodStep_runClearRemoves hb t _))
    · exact goodStep_putCache g0 t _

theorem goodStep_runMaxSizeRemoves {V : Type} (hb : HB V) (t : String) (dl : Bool)
    (l : List (String × CacheEntry V)) : ∀ g : GState V,
    GoodStep g (runMaxSizeRemoves hb t dl l g).1 := by
  induction l with
  | nil => intro g; exact goodStep_refl g
  | cons p rest ih =>
    intro g
    obtain ⟨k1, entry⟩ := p
    rw [runMaxSizeRemoves]
    split
    · exact goodStep_refl g
    next c hc =>
      dsimp only
      split
      · split
        next g2 err hl =>
          exact goodStep_trans (goodStep_putCache g t _)
            (goodStep_cast hl (goodStep_handleLruRemove hb t _ _))
        next g2 hl =>
          refine goodStep_trans (goodStep_trans (goodStep_putCache g t _)
            (goodStep_cast hl (goodStep_handleLruRemove hb t _ _))) (ih g2)
      · exact goodStep_trans (goodStep_putCache g t _) (ih _)

theorem goodStep_cacheSetMaxSize {V : Type} (hb : HB V) (t : String) (n : Option Nat)
    (g : GState V) : GoodStep g (cacheSetMaxSize hb t n g).1 := by
  rw [cacheSetMaxSize]
  cases hc : getCache g t with
  | mk g0 c =>
    have h0 : GoodStep g g0 := by
      have h := goodStep_getCache g t
      rw [hc] at h
      exact h
    exact goodStep_trans h0 (goodStep_trans (goodStep_putCache g0 t _)
      (goodStep_wrapInTransaction hb t _ _ (goodStep_runMaxSizeRemoves hb t _ _)))

theorem goodStep_cacheDispatchLruRemoves {V : Type} (t : String) (b : Bool) (g : GState V) :
    GoodStep g (cacheDispatchLruRemoves t b g) := by
  rw [cacheDispatchLruRemoves]
  cases hc : getCache g t with
  | mk g0 c =>
    have h := goodStep_getCache g t
    rw [hc] at h
    exact goodStep_trans h (goodStep_putCache g0 t _)

theorem goodStep_cacheDispatchClearRemoves {V : Type} (t : String) (b : Bool) (g : GState V) :
    GoodStep g (cacheDispatchClearRemoves t b g) := by
  rw [cacheDispatchClearRemoves]
  cases hc : getCache g t with
  | mk g0 c =>
    have h := goodStep_getCache g t
    rw [hc] at h
    exact goodStep_trans h (goodStep_putCache g0 t _)

theorem goodStep_registerHandler {V : Type} (g : GState V) (vts : VTArg) :
    GoodStep g (registerHandler g vts).1 := by
  rw [registerHandler]
  cases registerCacheChangedHandler g.registry vts with
  | mk r1 key => exact goodStep_same rfl rfl rfl rfl rfl

theorem goodStep_setAll {V : Type} (hb : HB V) (t : String) (es : List (SetArg V))
    (g : GState V) : GoodStep g (setAll hb t es g).1 := by
  rw [setAll]
  cases hc : getCache g t with
  | mk g0 c =>
    have h0 : GoodStep g g0 := by
      have h := goodStep_getCache g t
      rw [hc] at h
      exact h
    exact goodStep_trans h0 (goodStep_wrapInTransaction hb t _ _
      (goodStep_runEntries hb t c.dispatchLruRemoves es))

mutual

/-- Every public operation only appends to the ghost logs and, while a
transaction is open, dispatches nothing and numbers its recorded events
consecutively. -/
theorem goodStep_runCOp {V : Type} (hb : HB V) (op : COp V) (g : GState V) :
    GoodStep g (runCOp hb op g).1 := by
  cases op with
  | setAll t es => exact goodStep_setAll hb t es g
  | set t e => exact goodStep_setAll hb t [e] g
  | get t k =>
    rw [runCOp]
    cases hc : cacheGet t k g with
    | mk g1 x =>
      have h := goodStep_cacheGet t k g
      rw [hc] at h
      exact h
  | getWithoutLruChange t k =>
    rw [runCOp]
    cases hc : cacheGetWithoutLruChange t k g with
    | mk g1 x =>
      have h := goodStep_cacheGetWithoutLruChange t k g
      rw [hc] at h
      exact h
  | delete t k =>
    rw [runCOp]
    cases hc : cacheDelete hb t k g with
    | mk g1 x =>
      have h := goodStep_cacheDelete hb t k g
      rw [hc] at h
      cases x with
      | ok b => exact h
      | error e => exact h
  | clear t => exact goodStep_cacheClear hb t g
  | setMaxSize t n => exact goodStep_cacheSetMaxSize hb t n g
  | dispatchLruRemoves t b => exact goodStep_cacheDispatchLruRemoves t b g
  | dispatchClearRemoves t b => exact goodStep_cacheDispatchClearRemoves t b g
  | register vts => exact goodStep_registerHandler g vts
  | transaction ops =>
    rw [runCOp_transaction]
    exact goodStep_cacheTransactionRun hb (runSeq hb ops) g
      (goodStep_runSeq hb ops (openTx g))

theorem goodStep_runSeq {V : Type} (hb : HB V) (ops : List (COp V)) (g : GState V) :
    GoodStep g (runSeq hb ops g).1 := by
  cases ops with
  | nil => exact goodStep_refl g
  | cons op rest =>
    rw [runSeq]
    cases ho : runCOp hb op g with
    | mk g1 err =>
      have h1 : GoodStep g g1 := by
        have h := goodStep_runCOp hb op g
        rw [ho] at h
        exact h
      cases err with
      | some e2 => exact h1
      | none => exact goodStep_trans h1 (goodStep_runSeq hb rest g1)

end

/-- The transaction case of the interpreter, written through `openTx`. -/
theorem runCOp_transaction_eq {V : Type} (hb : HB V) (ops : List (COp V)) (g : GState V) :
    runCOp hb (COp.transaction ops) g =
      (match runSeq hb ops (openTx g) with
       | (g3, eBody) =>
         let g4 := { g3 with runningTransactions := g3.runningTransactions - 1 }
         if g4.runningTransactions = 0 then
           match closeDispatch hb g4 with
           | (g5, some e) => (g5, some e)
           | (g5, none) => (g5, eBody)
         else (g4, eBody)) := by
  rw [runCOp_transaction, cacheTransactionRun_eq]

/-- A top-level transaction (opened in a quiescent state) runs its body
with the counter at 1 and the accumulator present, then dispatches the
accumulated object once and resets the transaction globals. -/
theorem transaction_close_chara {V : Type} (hb : HB V) (ops : List (COp V)) (g : GState V)
    (hrt : g.runningTransactions = 0) (_htx : g.transactionChangeObject = none)
    (co : ChangeObject V)
    (hsome2 : (runSeq hb ops (openTx g)).1.transactionChangeObject = some co) :
    (runCOp hb (COp.transaction ops) g).1 =
      { (runSeq hb ops (openTx g)).1 with
          runningTransactions := 0,
          dispatchLog := (runSeq hb ops (openTx g)).1.dispatchLog ++
            dispatchDelta (runSeq hb ops (openTx g)).1.registry co
              (getActiveHandlerKeys (runSeq hb ops (openTx g)).1.registry co.valueTypes),
          transactionChangeObject := none,
          changeOrder := 0 } := by
  have hgood := goodStep_runSeq hb ops (openTx g)
  obtain ⟨hfr, hfd, hfc, hfg, hfv, hfh, hfrt2, hftx⟩ := openTx_fields g
  obtain ⟨hd, hrt2, hsome, delta, hrec, hco, hord⟩ := hgood.2 (by omega) hftx
  rw [runCOp_transaction_eq]
  cases hB : runSeq hb ops (openTx g) with
  | mk gB eB =>
    rw [hB] at hsome2 hrt2
    dsimp only at hsome2 hrt2 ⊢
    have hz : gB.runningTransactions - 1 = 0 := by omega
    rw [if_pos (show ({ gB with runningTransactions := gB.runningTransactions - 1 }
      : GState V).runningTransactions = 0 from hz)]
    rw [closeDispatch_spec hb { gB with runningTransactions := gB.runningTransactions - 1 }
      co hsome2]
    by_cases hp : thrownMsgs hb gB.registry co (getActiveHandlerKeys gB.registry co.valueTypes)
        = []
    · rw [if_pos hp]
      dsimp only
      rw [hz]
    · rw [if_neg hp]
      dsimp only
      rw [hz]

/-- In a duplicate-free dispatch key set, a registered key gets exactly one
invocation. -/
theorem count_dispatchDelta {V : Type} [DecidableEq V] (reg : RegistryState)
    (co : ChangeObject V) (keys : List Nat) (hnd : keys.Nodup) (key : Nat)
    (hmem : key ∈ keys) (hreg : (alGet reg.keyToChangedHandler key).isSome = true) :
    (dispatchDelta reg co keys).count ⟨key, co⟩ = 1 := by
  rw [dispatchDelta]
  apply List.count_eq_one_of_mem
  · apply List.Nodup.map
    · intro a b hab
      have := congrArg DispatchEv.handlerKey hab
      exact this
    · exact hnd.filter _
  · apply List.mem_map_of_mem
    rw [List.mem_filter]
    exact ⟨hmem, by simpa using hreg⟩

/-- Claim C1: all cache mutations inside one `cacheTransaction` call, nested
transactions included, dispatch nothing while the body runs (the body
leaves the dispatch log untouched); when the counter returns to zero the
accumulated change object is dispatched exactly once to each registered
listener in the duplicate-free key set `getActiveHandlerKeys` computed from
the touched value types, and the transaction globals are reset. -/
theorem claim_C1_single_dispatch_per_listener {V : Type} [DecidableEq V] (hb : HB V)
    (ops : List (COp V)) (g : GState V) (hrt : g.runningTransactions = 0)
    (htx : g.transactionChangeObject = none) :
    ∃ co : ChangeObject V,
      (runSeq hb ops (openTx g)).1.transactionChangeObject = some co ∧
      (runSeq hb ops (openTx g)).1.dispatchLog = g.dispatchLog ∧
      (runCOp hb (COp.transaction ops) g).1.dispatchLog =
        g.dispatchLog ++
          dispatchDelta (runSeq hb ops (openTx g)).1.registry co
            (getActiveHandlerKeys (runSeq hb ops (openTx g)).1.registry co.valueTypes) ∧
      (getActiveHandlerKeys (runSeq hb ops (openTx g)).1.registry co.valueTypes).Nodup ∧
      (∀ key ∈ getActiveHandlerKeys (runSeq hb ops (openTx g)).1.registry co.valueTypes,
        (alGet (runSeq hb ops (openTx g)).1.registry.keyToChangedHandler key).isSome = true →
        (dispatchDelta (runSeq hb ops (openTx g)).1.registry co
            (getActiveHandlerKeys (runSeq hb ops (openTx g)).1.registry co.valueTypes)).count
          ⟨key, co⟩ = 1) ∧
      (runCOp hb (COp.transaction ops) g).1.runningTransactions = 0 ∧
      (runCOp hb (COp.transaction ops) g).1.transactionChangeObject = none := by
  have hgood := goodStep_runSeq hb ops (openTx g)
  obtain ⟨hfr, hfd, hfc, hfg, hfv, hfh, hfrt2, hftx⟩ := openTx_fields g
  obtain ⟨hd, hrt2, hsome, delta, hrec, hco, hord⟩ := hgood.2 (by omega) hftx
  cases hsome2 : (runSeq hb ops (openTx g)).1.transactionChangeObject with
  | none => rw [hsome2] at hsome; cases hsome
  | some co =>
    have hchara := transaction_close_chara hb ops g hrt htx co hsome2
    refine ⟨co, rfl, by rw [hd, hfd], ?_, nodup_getActiveHandlerKeys _ _, ?_, ?_, ?_⟩
    · rw [hchara]
      show (runSeq hb ops (openTx g)).1.dispatchLog ++ _ = _
      rw [hd, hfd]
    · intro key hmem hreg
      exact count_dispatchDelta _ co _ (nodup_getActiveHandlerKeys _ _) key hmem hreg
    · rw [hchara]
    · rw [hchara]

/-- Claim C2: within one top-level transaction the `order` values of all
recorded change events, across all value types and all four event kinds,
are exactly `0, 1, 2, …` in recording sequence, hence strictly
increasing. -/
theorem claim_C2_strictly_increasing_order {V : Type} (hb : HB V) (ops : List (COp V))
    (g : GState V) (hrt : g.runningTransactions = 0)
    (htx : g.transactionChangeObject = none) (hc0 : g.changeOrder = 0) :
    ∃ delta : List (RecordEv V),
      (runCOp hb (COp.transaction ops) g).1.recordLog = g.recordLog ++ delta ∧
      delta.map (fun ev => ev.item.order) = List.range' 0 delta.length ∧
      List.Chain' (fun a b => a < b) (delta.map (fun ev => ev.item.order)) := by
  have hgood := goodStep_runSeq hb ops (openTx g)
  obtain ⟨hfr, hfd, hfc, hfg, hfv, hfh, hfrt2, hftx⟩ := openTx_fields g
  obtain ⟨hd, hrt2, hsome, delta, hrec, hco, hord⟩ := hgood.2 (by omega) hftx
  cases hsome2 : (runSeq hb ops (openTx g)).1.transactionChangeObject with
  | none => rw [hsome2] at hsome; cases hsome
  | some co =>
    have hchara := transaction_close_chara hb ops g hrt htx co hsome2
    have hordb : delta.map (fun ev => ev.item.order) = List.range' 0 delta.length := by
      rw [hord, hfc, hc0]
    refine ⟨delta, ?_, hordb, ?_⟩
    · rw [hchara]
      show (runSeq hb ops (openTx g)).1.recordLog = _
      rw [hrec, hfr]
    · rw [hordb]
      exact (List.pairwise_lt_range' 0 delta.length).chain'

/-- Claim C7: a dispatch invokes every registered key of the dispatch set
even when earlier handlers throw; when at least one message was collected a
single aggregate error carries all of them plus a message counting failures
against invocations; and the accumulator and order counter are reset by the
close in every case. -/
theorem claim_C7_error_aggregation_and_reset {V : Type} (hb : HB V) (g : GState V)
    (co : ChangeObject V) (ops : List (COp V)) (hrt : g.runningTransactions = 0)
    (htx : g.transactionChangeObject = none) :
    ((handleTransactionChangeObject hb g co).1.dispatchLog =
        g.dispatchLog ++ dispatchDelta g.registry co
          (getActiveHandlerKeys g.registry co.valueTypes)) ∧
    ((handleTransactionChangeObject hb g co).2 =
      if thrownMsgs hb g.registry co (getActiveHandlerKeys g.registry co.valueTypes) = []
      then none
      else some
        ⟨aggregateMessage
            (thrownMsgs hb g.registry co (getActiveHandlerKeys g.registry co.valueTypes)).length
            (getActiveHandlerKeys g.registry co.valueTypes).length
            (thrownMsgs hb g.registry co (getActiveHandlerKeys g.registry co.valueTypes)),
          thrownMsgs hb g.registry co (getActiveHandlerKeys g.registry co.valueTypes)⟩) ∧
    (∀ g2 : GState V, (closeDispatch hb g2).1.transactionChangeObject = none ∧
      (closeDispatch hb g2).1.changeOrder = 0) ∧
    (runCOp hb (COp.transaction ops) g).1.transactionChangeObject = none ∧
    (runCOp hb (COp.transaction ops) g).1.changeOrder = 0 := by
  have hgood := goodStep_runSeq hb ops (openTx g)
  obtain ⟨hfr, hfd, hfc, hfg, hfv, hfh, hfrt2, hftx⟩ := openTx_fields g
  obtain ⟨hd, hrt2, hsome, delta, hrec, hco, hord⟩ := hgood.2 (by omega) hftx
  cases hsome2 : (runSeq hb ops (openTx g)).1.transactionChangeObject with
  | none => rw [hsome2] at hsome; cases hsome
  | some co2 =>
    have hchara := transaction_close_chara hb ops g hrt htx co2 hsome2
    refine ⟨?_, ?_, ?_, ?_, ?_⟩
    · rw [handleTransactionChangeObject_spec]
    · rw [handleTransactionChangeObject_spec]
    · intro g2
      exact closeDispatch_clears hb g2
    · rw [hchara]
    · rw [hchara]

/-! ## Concrete instantiations -/

/-- Handlers that always return normally. -/
def benignHB : HB Nat := fun _ _ => none

/-- A quiescent state with one all-types handler registered. -/
def gReg : GState Nat := (registerHandler initGState VTArg.nullArg).1

/-- A sample transaction body: one insert. -/
def wOps : List (COp Nat) := [COp.set "T" ⟨"k", 5, AltArg.noneArg⟩]

/-- Instantiation of the C1 theorem at a one-insert transaction against one
registered all-types handler. -/
theorem claim_C1_single_dispatch_per_listener_witness :
    gReg.runningTransactions = 0 ∧ gReg.transactionChangeObject = none ∧
    (∃ co : ChangeObject Nat,
      (runSeq benignHB wOps (openTx gReg)).1.transactionChangeObject = some co ∧
      (runSeq benignHB wOps (openTx gReg)).1.dispatchLog = gReg.dispatchLog ∧
      (runCOp benignHB (COp.transaction wOps) gReg).1.dispatchLog =
        gReg.dispatchLog ++
          dispatchDelta (runSeq benignHB wOps (openTx gReg)).1.registry co
            (getActiveHandlerKeys (runSeq benignHB wOps (openTx gReg)).1.registry
              co.valueTypes) ∧
      (getActiveHandlerKeys (runSeq benignHB wOps (openTx gReg)).1.registry
        co.valueTypes).Nodup ∧
      (∀ key ∈ getActiveHandlerKeys (runSeq benignHB wOps (openTx gReg)).1.registry
          co.valueTypes,
        (alGet (runSeq benignHB wOps (openTx gReg)).1.registry.keyToChangedHandler
            key).isSome = true →
        (dispatchDelta (runSeq benignHB wOps (openTx gReg)).1.registry co
            (getActiveHandlerKeys (runSeq benignHB wOps (openTx gReg)).1.registry
              co.valueTypes)).count ⟨key, co⟩ = 1) ∧
      (runCOp benignHB (COp.transaction wOps) gReg).1.runningTransactions = 0 ∧
      (runCOp benignHB (COp.transaction wOps) gReg).1.transactionChangeObject = none) :=
  ⟨rfl, rfl, claim_C1_single_dispatch_per_listener benignHB wOps gReg rfl rfl⟩

/-- Instantiation of the C2 theorem at the same transaction. -/
theorem claim_C2_strictly_increasing_order_witness :
    gReg.runningTransactions = 0 ∧ gReg.transactionChangeObject = none ∧
    gReg.changeOrder = 0 ∧
    (∃ delta : List (RecordEv Nat),
      (runCOp benignHB (COp.transaction wOps) gReg).1.recordLog = gReg.recordLog ++ delta ∧
      delta.map (fun ev => ev.item.order) = List.range' 0 delta.length ∧
      List.Chain' (fun a b => a < b) (delta.map (fun ev => ev.item.order))) :=
  ⟨rfl, rfl, rfl, claim_C2_strictly_increasing_order benignHB wOps gReg rfl rfl rfl⟩

/-- Instantiation of the C7 theorem. -/
theorem claim_C7_error_aggregation_and_reset_witness :
    gReg.runningTransactions = 0 ∧ gReg.transactionChangeObject = none ∧
    ((handleTransactionChangeObject benignHB gReg emptyChangeObject).1.dispatchLog =
        gReg.dispatchLog ++ dispatchDelta gReg.registry (emptyChangeObject : ChangeObject Nat)
          (getActiveHandlerKeys gReg.registry
            (emptyChangeObject : ChangeObject Nat).valueTypes)) ∧
    (runCOp benignHB (COp.transaction wOps) gReg).1.transactionChangeObject = none ∧
    (runCOp benignHB (COp.transaction wOps) gReg).1.changeOrder = 0 :=
  ⟨rfl, rfl,
    (claim_C7_error_aggregation_and_reset benignHB gReg emptyChangeObject wOps rfl rfl).1,
    (claim_C7_error_aggregation_and_reset benignHB gReg emptyChangeObject wOps
      rfl rfl).2.2.2.1,
    (claim_C7_error_aggregation_and_reset benignHB gReg emptyChangeObject wOps
      rfl rfl).2.2.2.2⟩

/-- Claim C10: registering a handler with an empty array of value types is
the same as registering with `null`: the key lands in the all-types active
set (giving identical active-key indexes and an active handler for every
type), and the handler is invoked — its key appears in the dispatch log —
for change objects of every value type. -/
theorem claim_C10_empty_filter_is_all_types {V : Type} (hb : HB V) (r : RegistryState)
    (ts : List String) (t : String) (g : GState V) (co : ChangeObject V) :
    ((registerCacheChangedHandler r (VTArg.arrArg [])).2 =
        (registerCacheChangedHandler r VTArg.nullArg).2) ∧
    ((registerCacheChangedHandler r (VTArg.arrArg [])).1.allTypesActiveChangeHandlerKeys =
        (registerCacheChangedHandler r VTArg.nullArg).1.allTypesActiveChangeHandlerKeys) ∧
    ((registerCacheChangedHandler r (VTArg.arrArg [])).1.valueTypeToActiveChangeHandlerKeys =
        (registerCacheChangedHandler r VTArg.nullArg).1.valueTypeToActiveChangeHandlerKeys) ∧
    hasActiveHandler (registerCacheChangedHandler r (VTArg.arrArg [])).1 t = true ∧
    ((registerCacheChangedHandler r (VTArg.arrArg [])).2 ∈
      getActiveHandlerKeys (registerCacheChangedHandler r (VTArg.arrArg [])).1 ts) ∧
    (DispatchEv.mk (registerCacheChangedHandler r (VTArg.arrArg [])).2 co ∈
      (handleTransactionChangeObject hb
          { g with registry := (registerCacheChangedHandler r (VTArg.arrArg [])).1 }
          co).1.dispatchLog) := by
  refine ⟨rfl, rfl, rfl, ?_, ?_, ?_⟩
  · rw [hasActiveHandler]
    rw [if_pos]
    exact jsAdd_length_pos _ _
  · rw [mem_getActiveHandlerKeys]
    left
    show r.nextHandlerKey ∈ jsAdd r.allTypesActiveChangeHandlerKeys r.nextHandlerKey
    rw [mem_jsAdd]
    right
    rfl
  · rw [handleTransactionChangeObject_spec]
    show _ ∈ g.dispatchLog ++ _
    apply List.mem_append_right
    rw [dispatchDelta]
    apply List.mem_map_of_mem
    rw [List.mem_filter]
    constructor
    · show r.nextHandlerKey ∈ getActiveHandlerKeys _ co.valueTypes
      rw [mem_getActiveHandlerKeys]
      left
      show r.nextHandlerKey ∈ jsAdd r.allTypesActiveChangeHandlerKeys r.nextHandlerKey
      rw [mem_jsAdd]
      right
      rfl
    · have hget : alGet (registerCacheChangedHandler r
          (VTArg.arrArg [])).1.keyToChangedHandler (registerCacheChangedHandler r
          (VTArg.arrArg [])).2 = some ⟨VTArg.arrArg [], true⟩ := by
        show alGet (alSet r.keyToChangedHandler r.nextHandlerKey ⟨VTArg.arrArg [], true⟩)
          r.nextHandlerKey = some ⟨VTArg.arrArg [], true⟩
        exact alGet_alSet_self _ _ _
      simp [hget]

/-- Claim C8: a recorded change event copies the entry's key, value and
alternate keys as they are at the moment of recording (plus the assigned
order); every operation only ever appends to the record history, so later
mutations cannot alter an already-recorded payload.  The concrete
transaction `set {k, 1, [a]}; set {k, 2, [b]}` shows it: the first recorded
insert still carries value `1` and alternate keys `[a]` although the entry
afterwards holds `2` with keys `[a, b]`. -/
theorem claim_C8_snapshot_payload {V : Type} (hb : HB V) :
    (∀ (t : String) (entry : CacheEntry V) (kind : FieldKind) (g : GState V),
      (handleChange hb t entry kind g).1.recordLog =
        g.recordLog ++ [⟨t, kind, ⟨entry.key, entry.value, entry.alternateKeys,
          g.changeOrder⟩⟩]) ∧
    (∀ (op : COp V) (g : GState V), ∃ d, (runCOp hb op g).1.recordLog = g.recordLog ++ d) ∧
    ((setAll benignHB "T" [⟨"k", 2, AltArg.arrArg ["b"]⟩]
        (setAll benignHB "T" [⟨"k", 1, AltArg.arrArg ["a"]⟩]
          { gReg with
              transactionChangeObject := some emptyChangeObject,
              runningTransactions := 1 }).1).1.recordLog =
      [⟨"T", FieldKind.inserts, ⟨"k", 1, ["a"], 0⟩⟩,
        ⟨"T", FieldKind.inserts, ⟨"k", 2, ["a", "b"], 1⟩⟩]) ∧
    ((cacheGetWithoutLruChange "T" "k"
        (setAll benignHB "T" [⟨"k", 2, AltArg.arrArg ["b"]⟩]
          (setAll benignHB "T" [⟨"k", 1, AltArg.arrArg ["a"]⟩]
            { gReg with
                transactionChangeObject := some emptyChangeObject,
                runningTransactions := 1 }).1).1).2 = some 2) := by
  refine ⟨?_, ?_, ?_, ?_⟩
  · intro t entry kind g
    rw [handleChange]
    cases htx : g.transactionChangeObject with
    | some co => rfl
    | none =>
      dsimp only
      rw [if_neg (by simp)]
      rw [handleTransactionChangeObject_spec]
  · intro op g
    exact (goodStep_runCOp hb op g).1.1
  · rfl
  · rfl

/-! ## Frame lemmas for the cache methods -/

theorem getCache_lookup {V : Type} (g : GState V) (t : String) :
    alGet (getCache g t).1.valueTypeToCache t = some (getCache g t).2 := by
  rw [getCache]
  cases halg : alGet g.valueTypeToCache t with
  | some c => exact halg
  | none => exact alGet_alSet_self _ _ _

theorem getCache_of_present {V : Type} {g : GState V} {t : String} {c : CacheState V}
    (hc : alGet g.valueTypeToCache t = some c) : getCache g t = (g, c) := by
  rw [getCache, hc]

theorem getCache_fields {V : Type} (g : GState V) (t : String) :
    (getCache g t).1.registry = g.registry ∧
    (getCache g t).1.transactionChangeObject = g.transactionChangeObject ∧
    (getCache g t).1.runningTransactions = g.runningTransactions ∧
    (getCache g t).1.handleChanges = g.handleChanges ∧
    (getCache g t).1.changeOrder = g.changeOrder ∧
    (getCache g t).1.recordLog = g.recordLog ∧
    (getCache g t).1.dispatchLog = g.dispatchLog := by
  rw [getCache]
  cases alGet g.valueTypeToCache t with
  | some c => exact ⟨rfl, rfl, rfl, rfl, rfl, rfl, rfl⟩
  | none => exact ⟨rfl, rfl, rfl, rfl, rfl, rfl, rfl⟩

/-- Inside a transaction `handleChange` throws nothing and only touches the
accumulator, the order counter and the record log. -/
theorem handleChange_batch {V : Type} (hb : HB V) (t : String) (e : CacheEntry V)
    (kind : FieldKind) (g : GState V) (hsome : g.transactionChangeObject.isSome = true) :
    (handleChange hb t e kind g).2 = none ∧
    (handleChange hb t e kind g).1.transactionChangeObject.isSome = true ∧
    (handleChange hb t e kind g).1.valueTypeToCache = g.valueTypeToCache ∧
    (handleChange hb t e kind g).1.handleChanges = g.handleChanges := by
  rw [handleChange]
  cases htx : g.transactionChangeObject with
  | none => rw [htx] at hsome; cases hsome
  | some co => exact ⟨rfl, rfl, rfl, rfl⟩

theorem handleChange_registry {V : Type} (hb : HB V) (t : String) (e : CacheEntry V)
    (kind : FieldKind) (g : GState V) :
    (handleChange hb t e kind g).1.registry = g.registry := by
  rw [handleChange]
  cases htx : g.transactionChangeObject with
  | some co => rfl
  | none =>
    dsimp only
    rw [if_neg (by simp)]
    rw [handleTransactionChangeObject_spec]

/-- Either the accumulator is present (batch mode) or `handleChanges` is
off: in both cases the insert/remove notifications cannot throw and leave
the cache map alone. -/
theorem handleInsert_mode {V : Type} (hb : HB V) (t : String) (e : CacheEntry V)
    (g : GState V)
    (hmode : g.transactionChangeObject.isSome = true ∨ g.handleChanges = false) :
    (handleInsert hb t e g).2 = none ∧
    ((handleInsert hb t e g).1.transactionChangeObject.isSome = true ∨
      (handleInsert hb t e g).1.handleChanges = false) ∧
    (handleInsert hb t e g).1.valueTypeToCache = g.valueTypeToCache := by
  rw [handleInsert]
  cases hflag : g.handleChanges with
  | false =>
    rw [if_neg (by simp)]
    exact ⟨rfl, Or.inr hflag, rfl⟩
  | true =>
    rw [if_pos rfl]
    rcases hmode with hm | hm
    · obtain ⟨h1, h2, h3, h4⟩ := handleChange_batch hb t e .inserts g hm
      exact ⟨h1, Or.inl h2, h3⟩
    · rw [hflag] at hm
      cases hm

theorem handleLruRemove_mode {V : Type} (hb : HB V) (t : String) (e : CacheEntry V)
    (g : GState V)
    (hmode : g.transactionChangeObject.isSome = true ∨ g.handleChanges = false) :
    (handleLruRemove hb t e g).2 = none ∧
    ((handleLruRemove hb t e g).1.transactionChangeObject.isSome = true ∨
      (handleLruRemove hb t e g).1.handleChanges = false) ∧
    (handleLruRemove hb t e g).1.valueTypeToCache = g.valueTypeToCache := by
  rw [handleLruRemove]
  cases hflag : g.handleChanges with
  | false =>
    rw [if_neg (by simp)]
    exact ⟨rfl, Or.inr hflag, rfl⟩
  | true =>
    rw [if_pos rfl]
    rcases hmode with hm | hm
    · obtain ⟨h1, h2, h3, h4⟩ := handleChange_batch hb t e .lruRemoves g hm
      exact ⟨h1, Or.inl h2, h3⟩
    · rw [hflag] at hm
      cases hm

theorem handleInsert_registry {V : Type} (hb : HB V) (t : String) (e : CacheEntry V)
    (g : GState V) : (handleInsert hb t e g).1.registry = g.registry := by
  rw [handleInsert]
  split
  · exact handleChange_registry hb t e .inserts g
  · rfl

theorem handleLruRemove_registry {V : Type} (hb : HB V) (t : String) (e : CacheEntry V)
    (g : GState V) : (handleLruRemove hb t e g).1.registry = g.registry := by
  rw [handleLruRemove]
  split
  · exact handleChange_registry hb t e .lruRemoves g
  · rfl

theorem fst_of_pair_eq {V : Type} {α : Type} {p : GState V × α} {g2 : GState V} {x : α}
    (he : p = (g2, x)) : g2 = p.1 := by
  rw [he]

theorem setAllEntry_registry {V : Type} (hb : HB V) (t : String) (dl : Bool) (arg : SetArg V)
    (g : GState V) : (setAllEntry hb t dl arg g).1.registry = g.registry := by
  rw [setAllEntry]
  split
  · rfl
  next c hc =>
    cases hg : LruMap.get arg.key c.lru with
    | mk lru1 entryOpt =>
      dsimp only
      split
      · rfl
      · cases hs : LruMap.set arg.key (match entryOpt with
            | none => ⟨arg.key, arg.value, jsSetOf (altKeysOf arg.alternateKeys)⟩
            | some e => ⟨e.key, arg.value,
                jsSetOf (e.alternateKeys ++ jsSetOf (altKeysOf arg.alternateKeys))⟩) lru1 with
        | mk lru2 removed =>
          split
          next g2 err hi =>
            rw [fst_of_pair_eq hi, handleInsert_registry]
            rfl
          next g2 hi =>
            have h2 : g2.registry = g.registry := by
              rw [fst_of_pair_eq hi, handleInsert_registry]
              rfl
            split
            · exact h2
            · split
              · exact h2
              · split
                · rw [handleLruRemove_registry]
                  exact h2
                · exact h2

theorem runEntries_registry {V : Type} (hb : HB V) (t : String) (dl : Bool)
    (es : List (SetArg V)) : ∀ g : GState V,
    (runEntries hb t dl es g).1.registry = g.registry := by
  induction es with
  | nil => intro g; rfl
  | cons e rest ih =>
    intro g
    rw [runEntries]
    cases he : setAllEntry hb t dl e g with
    | mk g1 err =>
      have h1 : g1.registry = g.registry := by
        have h := setAllEntry_registry hb t dl e g
        rw [he] at h
        exact h
      cases err with
      | some e2 => exact h1
      | none =>
        dsimp only
        rw [ih g1, h1]

/-- A notification call in batch/off mode cannot have thrown. -/
theorem handleInsert_mode_contra {V : Type} {hb : HB V} {t : String} {e : CacheEntry V}
    {gP g2 : GState V} {err : JsErr}
    (hi : handleInsert hb t e gP = (g2, some err))
    (hmode : gP.transactionChangeObject.isSome = true ∨ gP.handleChanges = false) :
    False := by
  have h := (handleInsert_mode hb t e gP hmode).1
  rw [hi] at h
  cases h

/-- The state after a batch/off-mode insert notification: still in
batch/off mode, with the cache map untouched. -/
theorem handleInsert_mode_next {V : Type} {hb : HB V} {t : String} {e : CacheEntry V}
    {gP g2 : GState V}
    (hi : handleInsert hb t e gP = (g2, none))
    (hmode : gP.transactionChangeObject.isSome = true ∨ gP.handleChanges = false) :
    (g2.transactionChangeObject.isSome = true ∨ g2.handleChanges = false) ∧
    g2.valueTypeToCache = gP.valueTypeToCache := by
  obtain ⟨h1, h2, h3⟩ := handleInsert_mode hb t e gP hmode
  rw [hi] at h2 h3
  exact ⟨h2, h3⟩

@[simp] theorem putCache_vtc {V : Type} (g : GState V) (t : String) (c : CacheState V) :
    (putCache g t c).valueTypeToCache = alSet g.valueTypeToCache t c := rfl

/-- The error behaviour of one `setAll` loop iteration: inside a
transaction (or with notifications off) it throws exactly the conflict
error for the first supplied alternate key already bound to a different
primary key, with the exact message of the source. -/
theorem setAllEntry_chara {V : Type} (hb : HB V) (t : String) (dl : Bool) (arg : SetArg V)
    (g : GState V) (c : CacheState V) (hc : alGet g.valueTypeToCache t = some c)
    (hmode : g.transactionChangeObject.isSome = true ∨ g.handleChanges = false) :
    (setAllEntry hb t dl arg g).2 =
      ((altKeysOf arg.alternateKeys).find? (fun a =>
          match alGet c.alternateKeyToKey a with
          | some k2 => k2 != arg.key
          | none => false)).map (fun a =>
        (⟨conflictMessage a arg.key t ((alGet c.alternateKeyToKey a).getD ""), []⟩
          : JsErr)) := by
  rw [setAllEntry, hc]
  dsimp only
  cases hf : (altKeysOf arg.alternateKeys).find? (fun a =>
      match alGet c.alternateKeyToKey a with
      | some k2 => k2 != arg.key
      | none => false) with
  | some a => rfl
  | none =>
    dsimp only [Option.map_none']
    split
    next g2 err hi =>
      exact (handleInsert_mode_contra hi hmode).elim
    next g2 hi =>
      obtain ⟨hmode2, hvtc2⟩ := handleInsert_mode_next hi hmode
      split
      · rfl
      next rem hrem =>
        rw [hvtc2, putCache_vtc, alGet_alSet_self]
        dsimp only
        split
        · exact (handleLruRemove_mode hb t _ _ (by exact hmode2)).1
        · rfl

/-- The close of a transaction collects no error when the handlers are
benign and the registry well-formed. -/
theorem close_benign {V : Type} (hb : HB V) {g : GState V}
    (hbGood : ∀ key co, hb key co = none) (hwf : RegistryWF g.registry)
    (hsome : g.transactionChangeObject.isSome = true) :
    (closeDispatch hb g).2 = none := by
  cases hs : g.transactionChangeObject with
  | none => rw [hs] at hsome; cases hsome
  | some co =>
    rw [closeDispatch_spec hb g co hs]
    dsimp only
    rw [if_pos (thrownMsgs_nil_of_benign hbGood hwf co co.valueTypes)]

/-- Claim C5: with handlers that do not throw and a well-formed registry,
`set` (a one-element `setAll`) throws exactly when one of the supplied
alternate keys is currently bound to a different primary key: the error is
the conflict error for the first such key, whose message names the
alternate key, the offending primary key, the value type and the existing
primary key; binding an alternate key already bound to the same primary
key succeeds. -/
theorem claim_C5_alternate_key_conflict {V : Type} (hb : HB V) (g : GState V)
    (t k : String) (v : V) (A : AltArg)
    (hbGood : ∀ key co, hb key co = none) (hwf : RegistryWF g.registry)
    (hrt : g.runningTransactions = 0) (_htx : g.transactionChangeObject = none) :
    ((setAll hb t [⟨k, v, A⟩] g).2 =
      ((altKeysOf A).find? (fun a =>
          match alGet (getCache g t).2.alternateKeyToKey a with
          | some k2 => k2 != k
          | none => false)).map (fun a =>
        (⟨conflictMessage a k t ((alGet (getCache g t).2.alternateKeyToKey a).getD ""), []⟩
          : JsErr))) ∧
    ((∀ a ∈ altKeysOf A, ∀ k2,
        alGet (getCache g t).2.alternateKeyToKey a = some k2 → k2 = k) →
      (setAll hb t [⟨k, v, A⟩] g).2 = none) := by
  have hmain : (setAll hb t [⟨k, v, A⟩] g).2 =
      ((altKeysOf A).find? (fun a =>
          match alGet (getCache g t).2.alternateKeyToKey a with
          | some k2 => k2 != k
          | none => false)).map (fun a =>
        (⟨conflictMessage a k t ((alGet (getCache g t).2.alternateKeyToKey a).getD ""), []⟩
          : JsErr)) := by
    rw [setAll]
    cases hgc : getCache g t with
    | mk g0 c =>
      dsimp only
      obtain ⟨hgr, hgtx, hgrt, hghc, _, _, _⟩ := getCache_fields g t
      rw [hgc] at hgr hgtx hgrt hghc
      dsimp only at hgr hgtx hgrt hghc
      have hlook : alGet g0.valueTypeToCache t = some c := by
        have h := getCache_lookup g t
        rw [hgc] at h
        exact h
      rw [wrapInTransaction]
      by_cases hact : hasActiveHandler g0.registry t = true
      · rw [if_pos hact]
        rw [cacheTransactionRun_eq]
        obtain ⟨hor, hod, hoc, hogr, hov, hoh, hort, hotx⟩ := openTx_fields g0
        rw [runEntries]
        cases hse : setAllEntry hb t c.dispatchLruRemoves ⟨k, v, A⟩ (openTx g0) with
        | mk g1 e1 =>
          have hch := setAllEntry_chara hb t c.dispatchLruRemoves ⟨k, v, A⟩ (openTx g0) c
            (by rw [hov]; exact hlook) (Or.inl hotx)
          rw [hse] at hch
          have hgs := goodStep_setAllEntry hb t c.dispatchLruRemoves ⟨k, v, A⟩ (openTx g0)
          rw [hse] at hgs
          dsimp only at hgs
          obtain ⟨hd1, hrt1, hsome1, delta1, hx4, hx5, hx6⟩ := hgs.2 (by omega) hotx
          have hreg1 : g1.registry = g.registry := by
            have h := setAllEntry_registry hb t c.dispatchLruRemoves ⟨k, v, A⟩ (openTx g0)
            rw [hse] at h
            rw [h, hogr, hgr]
          have hz : g1.runningTransactions - 1 = 0 := by omega
          have hwf4 : RegistryWF ({ g1 with
              runningTransactions := g1.runningTransactions - 1 } : GState V).registry := by
            show RegistryWF g1.registry
            rw [hreg1]
            exact hwf
          cases e1 with
          | some err =>
            dsimp only
            rw [if_pos (show ({ g1 with runningTransactions := g1.runningTransactions - 1 }
              : GState V).runningTransactions = 0 from hz)]
            cases hcd : closeDispatch hb
                { g1 with runningTransactions := g1.runningTransactions - 1 } with
            | mk g5 e5 =>
              have he5 : e5 = none := by
                have h := close_benign hb hbGood hwf4
                  (show ({ g1 with runningTransactions := g1.runningTransactions - 1 }
                    : GState V).transactionChangeObject.isSome = true from hsome1)
                rw [hcd] at h
                exact h
              subst he5
              exact hch
          | none =>
            dsimp only
            rw [show runEntries hb t c.dispatchLruRemoves ([] : List (SetArg V)) g1 =
              (g1, none) from rfl]
            dsimp only
            rw [if_pos (show ({ g1 with runningTransactions := g1.runningTransactions - 1 }
              : GState V).runningTransactions = 0 from hz)]
            cases hcd : closeDispatch hb
                { g1 with runningTransactions := g1.runningTransactions - 1 } with
            | mk g5 e5 =>
              have he5 : e5 = none := by
                have h := close_benign hb hbGood hwf4
                  (show ({ g1 with runningTransactions := g1.runningTransactions - 1 }
                    : GState V).transactionChangeObject.isSome = true from hsome1)
                rw [hcd] at h
                exact h
              subst he5
              exact hch
      · rw [if_neg hact]
        rw [runEntries]
        cases hse : setAllEntry hb t c.dispatchLruRemoves ⟨k, v, A⟩
            { g0 with handleChanges := false } with
        | mk g1 e1 =>
          have hch := setAllEntry_chara hb t c.dispatchLruRemoves ⟨k, v, A⟩
            { g0 with handleChanges := false } c (by exact hlook) (Or.inr rfl)
          rw [hse] at hch
          cases e1 with
          | some err => exact hch
          | none =>
            dsimp only
            rw [show runEntries hb t c.dispatchLruRemoves ([] : List (SetArg V)) g1 =
              (g1, none) from rfl]
            exact hch
  refine ⟨hmain, fun hidem => ?_⟩
  rw [hmain]
  have hnone : (altKeysOf A).find? (fun a =>
      match alGet (getCache g t).2.alternateKeyToKey a with
      | some k2 => k2 != k
      | none => false) = none := by
    rw [List.find?_eq_none]
    intro a ha
    cases halg : alGet (getCache g t).2.alternateKeyToKey a with
    | none => simp [halg]
    | some k2 =>
      have hk2 := hidem a ha k2 halg
      simp [halg, hk2]
  rw [hnone]
  rfl

/-- Instantiation of the C5 theorem: binding a fresh alternate key in a
fresh cache succeeds. -/
theorem claim_C5_alternate_key_conflict_witness :
    gReg.runningTransactions = 0 ∧ gReg.transactionChangeObject = none ∧
    (setAll benignHB "T" [⟨"k", 5, AltArg.arrArg ["a"]⟩] gReg).2 = none :=
  ⟨rfl, rfl,
    (claim_C5_alternate_key_conflict benignHB gReg "T" "k" 5 (AltArg.arrArg ["a"])
      (fun _ _ => rfl) (by refine ⟨?_, ?_⟩ <;> decide) rfl rfl).2
      (by intro a ha k2 hk2; exact Option.noConfusion hk2)⟩

@[simp] theorem putCache_registry {V : Type} (g : GState V) (t : String) (c : CacheState V) :
    (putCache g t c).registry = g.registry := rfl

@[simp] theorem putCache_rt {V : Type} (g : GState V) (t : String) (c : CacheState V) :
    (putCache g t c).runningTransactions = g.runningTransactions := rfl

@[simp] theorem putCache_txObj {V : Type} (g : GState V) (t : String) (c : CacheState V) :
    (putCache g t c).transactionChangeObject = g.transactionChangeObject := rfl

@[simp] theorem putCache_changeOrder {V : Type} (g : GState V) (t : String)
    (c : CacheState V) : (putCache g t c).changeOrder = g.changeOrder := rfl

@[simp] theorem putCache_handleChanges {V : Type} (g : GState V) (t : String)
    (c : CacheState V) : (putCache g t c).handleChanges = g.handleChanges := rfl

@[simp] theorem putCache_recordLog {V : Type} (g : GState V) (t : String)
    (c : CacheState V) : (putCache g t c).recordLog = g.recordLog := rfl

@[simp] theorem putCache_dispatchLog {V : Type} (g : GState V) (t : String)
    (c : CacheState V) : (putCache g t c).dispatchLog = g.dispatchLog := rfl

/-- `handleChange` inside a transaction, as one state equation. -/
theorem handleChange_batch_eq {V : Type} (hb : HB V) (t : String) (e : CacheEntry V)
    (kind : FieldKind) (g : GState V) (co : ChangeObject V)
    (htxv : g.transactionChangeObject = some co) :
    handleChange hb t e kind g =
      ({ g with
          changeOrder := g.changeOrder + 1,
          recordLog := g.recordLog ++
            [⟨t, kind, ⟨e.key, e.value, e.alternateKeys, g.changeOrder⟩⟩],
          transactionChangeObject := some (pushToChangeObject co t kind
            ⟨e.key, e.value, e.alternateKeys, g.changeOrder⟩) }, none) := by
  rw [handleChange, htxv]
  rfl

/-- Claim C9, amended: `delete` resolves alternate keys, provided the
argument is not also the primary key of another cached entry (`delete`
consults the primary key space first, so a primary hit wins — see
`claim_C9_counterexample` for the excluded case): deleting by an alternate
key `a` of a stored entry removes the entry from the LRU list, unbinds all
of the entry's alternate keys, records one `deleteRemoves` event carrying
the entry (when the type has an active handler — with none the
notification machinery is off), and returns `true`; deleting a key that is
neither primary nor alternate returns `false` and changes nothing. -/
theorem claim_C9_delete_by_alternate_key {V : Type} (hb : HB V) (g : GState V)
    (t a pk : String) (e : CacheEntry V) (c : CacheState V)
    (l1 l2 : List (String × CacheEntry V))
    (hc : alGet g.valueTypeToCache t = some c)
    (hrep : Represents c.lru (l1 ++ (pk, e) :: l2))
    (hkey : e.key = pk)
    (halt : alGet c.alternateKeyToKey a = some pk)
    (hnotprim : alGet c.lru.nodes a = none)
    (hbGood : ∀ key co, hb key co = none) (hwf : RegistryWF g.registry)
    (hrt : g.runningTransactions = 0) (htx : g.transactionChangeObject = none)
    (hhc : g.handleChanges = true) :
    ((cacheDelete hb t a g).2 = Except.ok true) ∧
    (∃ c2 : CacheState V, alGet (cacheDelete hb t a g).1.valueTypeToCache t = some c2 ∧
      Represents c2.lru (l1 ++ l2) ∧
      (∀ x ∈ e.alternateKeys, alGet c2.alternateKeyToKey x = none)) ∧
    ((cacheDelete hb t a g).1.recordLog = g.recordLog ++
      (if hasActiveHandler g.registry t then
        [⟨t, FieldKind.deleteRemoves, ⟨e.key, e.value, e.alternateKeys, g.changeOrder⟩⟩]
       else [])) ∧
    (∀ x : String, alGet c.lru.nodes x = none → alGet c.alternateKeyToKey x = none →
      cacheDelete hb t x g = (g, Except.ok false)) := by
  have hepg : entryGetterPure a c.alternateKeyToKey
      (fun kk => LruMap.getWithoutLruChange kk c.lru) = some e := by
    rw [entryGetterPure]
    rw [getWithoutLruChange_spec_miss hnotprim]
    rw [halt]
    exact getWithoutLruChange_spec_mem hrep
  have hrep2 : Represents (LruMap.delete e.key c.lru).1 (l1 ++ l2) := by
    rw [hkey]
    exact (delete_spec_mem hrep).2
  have hmiss : ∀ x : String, alGet c.lru.nodes x = none →
      alGet c.alternateKeyToKey x = none → cacheDelete hb t x g = (g, Except.ok false) := by
    intro x hx1 hx2
    rw [cacheDelete, getCache_of_present hc]
    dsimp only
    rw [show entryGetterPure x c.alternateKeyToKey
        (fun kk => LruMap.getWithoutLruChange kk c.lru) = none by
      rw [entryGetterPure]
      rw [getWithoutLruChange_spec_miss hx1, hx2]]
  -- the deletion path
  rw [cacheDelete, getCache_of_present hc]
  dsimp only
  rw [hepg]
  dsimp only
  rw [wrapInTransaction]
  by_cases hact : hasActiveHandler g.registry t = true
  · rw [if_pos (show hasActiveHandler (putCache g t
      { c with
          lru := (LruMap.delete e.key c.lru).1,
          alternateKeyToKey := e.alternateKeys.foldl (fun akk x => alErase akk x)
            c.alternateKeyToKey }).registry t = true from hact)]
    rw [cacheTransactionRun_eq]
    have hotx1 : openTx (putCache g t
        { c with
            lru := (LruMap.delete e.key c.lru).1,
            alternateKeyToKey := e.alternateKeys.foldl (fun akk x => alErase akk x)
              c.alternateKeyToKey }) =
        { putCache g t
            { c with
                lru := (LruMap.delete e.key c.lru).1,
                alternateKeyToKey := e.alternateKeys.foldl (fun akk x => alErase akk x)
                  c.alternateKeyToKey } with
            transactionChangeObject := some emptyChangeObject,
            runningTransactions := (putCache g t
              { c with
                  lru := (LruMap.delete e.key c.lru).1,
                  alternateKeyToKey := e.alternateKeys.foldl (fun akk x => alErase akk x)
                    c.alternateKeyToKey }).runningTransactions + 1 } := by
      rw [openTx]
      rw [if_neg (show ¬((putCache g t
        { c with
            lru := (LruMap.delete e.key c.lru).1,
            alternateKeyToKey := e.alternateKeys.foldl (fun akk x => alErase akk x)
              c.alternateKeyToKey }).transactionChangeObject.isSome = true) by
        show ¬(g.transactionChangeObject.isSome = true)
        rw [htx]
        simp)]
    rw [hotx1]
    rw [show handleDeleteRemove hb t e
        { putCache g t
            { c with
                lru := (LruMap.delete e.key c.lru).1,
                alternateKeyToKey := e.alternateKeys.foldl (fun akk x => alErase akk x)
                  c.alternateKeyToKey } with
            transactionChangeObject := some emptyChangeObject,
            runningTransactions := (putCache g t
              { c with
                  lru := (LruMap.delete e.key c.lru).1,
                  alternateKeyToKey := e.alternateKeys.foldl (fun akk x => alErase akk x)
                    c.alternateKeyToKey }).runningTransactions + 1 } =
        handleChange hb t e FieldKind.deleteRemoves
          { putCache g t
              { c with
                  lru := (LruMap.delete e.key c.lru).1,
                  alternateKeyToKey := e.alternateKeys.foldl (fun akk x => alErase akk x)
                    c.alternateKeyToKey } with
              transactionChangeObject := some emptyChangeObject,
              runningTransactions := (putCache g t
                { c with
                    lru := (LruMap.delete e.key c.lru).1,
                    alternateKeyToKey := e.alternateKeys.foldl (fun akk x => alErase akk x)
                      c.alternateKeyToKey }).runningTransactions + 1 } by
      rw [handleDeleteRemove]
      rw [if_pos (show (({ putCache g t
          { c with
              lru := (LruMap.delete e.key c.lru).1,
              alternateKeyToKey := e.alternateKeys.foldl (fun akk x => alErase akk x)
                c.alternateKeyToKey } with
          transactionChangeObject := some emptyChangeObject,
          runningTransactions := (putCache g t
            { c with
                lru := (LruMap.delete e.key c.lru).1,
                alternateKeyToKey := e.alternateKeys.foldl (fun akk x => alErase akk x)
                  c.alternateKeyToKey }).runningTransactions + 1 } : GState V)).handleChanges
          = true from hhc)]]
    rw [handleChange_batch_eq hb t e FieldKind.deleteRemoves _ emptyChangeObject rfl]
    dsimp only
    simp only [putCache_registry, putCache_rt, putCache_txObj, putCache_changeOrder,
      putCache_handleChanges, putCache_recordLog, putCache_dispatchLog]
    rw [if_pos (show g.runningTransactions + 1 - 1 = 0 by omega)]
    rw [closeDispatch_spec hb _ (pushToChangeObject emptyChangeObject t
      FieldKind.deleteRemoves ⟨e.key, e.value, e.alternateKeys, g.changeOrder⟩) rfl]
    rw [if_pos (thrownMsgs_nil_of_benign hbGood hwf _ _)]
    refine ⟨rfl, ⟨_, alGet_alSet_self _ _ _, hrep2, ?_⟩, ?_, hmiss⟩
    · intro x hx
      rw [alGet_foldl_alErase]
      rw [if_pos hx]
    · show g.recordLog ++ _ = _
      rw [if_pos hact]
  · rw [if_neg (show ¬(hasActiveHandler (putCache g t
      { c with
          lru := (LruMap.delete e.key c.lru).1,
          alternateKeyToKey := e.alternateKeys.foldl (fun akk x => alErase akk x)
            c.alternateKeyToKey }).registry t = true) from hact)]
    rw [show handleDeleteRemove hb t e
        { putCache g t
            { c with
                lru := (LruMap.delete e.key c.lru).1,
                alternateKeyToKey := e.alternateKeys.foldl (fun akk x => alErase akk x)
                  c.alternateKeyToKey } with
            handleChanges := false } =
        ({ putCache g t
            { c with
                lru := (LruMap.delete e.key c.lru).1,
                alternateKeyToKey := e.alternateKeys.foldl (fun akk x => alErase akk x)
                  c.alternateKeyToKey } with
            handleChanges := false }, none) by
      rw [handleDeleteRemove]
      rw [if_neg (by simp)]]
    refine ⟨rfl, ⟨_, alGet_alSet_self _ _ _, hrep2, ?_⟩, ?_, hmiss⟩
    · intro x hx
      rw [alGet_foldl_alErase]
      rw [if_pos hx]
    · show g.recordLog = _
      rw [if_neg hact]
      rw [List.append_nil]

/-- A one-entry cache: entry `p ↦ 0` with alternate key `a`. -/
def eW : CacheEntry Nat := ⟨"p", 0, ["a"]⟩

def lruW : LruState (CacheEntry Nat) :=
  { nodes := [("p", ⟨eW, none, none⟩)], newest := some "p", oldest := some "p",
    sizeLimit := some 500 }

def cW : CacheState Nat :=
  { lru := lruW, alternateKeyToKey := [("a", "p")], dispatchLruRemoves := false,
    dispatchClearRemoves := false }

def gW9 : GState Nat := { initGState with valueTypeToCache := [("T", cW)] }

/-- Instantiation of the C9 theorem: deleting the one-entry cache through
the alternate key `a`. -/
theorem claim_C9_delete_by_alternate_key_witness :
    alGet gW9.valueTypeToCache "T" = some cW ∧
    ((cacheDelete benignHB "T" "a" gW9).2 = Except.ok true) ∧
    (∃ c2 : CacheState Nat, alGet (cacheDelete benignHB "T" "a" gW9).1.valueTypeToCache "T"
        = some c2 ∧
      Represents c2.lru ([] ++ []) ∧
      (∀ x ∈ eW.alternateKeys, alGet c2.alternateKeyToKey x = none)) ∧
    ((cacheDelete benignHB "T" "a" gW9).1.recordLog = gW9.recordLog ++
      (if hasActiveHandler gW9.registry "T" then
        [⟨"T", FieldKind.deleteRemoves, ⟨eW.key, eW.value, eW.alternateKeys,
          gW9.changeOrder⟩⟩]
       else [])) ∧
    (∀ x : String, alGet cW.lru.nodes x = none → alGet cW.alternateKeyToKey x = none →
      cacheDelete benignHB "T" x gW9 = (gW9, Except.ok false)) :=
  ⟨rfl,
    claim_C9_delete_by_alternate_key benignHB gW9 "T" "a" "p" eW cW [] [] rfl
      ⟨⟨rfl, ⟨eW, none, none⟩, rfl, rfl, rfl, rfl, rfl⟩, by simp, by simp [cW, lruW]⟩
      rfl rfl rfl (fun _ _ => rfl) (by refine ⟨?_, ?_⟩ <;> decide) rfl rfl rfl⟩

/-- The success path of one `setAll` iteration: fresh key, room in the
cache, no conflicting alternate key.  The entry is stored, made newest, and
the alternate keys bound. -/
theorem setAllEntry_success {V : Type} (hb : HB V) (t : String) (dl : Bool) (k : String)
    (v : V) (A : AltArg) (g : GState V) (c : CacheState V)
    (l : List (String × CacheEntry V))
    (hc : alGet g.valueTypeToCache t = some c)
    (hmode : g.transactionChangeObject.isSome = true ∨ g.handleChanges = false)
    (hrep : Represents c.lru l)
    (hfresh : k ∉ l.map Prod.fst)
    (hcap : CapOK c.lru)
    (hroom : ∀ m, c.lru.sizeLimit = some m → l.length + 1 ≤ m)
    (hnoconf : ∀ a ∈ altKeysOf A, ∀ k2, alGet c.alternateKeyToKey a = some k2 → k2 = k) :
    ∃ g2 : GState V, setAllEntry hb t dl ⟨k, v, A⟩ g = (g2, none) ∧
      g2.valueTypeToCache = alSet g.valueTypeToCache t
        { c with
            lru := (LruMap.set k ⟨k, v, jsSetOf (altKeysOf A)⟩ c.lru).1,
            alternateKeyToKey := (jsSetOf (altKeysOf A)).foldl
              (fun akk a => alSet akk a k) c.alternateKeyToKey } ∧
      Represents (LruMap.set k ⟨k, v, jsSetOf (altKeysOf A)⟩ c.lru).1
        (l ++ [(k, ⟨k, v, jsSetOf (altKeysOf A)⟩)]) := by
  have hgetmiss : alGet c.lru.nodes k = none := represents_alGet_none hrep hfresh
  have hfind : (altKeysOf A).find? (fun a =>
      match alGet c.alternateKeyToKey a with
      | some k2 => k2 != k
      | none => false) = none := by
    rw [List.find?_eq_none]
    intro a ha
    cases halg : alGet c.alternateKeyToKey a with
    | none => simp [halg]
    | some k2 =>
      have hk2 := hnoconf a ha k2 halg
      simp [halg, hk2]
  obtain ⟨hset2, hrepS⟩ := set_spec_fresh_room (v := (⟨k, v, jsSetOf (altKeysOf A)⟩
    : CacheEntry V)) hrep hfresh hcap hroom
  rw [setAllEntry, hc]
  dsimp only
  rw [get_spec_miss hgetmiss]
  dsimp only
  rw [hfind]
  dsimp only
  rw [show LruMap.set k (⟨k, v, jsSetOf (altKeysOf A)⟩ : CacheEntry V) c.lru =
      ((LruMap.set k (⟨k, v, jsSetOf (altKeysOf A)⟩ : CacheEntry V) c.lru).1, none) from
    Prod.ext rfl hset2]
  dsimp only
  split
  next g2 err hi =>
    exact (handleInsert_mode_contra hi hmode).elim
  next g2 hi =>
    obtain ⟨hmode2, hvtc2⟩ := handleInsert_mode_next hi hmode
    exact ⟨g2, rfl, by rw [hvtc2]; rfl, hrepS⟩

/-- A `get` through either the primary key or a bound alternate key of the
newest entry returns its value. -/
theorem cacheGet_roundtrip {V : Type} (t x k : String) (v : V) (gF : GState V)
    (c2 : CacheState V) (l : List (String × CacheEntry V)) (entry : CacheEntry V)
    (hlook : alGet gF.valueTypeToCache t = some c2)
    (hrep2 : Represents c2.lru (l ++ [(k, entry)]))
    (hval : entry.value = v)
    (hcase : x = k ∨
      (x ∉ (l ++ [(k, entry)]).map Prod.fst ∧ alGet c2.alternateKeyToKey x = some k)) :
    (cacheGet t x gF).2 = some v := by
  have hhit : LruMap.get k c2.lru = ((LruMap.get k c2.lru).1, some entry) := by
    have h := (@get_spec_mem (CacheEntry V) c2.lru l [] k entry hrep2).1
    exact Prod.ext rfl h
  rw [cacheGet, getCache_of_present hlook]
  dsimp only
  rw [entryGetterTouch]
  rcases hcase with rfl | ⟨hxl, hbind⟩
  · rw [hhit]
    dsimp only
    simp [hval]
  · have hmiss0 : alGet c2.lru.nodes x = none := represents_alGet_none hrep2 hxl
    rw [get_spec_miss hmiss0]
    dsimp only
    rw [hbind]
    dsimp only
    rw [hhit]
    dsimp only
    simp [hval]

/-- The original C6 claim is false as stated: an alternate key that happens
to be the primary key of another cached entry binds without conflict, but
`get` resolves the primary key first.  Here `set {p, 1}` then
`set {k, 2, alternateKeys: [p]}` both succeed, yet `get p` returns `1`,
not the value `2` stored with alternate key `p`. -/
theorem claim_C6_counterexample :
    ((setAll benignHB "T" [⟨"k", 2, AltArg.arrArg ["p"]⟩]
        (setAll benignHB "T" [⟨"p", 1, AltArg.noneArg⟩] initGState).1).2 = none) ∧
    ((cacheGet "T" "p" (setAll benignHB "T" [⟨"k", 2, AltArg.arrArg ["p"]⟩]
        (setAll benignHB "T" [⟨"p", 1, AltArg.noneArg⟩] initGState).1).1).2 = some 1) ∧
    ((cacheGet "T" "p" (setAll benignHB "T" [⟨"k", 2, AltArg.arrArg ["p"]⟩]
        (setAll benignHB "T" [⟨"p", 1, AltArg.noneArg⟩] initGState).1).1).2 ≠ some 2) :=
  ⟨rfl, rfl, by decide⟩

/-- A fresh empty cache for the round-trip instantiation. -/
def gW6 : GState Nat :=
  { initGState with valueTypeToCache := [("T", LruCacheNew Nat (some 500))] }

/-! ## The other success paths of a `setAll` iteration -/

theorem alSet_alSet {κ α : Type} [DecidableEq κ] (m : List (κ × α)) (k : κ) (x y : α) :
    alSet (alSet m k x) k y = alSet m k y := by
  induction m with
  | nil => simp
  | cons p rest ih =>
    obtain ⟨k1, v1⟩ := p
    by_cases h : k1 = k
    · subst h
      simp
    · simp [h, ih]

/-- The update path of one `setAll` iteration: the key is already cached,
so its entry is touched, its value replaced and its alternate keys
extended; nothing is evicted. -/
theorem setAllEntry_update_path {V : Type} (hb : HB V) (t : String) (dl : Bool)
    (k : String) (v : V) (A : AltArg) (g : GState V) (c : CacheState V)
    (l1 : List (String × CacheEntry V)) (e : CacheEntry V)
    (l2 : List (String × CacheEntry V))
    (hc : alGet g.valueTypeToCache t = some c)
    (hmode : g.transactionChangeObject.isSome = true ∨ g.handleChanges = false)
    (hrep : Represents c.lru (l1 ++ (k, e) :: l2))
    (hcap : CapOK c.lru)
    (hbound : ∀ m, c.lru.sizeLimit = some m → (l1 ++ (k, e) :: l2).length ≤ m)
    (hnoconf : ∀ a ∈ altKeysOf A, ∀ k2, alGet c.alternateKeyToKey a = some k2 → k2 = k) :
    ∃ g2 : GState V, setAllEntry hb t dl ⟨k, v, A⟩ g = (g2, none) ∧
      g2.valueTypeToCache = alSet g.valueTypeToCache t
        { c with
            lru := (LruMap.set k ⟨e.key, v,
              jsSetOf (e.alternateKeys ++ jsSetOf (altKeysOf A))⟩
              (LruMap.get k c.lru).1).1,
            alternateKeyToKey := (jsSetOf (altKeysOf A)).foldl
              (fun akk a => alSet akk a k) c.alternateKeyToKey } ∧
      Represents (LruMap.set k ⟨e.key, v,
          jsSetOf (e.alternateKeys ++ jsSetOf (altKeysOf A))⟩ (LruMap.get k c.lru).1).1
        ((l1 ++ l2) ++ [(k, ⟨e.key, v,
          jsSetOf (e.alternateKeys ++ jsSetOf (altKeysOf A))⟩)]) := by
  obtain ⟨hget2, hrepT⟩ := get_spec_mem hrep
  have hpair : LruMap.get k c.lru = ((LruMap.get k c.lru).1, some e) :=
    Prod.ext rfl hget2
  have hfind : (altKeysOf A).find? (fun a =>
      match alGet c.alternateKeyToKey a with
      | some k2 => k2 != k
      | none => false) = none := by
    rw [List.find?_eq_none]
    intro a ha
    cases halg : alGet c.alternateKeyToKey a with
    | none => simp [halg]
    | some k2 =>
      have hk2 := hnoconf a ha k2 halg
      simp [halg, hk2]
  have hcapT : CapOK (LruMap.get k c.lru).1 := by
    intro m hm
    rw [get_sizeLimit] at hm
    exact hcap m hm
  have hsizeT : ∀ m, (LruMap.get k c.lru).1.sizeLimit = some m →
      ((l1 ++ l2) ++ (k, e) :: []).length ≤ m := by
    intro m hm
    rw [get_sizeLimit] at hm
    have h := hbound m hm
    simp only [List.length_append, List.length_cons, List.length_nil] at h ⊢
    omega
  obtain ⟨hset2, hrepS⟩ := set_spec_update
    (v := (⟨e.key, v, jsSetOf (e.alternateKeys ++ jsSetOf (altKeysOf A))⟩ : CacheEntry V))
    hrepT hcapT hsizeT
  rw [List.append_nil] at hrepS
  have hsetpair : LruMap.set k
      (⟨e.key, v, jsSetOf (e.alternateKeys ++ jsSetOf (altKeysOf A))⟩ : CacheEntry V)
      (LruMap.get k c.lru).1 =
      ((LruMap.set k (⟨e.key, v, jsSetOf (e.alternateKeys ++ jsSetOf (altKeysOf A))⟩
        : CacheEntry V) (LruMap.get k c.lru).1).1, none) :=
    Prod.ext rfl hset2
  rw [setAllEntry, hc]
  dsimp only
  rw [hpair]
  dsimp only
  rw [hfind]
  dsimp only
  rw [hsetpair]
  dsimp only
  split
  next g2 err hi =>
    exact (handleInsert_mode_contra hi hmode).elim
  next g2 hi =>
    obtain ⟨hmode2, hvtc2⟩ := handleInsert_mode_next hi hmode
    exact ⟨g2, rfl, by rw [hvtc2]; rfl, hrepS⟩

/-- The evicting path of one `setAll` iteration: a fresh key into a full
bounded cache; the oldest entry is evicted and its alternate keys unbound
after the new ones were bound.  When the evicted entry's alternate keys are
disjoint from the supplied ones (which holds in consistent states thanks to
the conflict check), the new bindings survive the cleanup. -/
theorem setAllEntry_evict_path {V : Type} (hb : HB V) (t : String) (dl : Bool)
    (k : String) (v : V) (A : AltArg) (g : GState V) (c : CacheState V)
    (k0 : String) (e0 : CacheEntry V) (lt : List (String × CacheEntry V)) (m : Nat)
    (hc : alGet g.valueTypeToCache t = some c)
    (hmode : g.transactionChangeObject.isSome = true ∨ g.handleChanges = false)
    (hrep : Represents c.lru ((k0, e0) :: lt))
    (hfresh : k ∉ ((k0, e0) :: lt).map Prod.fst)
    (hm : c.lru.sizeLimit = some m) (hm1 : 1 ≤ m)
    (hlen : ((k0, e0) :: lt).length = m)
    (hnoconf : ∀ a ∈ altKeysOf A, ∀ k2, alGet c.alternateKeyToKey a = some k2 → k2 = k)
    (hA0 : ∀ a ∈ altKeysOf A, a ∉ e0.alternateKeys) :
    ∃ g2 : GState V, setAllEntry hb t dl ⟨k, v, A⟩ g = (g2, none) ∧
      g2.valueTypeToCache = alSet g.valueTypeToCache t
        { c with
            lru := (LruMap.set k ⟨k, v, jsSetOf (altKeysOf A)⟩ c.lru).1,
            alternateKeyToKey := e0.alternateKeys.foldl (fun akk x => alErase akk x)
              ((jsSetOf (altKeysOf A)).foldl (fun akk a => alSet akk a k)
                c.alternateKeyToKey) } ∧
      Represents (LruMap.set k ⟨k, v, jsSetOf (altKeysOf A)⟩ c.lru).1
        (lt ++ [(k, ⟨k, v, jsSetOf (altKeysOf A)⟩)]) ∧
      (∀ a ∈ altKeysOf A, alGet (e0.alternateKeys.foldl (fun akk x => alErase akk x)
        ((jsSetOf (altKeysOf A)).foldl (fun akk a => alSet akk a k)
          c.alternateKeyToKey)) a = some k) := by
  have hgetmiss : alGet c.lru.nodes k = none := represents_alGet_none hrep hfresh
  have hfind : (altKeysOf A).find? (fun a =>
      match alGet c.alternateKeyToKey a with
      | some k2 => k2 != k
      | none => false) = none := by
    rw [List.find?_eq_none]
    intro a ha
    cases halg : alGet c.alternateKeyToKey a with
    | none => simp [halg]
    | some k2 =>
      have hk2 := hnoconf a ha k2 halg
      simp [halg, hk2]
  obtain ⟨hset2, hrepS⟩ := set_spec_fresh_evict
    (v := (⟨k, v, jsSetOf (altKeysOf A)⟩ : CacheEntry V)) hrep hfresh hm hm1 hlen
  have hsetpair : LruMap.set k (⟨k, v, jsSetOf (altKeysOf A)⟩ : CacheEntry V) c.lru =
      ((LruMap.set k (⟨k, v, jsSetOf (altKeysOf A)⟩ : CacheEntry V) c.lru).1,
        some (k0, e0)) :=
    Prod.ext rfl hset2
  have hbind : ∀ a ∈ altKeysOf A, alGet (e0.alternateKeys.foldl
      (fun akk x => alErase akk x) ((jsSetOf (altKeysOf A)).foldl
        (fun akk a => alSet akk a k) c.alternateKeyToKey)) a = some k := by
    intro a ha
    rw [alGet_foldl_alErase]
    rw [if_neg (hA0 a ha)]
    rw [alGet_foldl_alSet_const]
    rw [if_pos ((mem_jsSetOf _ _).mpr ha)]
  rw [setAllEntry, hc]
  dsimp only
  rw [get_spec_miss hgetmiss]
  dsimp only
  rw [hfind]
  dsimp only
  rw [hsetpair]
  dsimp only
  split
  next g2 err hi =>
    exact (handleInsert_mode_contra hi hmode).elim
  next g2 hi =>
    obtain ⟨hmode2, hvtc2⟩ := handleInsert_mode_next hi hmode
    rw [hvtc2, putCache_vtc, alGet_alSet_self]
    dsimp only
    split
    · refine ⟨_, Prod.ext rfl (handleLruRemove_mode hb t _ _ (by exact hmode2)).1,
        Eq.trans (handleLruRemove_mode hb t _ _ (by exact hmode2)).2.2 ?_, hrepS, hbind⟩
      rw [putCache_vtc, hvtc2, putCache_vtc, alSet_alSet]
    · refine ⟨_, rfl, ?_, hrepS, hbind⟩
      rw [putCache_vtc, hvtc2, putCache_vtc, alSet_alSet]

/-- A one-element `setAll` whose iteration succeeds, through the
transaction wrapper: no error escapes, and the updated cache instance is
the one stored for the type. -/
theorem setAll_single_success {V : Type} (hb : HB V) (t k : String) (v : V) (A : AltArg)
    (g : GState V) (c c2 : CacheState V)
    (hc : alGet g.valueTypeToCache t = some c)
    (hbody : ∀ gB : GState V, alGet gB.valueTypeToCache t = some c →
      (gB.transactionChangeObject.isSome = true ∨ gB.handleChanges = false) →
      ∃ g2 : GState V, setAllEntry hb t c.dispatchLruRemoves ⟨k, v, A⟩ gB = (g2, none) ∧
        g2.valueTypeToCache = alSet gB.valueTypeToCache t c2)
    (hbGood : ∀ key co, hb key co = none) (hwf : RegistryWF g.registry)
    (hrt : g.runningTransactions = 0) (htx : g.transactionChangeObject = none) :
    ((setAll hb t [⟨k, v, A⟩] g).2 = none) ∧
    alGet (setAll hb t [⟨k, v, A⟩] g).1.valueTypeToCache t = some c2 := by
  rw [setAll, getCache_of_present hc]
  dsimp only
  rw [wrapInTransaction]
  by_cases hact : hasActiveHandler g.registry t = true
  · rw [if_pos hact]
    rw [cacheTransactionRun_eq]
    have hotx1 : openTx g = { g with
        transactionChangeObject := some emptyChangeObject,
        runningTransactions := g.runningTransactions + 1 } := by
      rw [openTx]
      rw [if_neg (show ¬(g.transactionChangeObject.isSome = true) by rw [htx]; simp)]
    rw [hotx1, runEntries]
    obtain ⟨g2, hse, hvtc2⟩ := hbody
      { g with
          transactionChangeObject := some emptyChangeObject,
          runningTransactions := g.runningTransactions + 1 }
      hc (Or.inl rfl)
    rw [hse]
    dsimp only
    rw [show runEntries hb t c.dispatchLruRemoves ([] : List (SetArg V)) g2 =
      (g2, none) from rfl]
    have hgs := goodStep_setAllEntry hb t c.dispatchLruRemoves ⟨k, v, A⟩
      { g with
          transactionChangeObject := some emptyChangeObject,
          runningTransactions := g.runningTransactions + 1 }
    rw [hse] at hgs
    dsimp only at hgs
    obtain ⟨hd1, hrt1, hsome1, delta1, hx4, hx5, hx6⟩ := hgs.2 (by simp) (by simp)
    have hreg1 : g2.registry = g.registry := by
      have h := setAllEntry_registry hb t c.dispatchLruRemoves ⟨k, v, A⟩
        { g with
            transactionChangeObject := some emptyChangeObject,
            runningTransactions := g.runningTransactions + 1 }
      rw [hse] at h
      exact h
    have hz : g2.runningTransactions - 1 = 0 := by
      simp at hrt1
      omega
    dsimp only
    rw [if_pos (show ({ g2 with runningTransactions := g2.runningTransactions - 1 }
      : GState V).runningTransactions = 0 from hz)]
    obtain ⟨hfrec, hfreg, hfvtc, hfrt, hfhc, d3, hfd⟩ :=
      closeDispatch_frame hb { g2 with runningTransactions := g2.runningTransactions - 1 }
    cases hcd : closeDispatch hb
        { g2 with runningTransactions := g2.runningTransactions - 1 } with
    | mk g5 e5 =>
      rw [hcd] at hfvtc
      have he5 : e5 = none := by
        have h := close_benign hb hbGood
          (show RegistryWF ({ g2 with runningTransactions := g2.runningTransactions - 1 }
            : GState V).registry by
            show RegistryWF g2.registry
            rw [hreg1]
            exact hwf)
          (show ({ g2 with runningTransactions := g2.runningTransactions - 1 }
            : GState V).transactionChangeObject.isSome = true from hsome1)
        rw [hcd] at h
        exact h
      subst he5
      refine ⟨rfl, ?_⟩
      rw [hfvtc]
      show alGet g2.valueTypeToCache t = _
      rw [hvtc2]
      exact alGet_alSet_self _ _ _
  · rw [if_neg hact]
    rw [runEntries]
    obtain ⟨g2, hse, hvtc2⟩ := hbody { g with handleChanges := false } hc (Or.inr rfl)
    rw [hse]
    dsimp only
    rw [show runEntries hb t c.dispatchLruRemoves ([] : List (SetArg V)) g2 =
      (g2, none) from rfl]
    dsimp only
    refine ⟨rfl, ?_⟩
    show alGet g2.valueTypeToCache t = _
    rw [hvtc2]
    exact alGet_alSet_self _ _ _

/-! ## The C6 round trip over all three `set` paths -/

theorem exists_key_split {α : Type} {l : List (String × α)} {k : String}
    (h : k ∈ l.map Prod.fst) : ∃ l1 e l2, l = l1 ++ (k, e) :: l2 := by
  obtain ⟨p, hp, hk⟩ := List.mem_map.mp h
  obtain ⟨l1, l2, hl⟩ := List.append_of_mem hp
  exact ⟨l1, p.2, l2, by rw [hl, ← hk]⟩

theorem notmem_snoc_keys {α : Type} {L : List (String × α)} {k a : String} {e2 : α}
    (hL : a ∉ L.map Prod.fst) (hak : a ≠ k) :
    a ∉ (L ++ [(k, e2)]).map Prod.fst := by
  intro h
  rw [List.map_append, List.mem_append] at h
  rcases h with h | h
  · exact hL h
  · simp at h
    exact hak h

theorem notmem_middle_drop {α : Type} {l1 l2 : List (String × α)} {k a : String} {e : α}
    (h : a ∉ (l1 ++ (k, e) :: l2).map Prod.fst) : a ∉ (l1 ++ l2).map Prod.fst := by
  intro h2
  apply h
  rw [List.map_append, List.mem_append] at h2 ⊢
  rcases h2 with h3 | h3
  · exact Or.inl h3
  · exact Or.inr (by rw [List.map_cons]; exact List.mem_cons_of_mem _ h3)

/-- A cache of capacity one, for the evicting-insert round trip. -/
def gW6b : GState Nat :=
  { initGState with valueTypeToCache := [("T", LruCacheNew Nat (some 1))] }

/-- Claim C6, amended: round trip through `set` and `get`.  After a
successful `set({key, value, alternateKeys: A})` on a consistent cache —
each supplied alternate key either equals the key or is not the primary
key of a cached entry, and is not bound to a different primary key —
`get(alt)` for every `alt` in `A` and `get(key)` return `value`.  This
covers a fresh insert, an update of an already cached key, and an insert
evicting the oldest entry of a full cache; the two closing conjuncts
exhibit the latter two paths concretely (update `set {k,1,[a]}` then
`set {k,2,[b]}`, and an insert with an alternate key into a full
capacity-one cache).  The carve-out is forced: `claim_C6_counterexample`
shows the round trip fails when an alternate key is the primary key of
another cached entry, because `get` resolves the primary key space
first. -/
theorem claim_C6_round_trip {V : Type} (hb : HB V) (g : GState V) (t k : String) (v : V)
    (A : AltArg) (c : CacheState V) (l : List (String × CacheEntry V))
    (hc : alGet g.valueTypeToCache t = some c)
    (hrep : Represents c.lru l)
    (hcap : CapOK c.lru)
    (hbound : ∀ m, c.lru.sizeLimit = some m → l.length ≤ m)
    (hcons : ∀ pk e2, (pk, e2) ∈ l → ∀ x ∈ e2.alternateKeys,
      alGet c.alternateKeyToKey x = some pk)
    (hfreshA : ∀ a ∈ altKeysOf A, a = k ∨ a ∉ l.map Prod.fst)
    (hnoconf : ∀ a ∈ altKeysOf A, ∀ k2, alGet c.alternateKeyToKey a = some k2 → k2 = k)
    (hbGood : ∀ key co, hb key co = none) (hwf : RegistryWF g.registry)
    (hrt : g.runningTransactions = 0) (htx : g.transactionChangeObject = none) :
    (((setAll hb t [⟨k, v, A⟩] g).2 = none) ∧
     (∀ a ∈ altKeysOf A, (cacheGet t a (setAll hb t [⟨k, v, A⟩] g).1).2 = some v) ∧
     ((cacheGet t k (setAll hb t [⟨k, v, A⟩] g).1).2 = some v)) ∧
    ((cacheGet "T" "b" (setAll benignHB "T" [⟨"k", 2, AltArg.arrArg ["b"]⟩]
        (setAll benignHB "T" [⟨"k", 1, AltArg.arrArg ["a"]⟩] gW6).1).1).2 = some 2 ∧
     (cacheGet "T" "a" (setAll benignHB "T" [⟨"k", 2, AltArg.arrArg ["b"]⟩]
        (setAll benignHB "T" [⟨"k", 1, AltArg.arrArg ["a"]⟩] gW6).1).1).2 = some 2 ∧
     (cacheGet "T" "k" (setAll benignHB "T" [⟨"k", 2, AltArg.arrArg ["b"]⟩]
        (setAll benignHB "T" [⟨"k", 1, AltArg.arrArg ["a"]⟩] gW6).1).1).2 = some 2) ∧
    ((cacheGet "T" "a" (setAll benignHB "T" [⟨"k2", 2, AltArg.arrArg ["a"]⟩]
        (setAll benignHB "T" [⟨"k1", 1, AltArg.noneArg⟩] gW6b).1).1).2 = some 2 ∧
     (cacheGet "T" "k2" (setAll benignHB "T" [⟨"k2", 2, AltArg.arrArg ["a"]⟩]
        (setAll benignHB "T" [⟨"k1", 1, AltArg.noneArg⟩] gW6b).1).1).2 = some 2) := by
  refine ⟨?_, ⟨rfl, rfl, rfl⟩, rfl, rfl⟩
  have hbindA : ∀ a ∈ altKeysOf A, alGet ((jsSetOf (altKeysOf A)).foldl
      (fun akk x => alSet akk x k) c.alternateKeyToKey) a = some k := by
    intro x hx
    rw [alGet_foldl_alSet_const]
    rw [if_pos ((mem_jsSetOf _ _).mpr hx)]
  by_cases hmem : k ∈ l.map Prod.fst
  · -- the key is already cached: the update path
    obtain ⟨l1, e, l2, hl⟩ := exists_key_split hmem
    subst hl
    obtain ⟨_g2, _h1, _h2, hrepS⟩ := setAllEntry_update_path hb t c.dispatchLruRemoves
      k v A { g with handleChanges := false } c l1 e l2 hc (Or.inr rfl) hrep hcap
      hbound hnoconf
    obtain ⟨hok, hlook2⟩ := setAll_single_success hb t k v A g c _ hc
      (fun gB hcB hmodeB => by
        obtain ⟨g2, h1, h2, _⟩ := setAllEntry_update_path hb t c.dispatchLruRemoves
          k v A gB c l1 e l2 hcB hmodeB hrep hcap hbound hnoconf
        exact ⟨g2, h1, h2⟩)
      hbGood hwf hrt htx
    refine ⟨hok, ?_, ?_⟩
    · intro a ha
      by_cases hak : a = k
      · subst hak
        exact cacheGet_roundtrip t a a v _ _ (l1 ++ l2) _ hlook2 hrepS rfl (Or.inl rfl)
      · have hnotl := (hfreshA a ha).resolve_left hak
        exact cacheGet_roundtrip t a k v _ _ (l1 ++ l2) _ hlook2 hrepS rfl
          (Or.inr ⟨notmem_snoc_keys (notmem_middle_drop hnotl) hak, hbindA a ha⟩)
    · exact cacheGet_roundtrip t k k v _ _ (l1 ++ l2) _ hlook2 hrepS rfl (Or.inl rfl)
  · by_cases hroom : ∀ m, c.lru.sizeLimit = some m → l.length + 1 ≤ m
    · -- a fresh key with room (or no bound): the plain insert path
      obtain ⟨_g2, _h1, _h2, hrepS⟩ := setAllEntry_success hb t c.dispatchLruRemoves
        k v A { g with handleChanges := false } c l hc (Or.inr rfl) hrep hmem hcap
        hroom hnoconf
      obtain ⟨hok, hlook2⟩ := setAll_single_success hb t k v A g c _ hc
        (fun gB hcB hmodeB => by
          obtain ⟨g2, h1, h2, _⟩ := setAllEntry_success hb t c.dispatchLruRemoves
            k v A gB c l hcB hmodeB hrep hmem hcap hroom hnoconf
          exact ⟨g2, h1, h2⟩)
        hbGood hwf hrt htx
      refine ⟨hok, ?_, ?_⟩
      · intro a ha
        by_cases hak : a = k
        · subst hak
          exact cacheGet_roundtrip t a a v _ _ l _ hlook2 hrepS rfl (Or.inl rfl)
        · have hnotl := (hfreshA a ha).resolve_left hak
          exact cacheGet_roundtrip t a k v _ _ l _ hlook2 hrepS rfl
            (Or.inr ⟨notmem_snoc_keys hnotl hak, hbindA a ha⟩)
      · exact cacheGet_roundtrip t k k v _ _ l _ hlook2 hrepS rfl (Or.inl rfl)
    · -- a fresh key into a full bounded cache: the evicting path
      push_neg at hroom
      obtain ⟨m, hsl, hlt⟩ := hroom
      have hlen : l.length = m := by
        have h1 := hbound m hsl
        omega
      have hm1 : 1 ≤ m := hcap m hsl
      cases l with
      | nil =>
        exfalso
        simp at hlen
        omega
      | cons hd tl =>
        obtain ⟨k0, e0⟩ := hd
        have hA0 : ∀ a ∈ altKeysOf A, a ∉ e0.alternateKeys := by
          intro a ha hmem0
          have hb0 := hcons k0 e0 (List.mem_cons_self _ _) a hmem0
          have hk0 := hnoconf a ha k0 hb0
          exact hmem (by simp [hk0])
        obtain ⟨_g2, _h1, _h2, hrepS, hbindE⟩ := setAllEntry_evict_path hb t
          c.dispatchLruRemoves k v A { g with handleChanges := false } c k0 e0 tl m
          hc (Or.inr rfl) hrep hmem hsl hm1 hlen hnoconf hA0
        obtain ⟨hok, hlook2⟩ := setAll_single_success hb t k v A g c _ hc
          (fun gB hcB hmodeB => by
            obtain ⟨g2, h1, h2, _, _⟩ := setAllEntry_evict_path hb t
              c.dispatchLruRemoves k v A gB c k0 e0 tl m hcB hmodeB hrep hmem hsl
              hm1 hlen hnoconf hA0
            exact ⟨g2, h1, h2⟩)
          hbGood hwf hrt htx
        refine ⟨hok, ?_, ?_⟩
        · intro a ha
          by_cases hak : a = k
          · subst hak
            exact cacheGet_roundtrip t a a v _ _ tl _ hlook2 hrepS rfl (Or.inl rfl)
          · have hnotl := (hfreshA a ha).resolve_left hak
            have hntl : a ∉ tl.map Prod.fst := by
              intro h2
              exact hnotl (by rw [List.map_cons]; exact List.mem_cons_of_mem _ h2)
            exact cacheGet_roundtrip t a k v _ _ tl _ hlook2 hrepS rfl
              (Or.inr ⟨notmem_snoc_keys hntl hak, hbindE a ha⟩)
        · exact cacheGet_roundtrip t k k v _ _ tl _ hlook2 hrepS rfl (Or.inl rfl)

/-- Instantiation of the amended C6 theorem: storing `k ↦ 7` with alternate
key `a` in an empty cache, then reading it back through `a` and `k`. -/
theorem claim_C6_round_trip_witness :
    ((setAll benignHB "T" [⟨"k", 7, AltArg.arrArg ["a"]⟩] gW6).2 = none) ∧
    (∀ a ∈ altKeysOf (AltArg.arrArg ["a"]),
      (cacheGet "T" a (setAll benignHB "T" [⟨"k", 7, AltArg.arrArg ["a"]⟩] gW6).1).2
        = some 7) ∧
    ((cacheGet "T" "k" (setAll benignHB "T" [⟨"k", 7, AltArg.arrArg ["a"]⟩] gW6).1).2
      = some 7) :=
  (claim_C6_round_trip benignHB gW6 "T" "k" 7 (AltArg.arrArg ["a"])
      (LruCacheNew Nat (some 500)) [] rfl
      ⟨⟨rfl, rfl⟩, by simp, by simp [LruCacheNew, LruMap.init]⟩
      (by intro m hm; simp [LruCacheNew, LruMap.init] at hm; omega)
      (by intro m hm; simp [LruCacheNew, LruMap.init] at hm
          simp only [List.length_nil]; omega)
      (by intro pk e2 hmem x hx; cases hmem)
      (by intro a ha; exact Or.inr (by simp))
      (by intro a ha k2 hk2; exact Option.noConfusion hk2)
      (fun _ _ => rfl) (by refine ⟨?_, ?_⟩ <;> decide) rfl rfl).1

/-- Counterexample to the unqualified C9 claim: with entry `a ↦ 1` cached
and entry `k ↦ 2` holding alternate key `a`, `delete("a")` resolves the
primary key space first and removes entry `a`, not the alternate-key
holder `k`: it returns `true`, entry `k` stays cached, and the binding
`a → k` survives, so a lookup of `a` afterwards yields `2` — `delete` by
the alternate key `a` of entry `k` did not remove entry `k` and did not
unbind `a`. -/
theorem claim_C9_counterexample :
    ((cacheGetWithoutLruChange "T" "a"
        (setAll benignHB "T" [⟨"k", 2, AltArg.arrArg ["a"]⟩]
          (setAll benignHB "T" [⟨"a", 1, AltArg.noneArg⟩] initGState).1).1).2 = some 1) ∧
    ((cacheDelete benignHB "T" "a"
        (setAll benignHB "T" [⟨"k", 2, AltArg.arrArg ["a"]⟩]
          (setAll benignHB "T" [⟨"a", 1, AltArg.noneArg⟩] initGState).1).1).2
      = Except.ok true) ∧
    ((cacheGetWithoutLruChange "T" "k"
        (cacheDelete benignHB "T" "a"
          (setAll benignHB "T" [⟨"k", 2, AltArg.arrArg ["a"]⟩]
            (setAll benignHB "T" [⟨"a", 1, AltArg.noneArg⟩] initGState).1).1).1).2
      = some 2) ∧
    ((cacheGetWithoutLruChange "T" "a"
        (cacheDelete benignHB "T" "a"
          (setAll benignHB "T" [⟨"k", 2, AltArg.arrArg ["a"]⟩]
            (setAll benignHB "T" [⟨"a", 1, AltArg.noneArg⟩] initGState).1).1).1).2
      = some 2) :=
  ⟨rfl, rfl, rfl, rfl⟩

end LruCacheVerif
